import Mathlib

/-!
# no-barrel-file: barrel index flattening and import rewriting

A shallow embedding of `internal/parser/parser.go`, `internal/data/barrel_resolved_path.go`
and `cmd/update.go`, together with the parts of Go's `path/filepath`, `strings` and `regexp`
(for the three fixed patterns of `cmd/update.go`) that these files call.  Paths are Unix
paths: the separator is `/` and there is no volume name.
-/

namespace NoBarrel

/-! ## `path/filepath` (Unix) -/

/-- The elements of a path between separators, empty elements included
(`"a//b"` has the elements `a`, the empty element and `b`). -/
def pathElems : List Char → List (List Char)
  | [] => [[]]
  | c :: cs =>
    if c = '/' then [] :: pathElems cs
    else
      match pathElems cs with
      | [] => [[c]]
      | e :: es => (c :: e) :: es

/-- One round of the scanning loop of `filepath.Clean`.  `out` is the output buffer as a
list of elements, last element first.  An empty element (a separator) and `.` are skipped;
`..` backtracks over the last real element when there is one, is dropped at the root of a
rooted path and is appended otherwise; any other element is appended. -/
def cleanStep (rooted : Bool) (out : List (List Char)) (e : List Char) : List (List Char) :=
  if e = [] ∨ e = ['.'] then out
  else if e = ['.', '.'] then
    match out with
    | [] => if rooted then [] else [e]
    | top :: rest => if top = ['.', '.'] then e :: out else rest
  else e :: out

/-- Elements written with one separator between two of them. -/
def joinElems : List (List Char) → List Char
  | [] => []
  | [e] => e
  | e :: es => e ++ '/' :: joinElems es

/-- Whether a path begins with a separator. -/
def isRooted (p : List Char) : Bool :=
  match p with
  | c :: _ => c == '/'
  | [] => false

/-- Go `filepath.Clean` on the characters of a path. -/
def cleanChars (p : List Char) : List Char :=
  if p = [] then ['.']
  else
    let out := (pathElems p).foldl (cleanStep (isRooted p)) []
    if isRooted p then '/' :: joinElems out.reverse
    else if out = [] then ['.']
    else joinElems out.reverse

/-- Go `filepath.Clean`. -/
def Clean (path : String) : String := ⟨cleanChars path.data⟩

/-- Go `strings.Join(elem, "/")` on characters. -/
def sepJoin : List String → List Char
  | [] => []
  | [e] => e.data
  | e :: es => e.data ++ '/' :: sepJoin es

/-- Go `filepath.Join`: the elements from the first non-empty one on are joined with the
separator and the result is cleaned; the result is empty when every element is empty. -/
def Join : List String → String
  | [] => ""
  | e :: es => if e.data = [] then Join es else ⟨cleanChars (sepJoin (e :: es))⟩

/-- The part of a path up to and including its last separator. -/
def dirPrefix : List Char → List Char
  | [] => []
  | c :: cs =>
    if cs.contains '/' then c :: dirPrefix cs
    else if c = '/' then [c]
    else []

/-- Go `filepath.Dir`. -/
def Dir (path : String) : String := ⟨cleanChars (dirPrefix path.data)⟩

/-- The characters of the extension, scanned from the end of the path: `extAux` returns the
suffix that starts at the last dot of the last element. -/
def extAux : List Char → Option (List Char)
  | [] => none
  | c :: cs =>
    match extAux cs with
    | some e => some e
    | none =>
      if cs.contains '/' then none
      else if c = '/' then none
      else if c = '.' then some (c :: cs)
      else none

/-- Go `filepath.Ext`. -/
def Ext (path : String) : String := ⟨(extAux path.data).getD []⟩

/-! ## `internal/parser/parser.go`: flattening of nested barrels -/

/-- The map `barrelDirsWithModulePaths`: barrel directory to its list of re-export targets.
The entries are listed in the order in which `range` visits them, which Go leaves
unspecified: an index is any list of entries with pairwise different directories. -/
abbrev BarrelIndex := List (String × List String)

/-- Map read `index[dir]`. -/
def lookup : BarrelIndex → String → Option (List String)
  | [], _ => none
  | (k, v) :: rest, dir => if k = dir then some v else lookup rest dir

/-- Map write `index[dir] = paths` for a directory that is already a key. -/
def assign (index : BarrelIndex) (dir : String) (paths : List String) : BarrelIndex :=
  index.map fun e => if e.1 = dir then (e.1, paths) else e

/-- The directories of an index. -/
def keys (index : BarrelIndex) : List String := index.map Prod.fst

/-- The loop `for _, modulePath := range paths` shared by `handleNestedBarrels` and
`getResolvedModulePaths`: a target whose full path `Join(fullDirPath, modulePath)` is a key
of the index is replaced by the result of the nested call `nested`, any other target is
kept as `rel modulePath`.  The set `visitedDirs` is threaded through the calls, as the Go
map that the calls share. -/
def expandPaths (nested : String → String → List String → Option (List String × List String))
    (index : BarrelIndex) (fullDirPath : String) (rel : String → String) :
    List String → List String → Option (List String × List String)
  | [], visitedDirs => some ([], visitedDirs)
  | modulePath :: rest, visitedDirs =>
    let path := Join [fullDirPath, modulePath]
    if (lookup index path).isSome then
      match nested path (rel modulePath) visitedDirs with
      | none => none
      | some (resolvedNested, visited1) =>
        match expandPaths nested index fullDirPath rel rest visited1 with
        | none => none
        | some (resolved, visited2) => some (resolvedNested ++ resolved, visited2)
    else
      match expandPaths nested index fullDirPath rel rest visitedDirs with
      | none => none
      | some (resolved, visited2) => some (rel modulePath :: resolved, visited2)

/-- Go `getResolvedModulePaths`, with the depth of the recursion bounded by `fuel`
(`none` when the bound is reached).  Returns the resolved paths and the visited set as the
call leaves it. -/
def getResolvedModulePaths : Nat → String → String → BarrelIndex → List String →
    Option (List String × List String)
  | 0, _, _, _, _ => none
  | fuel + 1, fullDirPath, relDirPath, index, visitedDirs =>
    if fullDirPath ∈ visitedDirs then some ([], visitedDirs)
    else
      match lookup index fullDirPath with
      | none => some ([], visitedDirs)
      | some nestedPaths =>
        expandPaths (fun p r v => getResolvedModulePaths fuel p r index v) index fullDirPath
          (fun modulePath => Join [relDirPath, modulePath]) nestedPaths
          (fullDirPath :: visitedDirs)

/-- The body of the loop of `handleNestedBarrels` for one entry `(dir, modulePaths)`: the
flattened list that is then stored under `dir`. -/
def flattenDir (index : BarrelIndex) (dir : String) (modulePaths : List String) :
    Option (List String) :=
  (expandPaths (fun p r v => getResolvedModulePaths (index.length + 1) p r index v) index dir
    (fun modulePath => modulePath) modulePaths [dir]).map Prod.fst

/-- The loop of `handleNestedBarrels` over the entries `todo`, writing into `index`. -/
def handleEntries : List (String × List String) → BarrelIndex → Option BarrelIndex
  | [], index => some index
  | (dir, modulePaths) :: rest, index =>
    match flattenDir index dir modulePaths with
    | none => none
    | some resolvedModulePaths => handleEntries rest (assign index dir resolvedModulePaths)

/-- Go `handleNestedBarrels`: every entry is visited once, in the order of the list, and
its flattened list is written into the map that later entries read. -/
def handleNestedBarrels (index : BarrelIndex) : Option BarrelIndex :=
  handleEntries index index

/-- The number of barrel directories of the index that are not in the visited set. -/
def unvisited (index : BarrelIndex) (visitedDirs : List String) : Nat :=
  ((keys index).toFinset \ visitedDirs.toFinset).card

/-- Whether every re-export target of the index is a relative path: none begins with a
separator. -/
def relativeTargets (index : BarrelIndex) : Bool :=
  index.all fun e => e.2.all fun t => !isRooted t.data

/-- Reachability `ReachLeaf index x y`: the leaf path `y` is reachable from the barrel
directory `x`.  A target `t` of a barrel `x` leads to `Join [x, t]`, which is a leaf when it
is not a key of the index and is followed further when it is. -/
inductive ReachLeaf (index : BarrelIndex) : String → String → Prop
  | leaf (x t : String) (ts : List String) :
      lookup index x = some ts → t ∈ ts → lookup index (Join [x, t]) = none →
      ReachLeaf index x (Join [x, t])
  | nested (x t y : String) (ts : List String) :
      lookup index x = some ts → t ∈ ts → ReachLeaf index (Join [x, t]) y →
      ReachLeaf index x y

/-- The depth-first walk that the specification describes for nested barrels, over the
targets of the barrel directory `full` that was reached through the targets `chain`: a
leaf directly under the starting directory is listed as written, a nested leaf is listed
as the path-join of the targets leading to it, and a target that is a barrel directory is
replaced by the walk `nested` of that directory.  The second list holds the barrel
directories entered. -/
def dfsTargets (nested : String → List String → Option (List String × List String))
    (index : BarrelIndex) (full : String) (chain : List String) :
    List String → Option (List String × List String)
  | [] => some ([], [])
  | t :: rest =>
    if (lookup index (Join [full, t])).isSome then
      match nested (Join [full, t]) (chain ++ [t]) with
      | none => none
      | some (leaves1, dirs1) =>
        match dfsTargets nested index full chain rest with
        | none => none
        | some (leaves2, dirs2) => some (leaves1 ++ leaves2, dirs1 ++ dirs2)
    else
      match dfsTargets nested index full chain rest with
      | none => none
      | some (leaves2, dirs2) =>
        some ((if chain = [] then t else Join (chain ++ [t])) :: leaves2, dirs2)

/-- The left-to-right depth-first list of the leaves below the barrel directory `full`,
with the list of the barrel directories entered, `full` first.  No visited set is kept: on
an index with a cycle below `full` the walk has no result for any `fuel`. -/
def dfsLeaves (index : BarrelIndex) : Nat → String → List String →
    Option (List String × List String)
  | 0, _, _ => none
  | fuel + 1, full, chain =>
    match lookup index full with
    | none => some ([], [])
    | some ts =>
      match dfsTargets (fun p c => dfsLeaves index fuel p c) index full chain ts with
      | none => none
      | some (leaves, dirs) => some (leaves, full :: dirs)

/-- Coverage `Covered index d0 x ts V res`: each target `t` in `ts` of the directory `x` is
accounted for: `Join [x, t]` is in the visited set `V` when it is a barrel directory, and is
the full path of an entry of `res` (taken below the top-level directory `d0`) when it is a
leaf. -/
def Covered (index : BarrelIndex) (d0 x : String) (ts V res : List String) : Prop :=
  ∀ t ∈ ts,
    ((lookup index (Join [x, t])).isSome = true → Join [x, t] ∈ V) ∧
    (lookup index (Join [x, t]) = none → ∃ q ∈ res, Join [d0, q] = Join [x, t])

/-- Invariant of the depth-first expansion: every directory that entered the visited set
between `V` and `V2` has all its targets covered. -/
def Closed (index : BarrelIndex) (d0 : String) (V V2 res : List String) : Prop :=
  ∀ x ∈ V2, x ∉ V → ∀ ts, lookup index x = some ts → Covered index d0 x ts V2 res

/-- Invariant of the loop of `handleNestedBarrels` on an index `m`, when the entries `todo`
are still to be visited and `cur` is the map as written so far: the keys are those of `m`,
every target is relative, the reachable leaves are those of `m`, the entries to be visited
are still in the map, and the lists of the entries already visited hold leaves only. -/
def FlatInv (m : BarrelIndex) (todo : List (String × List String)) (cur : BarrelIndex) :
    Prop :=
  keys cur = keys m ∧
  (∀ d l, lookup cur d = some l → ∀ t ∈ l, isRooted t.data = false) ∧
  (∀ x y, ReachLeaf cur x y ↔ ReachLeaf m x y) ∧
  (∀ e ∈ todo, e ∈ cur) ∧ (keys todo).Nodup ∧
  (∀ x l, lookup cur x = some l → x ∉ keys todo →
    ∀ q ∈ l, lookup cur (Join [x, q]) = none)

/-! ## Go `strings` -/

/-- Go `strings.HasPrefix`. -/
def HasPrefix (s p : String) : Bool := p.data.isPrefixOf s.data

/-- Go `strings.HasSuffix`. -/
def HasSuffix (s p : String) : Bool := p.data.reverse.isPrefixOf s.data.reverse

/-- Go `strings.TrimPrefix`. -/
def TrimPrefix (s p : String) : String :=
  if HasPrefix s p then ⟨s.data.drop p.data.length⟩ else s

/-- Go `strings.TrimSuffix`. -/
def TrimSuffix (s p : String) : String :=
  if HasSuffix s p then ⟨s.data.take (s.data.length - p.data.length)⟩ else s

/-- Go `unicode.IsSpace`. -/
def isSpace (c : Char) : Bool :=
  c.val = 0x20 || (0x09 ≤ c.val && c.val ≤ 0x0d) || c.val = 0x85 || c.val = 0xa0 ||
  c.val = 0x1680 || (0x2000 ≤ c.val && c.val ≤ 0x200a) || c.val = 0x2028 ||
  c.val = 0x2029 || c.val = 0x202f || c.val = 0x205f || c.val = 0x3000

/-- Go `strings.TrimSpace`. -/
def TrimSpace (s : String) : String :=
  ⟨((s.data.dropWhile isSpace).reverse.dropWhile isSpace).reverse⟩

/-- The pieces of a text between occurrences of the character `sep`. -/
def splitChar (sep : Char) : List Char → List (List Char)
  | [] => [[]]
  | c :: cs =>
    if c = sep then [] :: splitChar sep cs
    else
      match splitChar sep cs with
      | [] => [[c]]
      | e :: es => (c :: e) :: es

/-- Go `strings.Split(s, ",")`. -/
def SplitComma (s : String) : List String := (splitChar ',' s.data).map String.mk

/-- Whether `sub` occurs in the text. -/
def containsChars (sub : List Char) : List Char → Bool
  | [] => sub.isPrefixOf []
  | c :: cs => sub.isPrefixOf (c :: cs) || containsChars sub cs

/-- Go `strings.Contains`. -/
def Contains (s sub : String) : Bool := containsChars sub.data s.data

/-- Go `strings.Join(elems, sep)`. -/
def stringsJoin : List String → String → String
  | [], _ => ""
  | [e], _ => e
  | e :: es, sep => e ++ sep ++ stringsJoin es sep

/-! ## Go `regexp`: the three patterns of `cmd/update.go`

Each pattern is matched by a scanner written for it.  In these patterns every repetition
is followed by a character outside the repeated class and the two branches of the
alternation begin with different characters, so the leftmost-first match of Go's `regexp`
is the one found by taking every repetition as long as possible. -/

/-- The class `\s` of Go's `regexp`: tab, newline, form feed, carriage return, space. -/
def isSpaceRX (c : Char) : Bool :=
  c = ' ' || c = '\t' || c = '\n' || c = '\x0c' || c = '\r'

/-- The class `\w` of Go's `regexp`: ASCII letters, digits and the underscore. -/
def isWordRX (c : Char) : Bool := c.isAlphanum || c = '_'

/-- A literal at the start of the text: the text after it. -/
def matchLit (lit s : List Char) : Option (List Char) :=
  if lit.isPrefixOf s then some (s.drop lit.length) else none

/-- A repetition `c+` of a character class at the start of the text: the characters taken,
as many as possible and at least one, and the text after them. -/
def spanPlus (p : Char → Bool) (s : List Char) : Option (List Char × List Char) :=
  match s.span p with
  | ([], _) => none
  | (taken, rest) => some (taken, rest)

/-- The part `{[^}]+}` of `ImportLineRX` at the start of the text: the text between the
braces and the text after the closing brace. -/
def matchBraces (s : List Char) : Option (List Char × List Char) :=
  match s with
  | '\x7b' :: t =>
    match spanPlus (fun c => c != '\x7d') t with
    | some (body, '\x7d' :: rest) => some (body, rest)
    | _ => none
  | _ => none

/-- The result of a match of `ImportLineRX`: the three groups and the text after the
match. -/
structure ImportMatch where
  names : String
  quoteSymbol : String
  importPath : String
  rest : List Char
deriving DecidableEq

/-- The pattern `ImportLineRX`, which is
the text `import\s+(type {[^}]+}|{[^}]+})\s+from\s+(['"])([^'"]+)['"]`, matched at the
start of the text. -/
def matchImportLine (s : List Char) : Option ImportMatch :=
  match matchLit "import".data s with
  | none => none
  | some s1 =>
    match spanPlus isSpaceRX s1 with
    | none => none
    | some (_, s2) =>
      let group1 : Option (List Char × List Char) :=
        match matchLit "type ".data s2 with
        | some s3 =>
          match matchBraces s3 with
          | some (body, s4) => some ("type \x7b".data ++ body ++ ['\x7d'], s4)
          | none => none
        | none =>
          match matchBraces s2 with
          | some (body, s4) => some ('\x7b' :: body ++ ['\x7d'], s4)
          | none => none
      match group1 with
      | none => none
      | some (names, s4) =>
        match spanPlus isSpaceRX s4 with
        | none => none
        | some (_, s5) =>
          match matchLit "from".data s5 with
          | none => none
          | some s6 =>
            match spanPlus isSpaceRX s6 with
            | none => none
            | some (_, s7) =>
              match s7 with
              | q :: s8 =>
                if q = '\x27' ∨ q = '\x22' then
                  match spanPlus (fun c => c != '\x27' && c != '\x22') s8 with
                  | some (p, _ :: rest) => some ⟨⟨names⟩, ⟨[q]⟩, ⟨p⟩, rest⟩
                  | _ => none
                else none
              | [] => none

/-- Go `ImportLineRX.FindStringSubmatch`: the groups of the leftmost match in the text. -/
def findImportLine : List Char → Option ImportMatch
  | [] => none
  | c :: cs =>
    match matchImportLine (c :: cs) with
    | some r => some r
    | none => findImportLine cs

/-- The pattern `TypeImportRX`, `type\s+[{]?\s*(\w+)`, matched at the start of the text:
the group. -/
def matchTypeImport (s : List Char) : Option (List Char) :=
  match matchLit "type".data s with
  | none => none
  | some s1 =>
    match spanPlus isSpaceRX s1 with
    | none => none
    | some (_, s2) =>
      let s3 := match s2 with
        | '\x7b' :: t => t
        | _ => s2
      match spanPlus isWordRX (s3.dropWhile isSpaceRX) with
      | none => none
      | some (w, _) => some w

/-- Go `TypeImportRX.FindStringSubmatch`: the group of the leftmost match in the text. -/
def findTypeImport : List Char → Option (List Char)
  | [] => none
  | c :: cs =>
    match matchTypeImport (c :: cs) with
    | some w => some w
    | none => findTypeImport cs

/-- The pattern `AliasImportRX`, `(\w+)\s+as\s+\w+`, matched at the start of the text:
the group. -/
def matchAliasImport (s : List Char) : Option (List Char) :=
  match spanPlus isWordRX s with
  | none => none
  | some (w, s1) =>
    match spanPlus isSpaceRX s1 with
    | none => none
    | some (_, s2) =>
      match matchLit "as".data s2 with
      | none => none
      | some s3 =>
        match spanPlus isSpaceRX s3 with
        | none => none
        | some (_, s4) =>
          match spanPlus isWordRX s4 with
          | none => none
          | some _ => some w

/-- Go `AliasImportRX.FindStringSubmatch`: the group of the leftmost match in the text. -/
def findAliasImport : List Char → Option (List Char)
  | [] => none
  | c :: cs =>
    match matchAliasImport (c :: cs) with
    | some w => some w
    | none => findAliasImport cs

/-! ## `internal/data/barrel_resolved_path.go` -/

/-- The registry `BarrelResolvedPath`: the two maps built by `BarrelMaps`. -/
structure BarrelResolvedPath where
  ExistenceMap : List String
  ModuleResolverMap : List (String × String)
deriving DecidableEq

/-- Map read on a map from strings to strings. -/
def lookupString : List (String × String) → String → Option String
  | [], _ => none
  | (k, v) :: rest, key => if k = key then some v else lookupString rest key

/-- Map write on a map from strings to strings. -/
def putString : List (String × String) → String → String → List (String × String)
  | [], key, value => [(key, value)]
  | (k, v) :: rest, key, value =>
    if k = key then (k, value) :: rest else (k, v) :: putString rest key value

/-- Go `IsResolved`. -/
def BarrelResolvedPath.IsResolved (b : BarrelResolvedPath) (path : String) : Bool :=
  b.ExistenceMap.contains path

/-- Go `ResolveModuleName`. -/
def BarrelResolvedPath.ResolveModuleName (b : BarrelResolvedPath) (path moduleName : String) :
    Option String :=
  lookupString b.ModuleResolverMap (Join [path, moduleName])

/-- The body of the loop over the matches in `BarrelMaps` (parser.go, lines 83 to 94): the
registration of the name `moduleName`, found in a file under the target `modulePath` of the
barrel directory `barrelDir` whose alias path is `aliasFullPath`. -/
def registerExport (b : BarrelResolvedPath)
    (barrelDir aliasFullPath modulePath moduleName : String) : BarrelResolvedPath :=
  let aliasKey := Join [aliasFullPath, moduleName]
  let directKey := Join [barrelDir, moduleName]
  let moduleExtension := Ext modulePath
  let modulePathWithoutExtension : String :=
    ⟨modulePath.data.take (modulePath.data.length - moduleExtension.data.length)⟩
  let aliasValue := Join [modulePathWithoutExtension]
  let directValue := Join [modulePathWithoutExtension]
  { ExistenceMap :=
      let e1 := if b.ExistenceMap.contains aliasFullPath then b.ExistenceMap
        else b.ExistenceMap ++ [aliasFullPath]
      if e1.contains barrelDir then e1 else e1 ++ [barrelDir]
    ModuleResolverMap :=
      putString (putString b.ModuleResolverMap aliasKey aliasValue) directKey directValue }

/-! ## `cmd/update.go` -/

/-- Go `getModuleName`. -/
def getModuleName (line : String) : String :=
  match findTypeImport line.data with
  | some w => ⟨w⟩
  | none =>
    match findAliasImport line.data with
    | some w => ⟨w⟩
    | none => line

/-- The lookup key of an import statement in the file `path`: the path literal as written
when it begins with `@`, else the path literal joined to the directory of the file. -/
def importKey (path importPath : String) : String :=
  if HasPrefix importPath "@" then importPath else Join [Dir path, importPath]

/-- The map write `importsByModule[p] = append(importsByModule[p], importName)`. -/
def appendImport : List (String × List String) → String → String →
    List (String × List String)
  | [], p, importName => [(p, [importName])]
  | (k, v) :: rest, p, importName =>
    if k = p then (k, v ++ [importName]) :: rest
    else (k, v) :: appendImport rest p importName

/-- The loop over `importNames` in the callback of `replaceBarrelImports`: the lists
`orderedImportPaths` and `importsByModule` after the loop. -/
def collectImports (b : BarrelResolvedPath) (resolvedPathKey importPath : String) :
    List String → List String × List (String × List String) →
    List String × List (String × List String)
  | [], acc => acc
  | token :: rest, (orderedImportPaths, importsByModule) =>
    let importName := TrimSpace (TrimSuffix (TrimPrefix token "\x7b") "\x7d")
    if importName = "" then
      collectImports b resolvedPathKey importPath rest (orderedImportPaths, importsByModule)
    else
      let moduleName := getModuleName importName
      match b.ResolveModuleName resolvedPathKey moduleName with
      | some resolvedModulePath =>
        let newImportPath :=
          if HasPrefix importPath "@" then Join [resolvedPathKey, resolvedModulePath]
          else if HasPrefix importPath "./" then Join [importPath, resolvedModulePath]
          else "./" ++ Join [importPath, resolvedModulePath]
        collectImports b resolvedPathKey importPath rest
          (orderedImportPaths ++ [newImportPath],
            appendImport importsByModule newImportPath importName)
      | none =>
        collectImports b resolvedPathKey importPath rest (orderedImportPaths, importsByModule)

/-- The body of the loop over `orderedImportPaths`: the new import statement for the
target `resolvedPath` and the names `importNames` grouped under it. -/
def newImportStatement (names quoteSymbol resolvedPath : String) (importNames : List String) :
    String :=
  let isTypeImport := HasPrefix names "type \x7b" ||
    (match importNames with
      | [importName] => Contains importName "type "
      | _ => false)
  let start := "import " ++ (if isTypeImport then "type \x7b " else "\x7b ")
  let listed := importNames.foldl
    (fun acc importName =>
      acc ++ (if isTypeImport then getModuleName importName else importName) ++ ", ") start
  TrimSuffix listed ", " ++ " \x7d from " ++ quoteSymbol ++ resolvedPath ++ quoteSymbol

/-- The callback of `ImportLineRX.ReplaceAllStringFunc` in `replaceBarrelImports`, for a
statement of the file `path`. -/
def rewriteImport (b : BarrelResolvedPath) (path importStatement : String) : String :=
  match findImportLine importStatement.data with
  | none => importStatement
  | some submatch =>
    let importNames := SplitComma submatch.names
    let resolvedPathKey := importKey path submatch.importPath
    if !b.IsResolved resolvedPathKey then importStatement
    else
      let collected := collectImports b resolvedPathKey submatch.importPath importNames ([], [])
      let replacedImports := collected.1.map fun resolvedPath =>
        newImportStatement submatch.names submatch.quoteSymbol resolvedPath
          ((lookup collected.2 resolvedPath).getD [])
      if replacedImports.length > 0 then stringsJoin replacedImports "\n"
      else importStatement

/-- Go `ImportLineRX.ReplaceAllStringFunc(src, repl)`: the matches are found from left to
right, without overlap, and each is replaced by `repl` of the matched text; `skip` counts
the characters of the current match that are still to be passed. -/
def replaceAllImports (repl : String → String) : Nat → List Char → List Char
  | _, [] => []
  | skip + 1, _ :: cs => replaceAllImports repl skip cs
  | 0, c :: cs =>
    match matchImportLine (c :: cs) with
    | some r =>
      let matched := (c :: cs).take ((c :: cs).length - r.rest.length)
      (repl ⟨matched⟩).data ++ replaceAllImports repl (matched.length - 1) cs
    | none => c :: replaceAllImports repl 0 cs

/-- The new contents `updatedContents` that `replaceBarrelImports` computes for the file
`path` with the contents `contents`. -/
def updateContents (b : BarrelResolvedPath) (path contents : String) : String :=
  ⟨replaceAllImports (rewriteImport b path) 0 contents.data⟩

/-- The number that `replaceBarrelImports` reports for a list of files `(path, contents)`:
the files whose new contents differ from the old ones. -/
def updatedFilesTotal (b : BarrelResolvedPath) (files : List (String × String)) : Nat :=
  (files.filter fun f => updateContents b f.1 f.2 != f.2).length

/-! ## `path/filepath`: `Base` -/

/-- Go `filepath.Base`: the last element of the path, trailing separators removed. -/
def Base (path : String) : String :=
  if path.data = [] then "."
  else
    let stripped := (path.data.reverse.dropWhile fun c => c = '/').reverse
    if stripped = [] then "/"
    else ⟨(stripped.reverse.takeWhile fun c => c != '/').reverse⟩

/-! ## The file system

The file tree that `os.Stat`, `os.ReadFile` and `filepath.Walk` see.  The root of the tree
is the directory `/`, which is also the working directory; symbolic links and unreadable
directories are not modelled. -/

mutual
/-- A node of the file tree: a regular file with its contents (`none` for a file that cannot
be read) or a directory with its entries. -/
inductive FSNode where
  | file (contents : Option String)
  | dir (entries : FSEntries)
/-- The entries of a directory, in the order in which `filepath.Walk` reads them (sorted by
name). -/
inductive FSEntries where
  | nil
  | cons (name : String) (node : FSNode) (rest : FSEntries)
end

/-- The entries of a directory as a list. -/
def FSEntries.toList : FSEntries → List (String × FSNode)
  | .nil => []
  | .cons name node rest => (name, node) :: rest.toList

/-- The entry of a directory with a given name. -/
def FSEntries.find : FSEntries → String → Option FSNode
  | .nil, _ => none
  | .cons name node rest, n => if name = n then some node else rest.find n

/-- Go `info.IsDir()`. -/
def FSNode.isDir : FSNode → Bool
  | .file _ => false
  | .dir _ => true

/-- Resolution of the elements of a path from the node `cur`, whose ancestors are `above`
(nearest first): empty elements and `.` stay, `..` goes to the parent (the root is its own
parent), a name goes to the entry of that name. -/
def resolveElems : FSNode → List FSNode → List (List Char) → Option FSNode
  | cur, _, [] => some cur
  | cur, above, e :: es =>
    if e = [] ∨ e = ['.'] then resolveElems cur above es
    else
      match cur with
      | .file _ => none
      | .dir entries =>
        if e = ['.', '.'] then
          match above with
          | [] => resolveElems cur [] es
          | parent :: ancestors => resolveElems parent ancestors es
        else
          match entries.find ⟨e⟩ with
          | none => none
          | some node => resolveElems node (cur :: above) es

/-- Go `os.Stat`: the node at a path, `none` when there is none. -/
def stat (fs : FSNode) (path : String) : Option FSNode :=
  if path.data = [] then none else resolveElems fs [] (pathElems path.data)

/-- Go `os.ReadFile`: the contents of the regular file at a path, `none` on error. -/
def readFile (fs : FSNode) (path : String) : Option String :=
  match stat fs path with
  | some (.file (some contents)) => some contents
  | _ => none

mutual
/-- The function `walk` of `filepath.Walk` on a node: the calls of the walk function, each
with its path and whether it is a directory, in order.  The walk functions of this
repository return `SkipDir` for a directory from its path alone: `skip` is that test, and
the entries of a directory for which it holds are not visited. -/
def walkNode (skip : String → Bool) : String → FSNode → List (String × Bool)
  | path, .file _ => [(path, false)]
  | path, .dir entries =>
    if skip path then [(path, true)]
    else (path, true) :: walkEntries skip path entries
/-- The loop of `walk` over the names of a directory. -/
def walkEntries (skip : String → Bool) : String → FSEntries → List (String × Bool)
  | _, .nil => []
  | path, .cons name node rest =>
    walkNode skip (Join [path, name]) node ++ walkEntries skip path rest
end

/-- Go `filepath.Walk`: the calls of the walk function without error.  When nothing exists
at `root` the walk function is called once with the error, and the walk functions of this
repository then do nothing. -/
def Walk (fs : FSNode) (skip : String → Bool) (root : String) : List (String × Bool) :=
  match stat fs root with
  | none => []
  | some node => walkNode skip root node

/-! ## Go `regexp`: the two patterns of `internal/parser/parser.go` -/

/-- Whether a character matches a lower-case letter of a pattern under the flag `(?i)`:
the letter, its upper case, and for `s` and `k` the two further characters that
Unicode folds to them. -/
def foldEq (c lit : Char) : Bool :=
  c.toLower = lit || (lit = 's' && c.val = 0x17f) || (lit = 'k' && c.val = 0x212a)

/-- The class `\w` under the flag `(?i)`: the class is closed under case folding, which
adds to the ASCII letters, digits and underscore the two further characters that Unicode
folds to `s` and `k`. -/
def isWordFoldRX (c : Char) : Bool := isWordRX c || c.val = 0x17f || c.val = 0x212a

/-- A literal under the flag `(?i)` at the start of the text: the text after it. -/
def matchLitFold : List Char → List Char → Option (List Char)
  | [], s => some s
  | _ :: _, [] => none
  | l :: ls, c :: cs => if foldEq c l then matchLitFold ls cs else none

/-- The part `\s+from` of `ExportLineWithPathRX`. -/
def matchFrom (s : List Char) : Option (List Char) :=
  match spanPlus isSpaceRX s with
  | none => none
  | some (_, s1) => matchLitFold "from".data s1

/-- The end `\s+['"]([^'"]+)['"]` of `ExportLineWithPathRX`: the group and the text after
the match. -/
def matchQuoted (s : List Char) : Option (List Char × List Char) :=
  match spanPlus isSpaceRX s with
  | none => none
  | some (_, s1) =>
    match s1 with
    | q :: s2 =>
      if q = '\x27' ∨ q = '\x22' then
        match spanPlus (fun c => c != '\x27' && c != '\x22') s2 with
        | some (p, _ :: rest) => some (p, rest)
        | _ => none
      else none
    | [] => none

/-- The branch `\*\s+from` of the first group of `ExportLineWithPathRX`. -/
def matchStarFrom (s : List Char) : Option (List Char) :=
  match s with
  | '*' :: s1 => matchFrom s1
  | _ => none

/-- The branch `\*\s+as\s+\w+\s+from` of the first group of `ExportLineWithPathRX`. -/
def matchStarAsFrom (s : List Char) : Option (List Char) :=
  match s with
  | '*' :: s1 =>
    match spanPlus isSpaceRX s1 with
    | none => none
    | some (_, s2) =>
      match matchLitFold "as".data s2 with
      | none => none
      | some s3 =>
        match spanPlus isSpaceRX s3 with
        | none => none
        | some (_, s4) =>
          match spanPlus isWordFoldRX s4 with
          | none => none
          | some (_, s5) => matchFrom s5
  | _ => none

/-- The branch `{[^}]+}\s+from` of the first group of `ExportLineWithPathRX`. -/
def matchBracesFrom (s : List Char) : Option (List Char) :=
  match matchBraces s with
  | none => none
  | some (_, s1) => matchFrom s1

/-- The branch `type\s+{[^}]+}\s+from` of the first group of `ExportLineWithPathRX`. -/
def matchTypeBracesFrom (s : List Char) : Option (List Char) :=
  match matchLitFold "type".data s with
  | none => none
  | some s1 =>
    match spanPlus isSpaceRX s1 with
    | none => none
    | some (_, s2) => matchBracesFrom s2

/-- The first of the branches, in the order of the pattern, after which the rest of the
pattern matches. -/
def firstBranch (branches : List (List Char → Option (List Char)))
    (rest : List Char → Option (List Char × List Char)) (s : List Char) :
    Option (List Char × List Char) :=
  match branches with
  | [] => none
  | branch :: others =>
    match branch s with
    | none => firstBranch others rest s
    | some s1 =>
      match rest s1 with
      | some r => some r
      | none => firstBranch others rest s

/-- The pattern `ExportLineWithPathRX`, which is the text
`(?i)export\s+(\*\s+from|\*\s+as\s+\w+\s+from|type\s+{[^}]+}\s+from|{[^}]+}\s+from)\s+['"]([^'"]+)['"]`,
matched at the start of the text: the second group and the text after the match. -/
def matchReExport (s : List Char) : Option (List Char × List Char) :=
  match matchLitFold "export".data s with
  | none => none
  | some s1 =>
    match spanPlus isSpaceRX s1 with
    | none => none
    | some (_, s2) =>
      firstBranch [matchStarFrom, matchStarAsFrom, matchTypeBracesFrom, matchBracesFrom]
        matchQuoted s2

/-- The scan of `ExportLineWithPathRX.FindAllStringSubmatch`: the second groups of the
matches, from left to right and without overlap; `skip` counts the characters of the
current match that are still to be passed. -/
def scanReExports : Nat → List Char → List String
  | _, [] => []
  | skip + 1, _ :: cs => scanReExports skip cs
  | 0, c :: cs =>
    match matchReExport (c :: cs) with
    | some (target, rest) =>
      ⟨target⟩ :: scanReExports ((c :: cs).length - rest.length - 1) cs
    | none => scanReExports 0 cs

/-- The targets `match[2]` of the re-export statements of a text, in the order of the
statements. -/
def reExportTargets (content : String) : List String := scanReExports 0 content.data

/-- The class `[a-zA-Z_$]` of `ExportLineWithModuleRX`. -/
def isIdentStart (c : Char) : Bool := c.isAlpha || c = '_' || c = '$'

/-- The class `[a-zA-Z0-9_$]` of `ExportLineWithModuleRX`. -/
def isIdentChar (c : Char) : Bool := c.isAlphanum || c = '_' || c = '$'

/-- The group `([a-zA-Z_$][a-zA-Z0-9_$]*)` at the end of the first branch of
`ExportLineWithModuleRX`, as long as possible: the group and the text after it. -/
def matchIdent (s : List Char) : Option (List Char × List Char) :=
  match s with
  | c :: cs =>
    if isIdentStart c then some (c :: cs.takeWhile isIdentChar, cs.dropWhile isIdentChar)
    else none
  | [] => none

/-- The part `(?:class|function|const|let|var|enum|type|interface)\s+(...)` of
`ExportLineWithModuleRX`: the group and the text after the match. -/
def matchDeclaration (keywords : List String) (s : List Char) :
    Option (List Char × List Char) :=
  match keywords with
  | [] => none
  | keyword :: others =>
    let found :=
      match matchLit keyword.data s with
      | none => none
      | some s1 =>
        match spanPlus isSpaceRX s1 with
        | none => none
        | some (_, s2) => matchIdent s2
    match found with
    | some r => some r
    | none => matchDeclaration others s

/-- The keywords of `ExportLineWithModuleRX`, in the order of the pattern. -/
def declarationKeywords : List String :=
  ["class", "function", "const", "let", "var", "enum", "type", "interface"]

/-- Whether an identifier `[a-zA-Z_$][a-zA-Z0-9_$]*` that has begun can end before the
text `rest` at a word boundary `\b`; `lastWord` tells whether its last character is a word
character, and the text is followed by a closing brace. -/
def identCanEnd (lastWord : Bool) : List Char → Bool
  | [] => lastWord
  | d :: ds => (lastWord != isWordRX d) || (isIdentChar d && identCanEnd (isWordRX d) ds)

/-- Whether the text between the braces has a part `\b([a-zA-Z_$][a-zA-Z0-9_$]*)\b`;
`prevWord` tells whether the character before the text is a word character. -/
def hasBoundedIdent (prevWord : Bool) : List Char → Bool
  | [] => false
  | c :: cs =>
    (isIdentStart c && (prevWord != isWordRX c) && identCanEnd (isWordRX c) cs) ||
      hasBoundedIdent (isWordRX c) cs

/-- The pattern `ExportLineWithModuleRX` matched at the start of the text: the first group
`match[1]` and the text after the match.  The first branch is
`export\s+(?:default\s+)?(?:class|...|interface)\s+([a-zA-Z_$][a-zA-Z0-9_$]*)`; the second
branch, `\bexport\s+\{[^}]*\b([a-zA-Z_$][a-zA-Z0-9_$]*)\b[^}]*\}`, fills the second group
and leaves the first group empty.  `prevWord` tells whether the character before the text
is a word character. -/
def matchExport (prevWord : Bool) (s : List Char) : Option (List Char × List Char) :=
  match matchLit "export".data s with
  | none => none
  | some s1 =>
    match spanPlus isSpaceRX s1 with
    | none => none
    | some (_, s2) =>
      let withDefault :=
        match matchLit "default".data s2 with
        | none => none
        | some s3 =>
          match spanPlus isSpaceRX s3 with
          | none => none
          | some (_, s4) => matchDeclaration declarationKeywords s4
      let branch1 :=
        match withDefault with
        | some r => some r
        | none => matchDeclaration declarationKeywords s2
      match branch1 with
      | some r => some r
      | none =>
        if prevWord then none
        else
          match s2 with
          | '\x7b' :: s3 =>
            match s3.dropWhile (fun c => c != '\x7d') with
            | '\x7d' :: rest =>
              if hasBoundedIdent false (s3.takeWhile fun c => c != '\x7d') then some ([], rest)
              else none
            | _ => none
          | _ => none

/-- The scan of `ExportLineWithModuleRX.FindAllStringSubmatch`: the first groups of the
matches, from left to right and without overlap. -/
def scanExports : Bool → Nat → List Char → List String
  | _, _, [] => []
  | _, skip + 1, c :: cs => scanExports (isWordRX c) skip cs
  | prevWord, 0, c :: cs =>
    match matchExport prevWord (c :: cs) with
    | some (name, rest) =>
      ⟨name⟩ :: scanExports (isWordRX c) ((c :: cs).length - rest.length - 1) cs
    | none => scanExports (isWordRX c) 0 cs

/-- The names `match[1]` that `BarrelMaps` reads from the contents of a module file, in the
order of the matches. -/
def exportedNames (contents : String) : List String := scanExports false 0 contents.data

/-! ## `internal/resolver/resolver.go` -/

/-- The field `CompilerOptions` of the Go type `TSConfig`; the map `Paths` is the list of
its entries in the order in which `getAliasPaths` ranges over it. -/
structure TSConfig where
  Paths : List (String × List String)
  BaseUrl : String

/-- Go `Alias`. -/
structure Alias where
  ShortPath : String
  FullPath : String
deriving DecidableEq

/-- The loop over the paths of one alias in `getAliasPaths`. -/
def addAliasPaths (baseUrlPath aliasName : String) :
    List String → List (String × String) → List (String × String)
  | [], aliasPaths => aliasPaths
  | path :: rest, aliasPaths =>
    let realPath := Join [baseUrlPath, Dir path]
    addAliasPaths baseUrlPath aliasName rest
      (putString aliasPaths realPath (TrimSuffix aliasName "/*"))

/-- The loop over `tsConfig.CompilerOptions.Paths` in `getAliasPaths`. -/
def addAliases (baseUrlPath : String) :
    List (String × List String) → List (String × String) → List (String × String)
  | [], aliasPaths => aliasPaths
  | (aliasName, paths) :: rest, aliasPaths =>
    addAliases baseUrlPath rest (addAliasPaths baseUrlPath aliasName paths aliasPaths)

/-- Go `getAliasPaths`.  `decode` is `os.Open` followed by the JSON decoding of the
file: `none` when the file cannot be opened or is not the JSON of a `TSConfig`.  The nil
map that the code returns on an error is the empty list: ranging over it does nothing. -/
def getAliasPaths (decode : String → Option TSConfig) (rootPath : String)
    (tsConfigPath : Option String) : List (String × String) :=
  match tsConfigPath with
  | none => []
  | some configPath =>
    if configPath = "" then []
    else
      let tsConfigFullPath := Join [rootPath, configPath]
      match decode tsConfigFullPath with
      | none => []
      | some tsConfig =>
        let baseUrl := if tsConfig.BaseUrl = "" then "." else tsConfig.BaseUrl
        let baseUrlPath := Dir (Join [tsConfigFullPath, baseUrl])
        addAliases baseUrlPath tsConfig.Paths []

/-- Go `AliasPath`, on the entries of `resolver.aliasPaths` in the order in which the loop
ranges over the map: the first entry whose real path is a prefix of the path decides. -/
def AliasPath : List (String × String) → String → Alias
  | [], path => ⟨path, path⟩
  | (realPath, aliasName) :: rest, path =>
    if HasPrefix path realPath then ⟨aliasName, Join [aliasName, TrimPrefix path realPath]⟩
    else AliasPath rest path

/-! ## `internal/parser/parser.go` -/

/-- Go `isIndexFile`. -/
def isIndexFile (path : String) : List String → Bool
  | [] => false
  | ext :: rest => if Base path = "index" ++ ext then true else isIndexFile path rest

/-- Go `IsSupportedFileExtension`. -/
def IsSupportedFileExtension : List String → String → Bool
  | [], _ => false
  | ext :: rest, path => if HasSuffix path ext then true else IsSupportedFileExtension rest path

/-- The loop over the extensions in `getBarrelModulePaths`, which ends at the first
extension with which the path exists: what is appended to `modulePaths`. -/
def probeExtensions (fs : FSNode) (path modulePath : String) : List String → List String
  | [] => []
  | extension :: rest =>
    if (stat fs (path ++ extension)).isSome then [modulePath ++ extension]
    else probeExtensions fs path modulePath rest

/-- The body of the loop over the matches in `getBarrelModulePaths`: what is appended to
`modulePaths` for the target `modulePath` of a statement of the file `filePath`. -/
def recordModulePath (fs : FSNode) (filePath : String) (extensions : List String)
    (modulePath : String) : List String :=
  let path := Join [Dir filePath, modulePath]
  match stat fs path with
  | some info => if info.isDir then [modulePath] else []
  | none => probeExtensions fs path modulePath extensions

/-- The loop over the matches in `getBarrelModulePaths`. -/
def recordModulePaths (fs : FSNode) (filePath : String) (extensions : List String) :
    List String → List String → List String
  | [], modulePaths => modulePaths
  | modulePath :: rest, modulePaths =>
    recordModulePaths fs filePath extensions rest
      (modulePaths ++ recordModulePath fs filePath extensions modulePath)

/-- Go `getBarrelModulePaths`. -/
def getBarrelModulePaths (fs : FSNode) (filePath : String) (extensions : List String) :
    List String :=
  match readFile fs filePath with
  | none => []
  | some content => recordModulePaths fs filePath extensions (reExportTargets content) []

/-- The walk of `BarrelFilePaths` and `getBarrelDirsWithModulePaths` from the root: a
directory that the ignorer filters is left with `SkipDir`. -/
def walkRoot (fs : FSNode) (ignorePath : String → Bool) (rootPath : String) :
    List (String × Bool) :=
  Walk fs ignorePath rootPath

/-- The walk function of `BarrelFilePaths` at the entry `path`. -/
def visitBarrelFile (fs : FSNode) (ignorePath : String → Bool) (extensions : List String)
    (barrelFilePaths : List String) (entry : String × Bool) : List String :=
  if ignorePath entry.1 then barrelFilePaths
  else if !entry.2 && isIndexFile entry.1 extensions then
    if (getBarrelModulePaths fs entry.1 extensions).length > 0 then
      barrelFilePaths ++ [entry.1]
    else barrelFilePaths
  else barrelFilePaths

/-- Go `BarrelFilePaths`; `ignorePath` is `parser.ignorer.IgnorePath`. -/
def BarrelFilePaths (fs : FSNode) (ignorePath : String → Bool) (rootPath : String)
    (extensions : List String) : List String :=
  (walkRoot fs ignorePath rootPath).foldl (visitBarrelFile fs ignorePath extensions) []

/-- Go `countBarrelFiles` (cmd/count.go): the number that the command prints. -/
def countBarrelFiles (fs : FSNode) (ignorePath : String → Bool) (rootPath : String)
    (extensions : List String) : Nat :=
  (BarrelFilePaths fs ignorePath rootPath extensions).length

/-- Map write `barrelDirsWithModulePaths[dirPath] = modulePaths`. -/
def putIndex : BarrelIndex → String → List String → BarrelIndex
  | [], dirPath, modulePaths => [(dirPath, modulePaths)]
  | (k, v) :: rest, dirPath, modulePaths =>
    if k = dirPath then (k, modulePaths) :: rest else (k, v) :: putIndex rest dirPath modulePaths

/-- The walk function of `getBarrelDirsWithModulePaths` at the entry `path`. -/
def visitBarrelDir (fs : FSNode) (ignorePath : String → Bool) (extensions : List String)
    (barrelDirsWithModulePaths : BarrelIndex) (entry : String × Bool) : BarrelIndex :=
  if ignorePath entry.1 then barrelDirsWithModulePaths
  else if !entry.2 && isIndexFile entry.1 extensions then
    let modulePaths := getBarrelModulePaths fs entry.1 extensions
    if modulePaths.length > 0 then putIndex barrelDirsWithModulePaths (Dir entry.1) modulePaths
    else barrelDirsWithModulePaths
  else barrelDirsWithModulePaths

/-- Go `getBarrelDirsWithModulePaths`; the loop of `handleNestedBarrels` ranges over the
map in the order in which the walk has filled it. -/
def getBarrelDirsWithModulePaths (fs : FSNode) (ignorePath : String → Bool) (rootPath : String)
    (extensions : List String) : Option BarrelIndex :=
  handleNestedBarrels
    ((walkRoot fs ignorePath rootPath).foldl (visitBarrelDir fs ignorePath extensions) [])

/-- The loop over the matches in the walk function of `BarrelMaps`. -/
def registerNames (barrelDir aliasFullPath modulePath : String) :
    List String → BarrelResolvedPath → BarrelResolvedPath
  | [], b => b
  | moduleName :: rest, b =>
    registerNames barrelDir aliasFullPath modulePath rest
      (registerExport b barrelDir aliasFullPath modulePath moduleName)

/-- The walk function of `BarrelMaps` at the entry `path`. -/
def visitModuleFile (fs : FSNode) (extensions : List String)
    (barrelDir aliasFullPath modulePath : String) (b : BarrelResolvedPath)
    (entry : String × Bool) : BarrelResolvedPath :=
  if entry.2 || !IsSupportedFileExtension extensions entry.1 then b
  else
    match readFile fs entry.1 with
    | none => b
    | some contents => registerNames barrelDir aliasFullPath modulePath (exportedNames contents) b

/-- The loop over the module paths of one barrel directory in `BarrelMaps`. -/
def registerModulePaths (fs : FSNode) (extensions : List String)
    (barrelDir aliasFullPath : String) :
    List String → BarrelResolvedPath → BarrelResolvedPath
  | [], b => b
  | modulePath :: rest, b =>
    let moduleRelativePath := Join [barrelDir, modulePath]
    registerModulePaths fs extensions barrelDir aliasFullPath rest
      ((Walk fs (fun _ => false) moduleRelativePath).foldl
        (visitModuleFile fs extensions barrelDir aliasFullPath modulePath) b)

/-- The loop of `BarrelMaps` over the flattened index, in the order in which it ranges over
the map.  Each call `resolver.AliasPath(barrelDir)` ranges afresh over the map of the
resolver: `aliasOrder barrelDir` is the list of the entries of that map in the order of
the call made for `barrelDir`. -/
def registerBarrels (fs : FSNode) (extensions : List String)
    (aliasOrder : String → List (String × String)) :
    BarrelIndex → BarrelResolvedPath → BarrelResolvedPath
  | [], b => b
  | (barrelDir, modulePaths) :: rest, b =>
    let barrelDirAlias := AliasPath (aliasOrder barrelDir) barrelDir
    registerBarrels fs extensions aliasOrder rest
      (registerModulePaths fs extensions barrelDir barrelDirAlias.FullPath modulePaths b)

/-- Go `BarrelMaps`: the two maps, `none` when the flattening of the index does not end
within its fuel. -/
def BarrelMaps (fs : FSNode) (ignorePath : String → Bool) (rootPath : String)
    (extensions : List String) (aliasOrder : String → List (String × String)) :
    Option BarrelResolvedPath :=
  match getBarrelDirsWithModulePaths fs ignorePath rootPath extensions with
  | none => none
  | some barrelDirsWithModulePaths =>
    some (registerBarrels fs extensions aliasOrder barrelDirsWithModulePaths ⟨[], []⟩)

/-! ## Notions of the specification for the walks of the parser -/

/-- The entry at `p`, with node `n`, is under the entry at `path`, with node `node`, and
neither it nor a directory above it up to `path` is filtered by `ignorePath`. -/
inductive Visible (ignorePath : String → Bool) : String → FSNode → String → FSNode → Prop
  | self (path : String) (node : FSNode) :
      ignorePath path = false → Visible ignorePath path node path node
  | inside (path : String) (entries : FSEntries) (name : String) (child : FSNode)
      (p : String) (n : FSNode) :
      ignorePath path = false → (name, child) ∈ entries.toList →
      Visible ignorePath (Join [path, name]) child p n →
      Visible ignorePath path (.dir entries) p n

/-- The target `modulePath` of a re-export statement of the file `filePath` resolves, in
the words of the specification: its path is an existing directory, or else its path
followed by one of the extensions exists. -/
def TargetResolves (fs : FSNode) (extensions : List String) (filePath modulePath : String) :
    Prop :=
  (∃ entries, stat fs (Join [Dir filePath, modulePath]) = some (.dir entries)) ∨
    ∃ extension ∈ extensions,
      (stat fs (Join [Dir filePath, modulePath] ++ extension)).isSome = true

/-- The file at `path` is one that the walk function of `BarrelFilePaths` appends when it
is not filtered: its base name is `index` followed by one of the extensions and
`getBarrelModulePaths` records at least one module path for it. -/
def recordsModulePath (fs : FSNode) (extensions : List String) (path : String) : Bool :=
  extensions.any (fun ext => Base path = "index" ++ ext) &&
    decide ((getBarrelModulePaths fs path extensions).length > 0)

/-- An entry of the walk from the root that the walk function of `BarrelFilePaths` appends:
it is not filtered, it is a file, and `recordsModulePath` holds of it. -/
def isBarrelEntry (fs : FSNode) (ignorePath : String → Bool) (extensions : List String)
    (entry : String × Bool) : Bool :=
  !ignorePath entry.1 && !entry.2 && recordsModulePath fs extensions entry.1

mutual
/-- The number of the files at or below a node of the tree that are not filtered, are in
no filtered directory from the node on, and of which `counted` holds; `path` is the path of
the node. -/
def countNode (ignorePath counted : String → Bool) : String → FSNode → Nat
  | path, .file _ => if !ignorePath path && counted path then 1 else 0
  | path, .dir entries =>
    if ignorePath path then 0 else countEntries ignorePath counted path entries
/-- The sum of `countNode` over the entries of a directory. -/
def countEntries (ignorePath counted : String → Bool) : String → FSEntries → Nat
  | _, .nil => 0
  | path, .cons name node rest =>
    countNode ignorePath counted (Join [path, name]) node +
      countEntries ignorePath counted path rest
end

/-- A directory is a path-prefix of a path: it is the path, or the path begins with the
directory followed by the separator. -/
def isPathPrefix (directory path : String) : Bool :=
  directory = path || HasPrefix path (directory ++ "/")

/-- The re-export statement of all the names of a target, with single quotes and one space
between the words. -/
def reExportStatement (target : String) : String :=
  "export * from \x27" ++ target ++ "\x27"

/-- The text of a file that holds the re-export statements of the targets, one on a line. -/
def reExportText (targets : List String) : String :=
  stringsJoin (targets.map reExportStatement) "\n"

/-- The first of the extensions, in their order, with which the path exists. -/
def firstExisting (fs : FSNode) (path : String) (extensions : List String) : Option String :=
  extensions.find? fun extension => (stat fs (path ++ extension)).isSome

/-! ## Notions of the specification for the registry -/

/-- One pass through the body of the loop over the matches in `BarrelMaps`: the name
`moduleName` read under the target `modulePath` of the barrel directory `barrelDir`, whose
alias path is `aliasFullPath`. -/
structure Registration where
  barrelDir : String
  aliasFullPath : String
  modulePath : String
  moduleName : String
deriving DecidableEq

/-- The effect of a registration on the registry. -/
def Registration.apply (b : BarrelResolvedPath) (r : Registration) : BarrelResolvedPath :=
  registerExport b r.barrelDir r.aliasFullPath r.modulePath r.moduleName

/-- The names that the walk function of `BarrelMaps` reads at an entry. -/
def entryNames (fs : FSNode) (extensions : List String) (entry : String × Bool) : List String :=
  if entry.2 || !IsSupportedFileExtension extensions entry.1 then []
  else
    match readFile fs entry.1 with
    | none => []
    | some contents => exportedNames contents

/-- The names that the walk of `BarrelMaps` reads under a path, in the order of the walk. -/
def targetNames (fs : FSNode) (extensions : List String) (path : String) : List String :=
  (Walk fs (fun _ => false) path).flatMap (entryNames fs extensions)

/-- The registrations of one barrel directory, in the order of its module paths. -/
def barrelRegistrations (fs : FSNode) (extensions : List String)
    (barrelDir aliasFullPath : String) (modulePaths : List String) : List Registration :=
  modulePaths.flatMap fun modulePath =>
    (targetNames fs extensions (Join [barrelDir, modulePath])).map fun moduleName =>
      ⟨barrelDir, aliasFullPath, modulePath, moduleName⟩

/-- The registrations of `BarrelMaps` on an index, in the order of the loop;
`aliasOrder barrelDir` is the order of the map of the resolver in the call of `AliasPath`
for `barrelDir`. -/
def registrations (fs : FSNode) (extensions : List String)
    (aliasOrder : String → List (String × String)) (index : BarrelIndex) :
    List Registration :=
  index.flatMap fun e =>
    barrelRegistrations fs extensions e.1 (AliasPath (aliasOrder e.1) e.1).FullPath e.2

/-- A registration writes the key `key` of the resolver map. -/
def Registration.writesKey (r : Registration) (key : String) : Bool :=
  Join [r.aliasFullPath, r.moduleName] = key || Join [r.barrelDir, r.moduleName] = key

/-- A registration marks the identity `path` in the existence map. -/
def Registration.marks (r : Registration) (path : String) : Bool :=
  r.aliasFullPath = path || r.barrelDir = path

/-- The module path without its extension, as `BarrelMaps` cuts it. -/
def withoutExtension (modulePath : String) : String :=
  ⟨modulePath.data.take (modulePath.data.length - (Ext modulePath).data.length)⟩

/-- The value that a registration writes into the resolver map. -/
def Registration.value (r : Registration) : String := Join [withoutExtension r.modulePath]

/-- The names that the file at a path declares for `BarrelMaps`. -/
def declaredNames (fs : FSNode) (extensions : List String) (path : String) : List String :=
  entryNames fs extensions (path, false)

/-! ## Example trees and configurations -/

/-- The barrel `/p/src/components` with `Button.ts`, with `Card.ts` and `Card.js`, and with
an index file that re-exports `./Button`, `./Card` and a missing `./Nope`. -/
def treeComponents : FSNode :=
  .dir (.cons "p" (.dir (.cons "src" (.dir
    (.cons "App.ts" (.file (some "const app = 1"))
    (.cons "components" (.dir
      (.cons "Button.ts" (.file (some "export const Button = 1"))
      (.cons "Card.js" (.file (some "export class Card \x7b\x7d"))
      (.cons "Card.ts" (.file (some "export class Card \x7b\x7d"))
      (.cons "index.ts" (.file (some
        "export * from \x27./Button\x27\nexport * from \x27./Card\x27\nexport * from \x27./Nope\x27"))
      .nil))))) .nil))) .nil)) .nil)

/-- The directory `/d` in which the target `./foo` of the index file exists as a regular
file `foo` next to the file `foo.ts`. -/
def treeExistingFile : FSNode :=
  .dir (.cons "d" (.dir
    (.cons "foo" (.file (some ""))
    (.cons "foo.ts" (.file (some "export const foo = 1"))
    (.cons "index.ts" (.file (some "export * from \x27./foo\x27")) .nil)))) .nil)

/-- The directory `/d` whose index file re-exports `./empty`, a file that exists and
declares no name. -/
def treeNoNames : FSNode :=
  .dir (.cons "d" (.dir
    (.cons "empty.ts" (.file (some "const x = 1"))
    (.cons "index.ts" (.file (some "export * from \x27./empty\x27")) .nil))) .nil)

/-- The barrels `/r/lib/a`, which declares `Card`, and `/r/src/a`, which declares
`Button`. -/
def treeSharedAlias : FSNode :=
  .dir (.cons "r" (.dir
    (.cons "lib" (.dir (.cons "a" (.dir
        (.cons "Card.ts" (.file (some "export const Card = 1"))
        (.cons "index.ts" (.file (some "export * from \x27./Card\x27")) .nil))) .nil))
    (.cons "src" (.dir (.cons "a" (.dir
        (.cons "Button.ts" (.file (some "export const Button = 1"))
        (.cons "index.ts" (.file (some "export * from \x27./Button\x27")) .nil))) .nil))
    .nil))) .nil)

/-- The configuration `/r/tsconfig.json` whose one alias `@x/*` has the two paths
`src/a/*` and `lib/a/*`. -/
def configSharedAlias (path : String) : Option TSConfig :=
  if path = "/r/tsconfig.json" then some ⟨[("@x/*", ["src/a/*", "lib/a/*"])], ""⟩ else none

/-- The configuration `/r/tsconfig.json` of the test `TestResolverPathNormalization`:
`baseUrl` is `./src`, the paths are `@/*` for `./*` and `@components/*` for
`./components/*`. -/
def configBaseUrl (path : String) : Option TSConfig :=
  if path = "/r/tsconfig.json" then
    some ⟨[("@/*", ["./*"]), ("@components/*", ["./components/*"])], "./src"⟩
  else none

/-- The configuration `/r/config/tsconfig.json` of the test `TestResolverWithRelativePaths`:
`baseUrl` is `../src`. -/
def configParentBaseUrl (path : String) : Option TSConfig :=
  if path = "/r/config/tsconfig.json" then
    some ⟨[("@/*", ["./*"]), ("@components/*", ["components/*"])], "../src"⟩
  else none

/-- The barrel `/p/a` re-exports the directory `./x`, itself a barrel that re-exports
`./impl`; the file `impl.ts` declares `x` and has a statement `export { y }`. -/
def treeNameCollision : FSNode :=
  .dir (.cons "p" (.dir (.cons "a" (.dir
    (.cons "index.ts" (.file (some "export * from \x27./x\x27"))
    (.cons "x" (.dir
      (.cons "impl.ts" (.file (some
        "export const x = 1\nconst y = 2\nexport \x7b y \x7d"))
      (.cons "index.ts" (.file (some "export * from \x27./impl\x27")) .nil))) .nil))) .nil))
    .nil)

/-! ## Notions of the specification for the rewrite of one import statement -/

/-- The test `isTypeImport` of `replaceBarrelImports` (update.go, line 139) for the names
group `names` of the statement and the names `importNames` grouped under one target. -/
def isTypeImport (names : String) (importNames : List String) : Bool :=
  HasPrefix names "type \x7b" ||
    (match importNames with
      | [importName] => Contains importName "type "
      | _ => false)

/-- The names of an import statement as the loop of `replaceBarrelImports` reads them from
the names group: the tokens between the commas, trimmed, the empty ones left out. -/
def importNamesOf (names : String) : List String :=
  ((SplitComma names).map fun token =>
    TrimSpace (TrimSuffix (TrimPrefix token "\x7b") "\x7d")).filter fun importName =>
      importName != ""

/-- The name `importName` has an entry in the resolver map under the key: its module name
resolves. -/
def resolvesUnder (b : BarrelResolvedPath) (key importName : String) : Bool :=
  (b.ResolveModuleName key (getModuleName importName)).isSome

/-- The names of an import statement that resolve under the key, in their order. -/
def resolvedNames (b : BarrelResolvedPath) (key names : String) : List String :=
  (importNamesOf names).filter (resolvesUnder b key)

/-- The path that the rewrite emits for the name `importName` (update.go, lines 123 to
129), from the target to which its module name resolves. -/
def emittedPath (b : BarrelResolvedPath) (key importPath importName : String) : String :=
  let resolvedModulePath := (b.ResolveModuleName key (getModuleName importName)).getD ""
  if HasPrefix importPath "@" then Join [key, resolvedModulePath]
  else if HasPrefix importPath "./" then Join [importPath, resolvedModulePath]
  else "./" ++ Join [importPath, resolvedModulePath]

/-- The names of an import statement that resolve under the key and are emitted with the
path `resolvedPath`, in their order. -/
def namesUnder (b : BarrelResolvedPath) (key importPath names resolvedPath : String) :
    List String :=
  (resolvedNames b key names).filter fun importName =>
    emittedPath b key importPath importName = resolvedPath

/-- The member tokens of an emitted statement: the module names of the grouped names when
the statement is type-only, the grouped names as they are otherwise. -/
def memberTokens (names : String) (importNames : List String) : List String :=
  if isTypeImport names importNames then importNames.map getModuleName else importNames

/-! ## Further example trees -/

/-- The barrel `/p/d` re-exports `./mod`, a file whose only export statement is
`export { Foo, Bar }`. -/
def treeExportList : FSNode :=
  .dir (.cons "p" (.dir (.cons "d" (.dir
    (.cons "index.ts" (.file (some "export * from \x27./mod\x27"))
    (.cons "mod.ts" (.file (some
      "const Foo = 1\nconst Bar = 2\nexport \x7b Foo, Bar \x7d")) .nil))) .nil)) .nil)

/-- The barrel `/p/lib` re-exports `./secret`, a file that declares `Key`. -/
def treeIgnoredModule : FSNode :=
  .dir (.cons "p" (.dir (.cons "lib" (.dir
    (.cons "index.ts" (.file (some "export * from \x27./secret\x27"))
    (.cons "secret.ts" (.file (some "export const Key = 1")) .nil))) .nil)) .nil)

/-- The directory `/p/d` holds two barrel files: `index.js` re-exports `./a` and `index.ts`
re-exports `./b`. -/
def treeTwoIndexFiles : FSNode :=
  .dir (.cons "p" (.dir (.cons "d" (.dir
    (.cons "a.js" (.file (some "export const A = 1"))
    (.cons "b.ts" (.file (some "export const B = 1"))
    (.cons "index.js" (.file (some "export * from \x27./a\x27"))
    (.cons "index.ts" (.file (some "export * from \x27./b\x27")) .nil))))) .nil)) .nil)

/-! ## Lemmas on `filepath.Clean` and `filepath.Join` -/

theorem pathElems_ne_nil (p : List Char) : pathElems p ≠ [] := by
  cases p with
  | nil => simp [pathElems]
  | cons c cs =>
    unfold pathElems
    split
    · simp
    · split <;> simp

theorem pathElems_append_sep (a b : List Char) :
    pathElems (a ++ '/' :: b) = pathElems a ++ pathElems b := by
  induction a with
  | nil => simp [pathElems]
  | cons c cs ih =>
    by_cases hc : c = '/'
    · simp [pathElems, hc, ih]
    · have h1 := pathElems_ne_nil cs
      cases hcs : pathElems cs with
      | nil => exact absurd hcs h1
      | cons e es =>
        simp [pathElems, hc, ih, hcs]

theorem pathElems_sep_free (p : List Char) : ∀ e ∈ pathElems p, '/' ∉ e := by
  induction p with
  | nil => simp [pathElems]
  | cons c cs ih =>
    by_cases hc : c = '/'
    · simp only [pathElems, hc, if_true]
      intro e he
      rcases List.mem_cons.1 he with h | h
      · subst h; simp
      · exact ih e h
    · have h1 := pathElems_ne_nil cs
      cases hcs : pathElems cs with
      | nil => exact absurd hcs h1
      | cons e es =>
        rw [hcs] at ih
        simp only [pathElems, hc, if_false, hcs]
        intro x hx
        rcases List.mem_cons.1 hx with h | h
        · subst h
          intro hm
          rcases List.mem_cons.1 hm with h2 | h2
          · exact hc h2.symm
          · exact ih e (List.mem_cons_self _ _) h2
        · exact ih x (List.mem_cons_of_mem _ h)

theorem pathElems_of_sep_free (e : List Char) (h : '/' ∉ e) : pathElems e = [e] := by
  induction e with
  | nil => simp [pathElems]
  | cons c cs ih =>
    have hc : c ≠ '/' := fun hc => h (by simp [hc])
    have hcs : '/' ∉ cs := fun hm => h (List.mem_cons_of_mem _ hm)
    simp [pathElems, hc, ih hcs]

theorem pathElems_joinElems (l : List (List Char)) (hne : l ≠ [])
    (h : ∀ e ∈ l, '/' ∉ e) : pathElems (joinElems l) = l := by
  induction l with
  | nil => exact absurd rfl hne
  | cons e es ih =>
    cases es with
    | nil => simpa [joinElems] using pathElems_of_sep_free e (h e (by simp))
    | cons e2 es2 =>
      have h2 : pathElems (joinElems (e2 :: es2)) = e2 :: es2 :=
        ih (by simp) (fun x hx => h x (List.mem_cons_of_mem _ hx))
      simp only [joinElems]
      rw [pathElems_append_sep, h2, pathElems_of_sep_free e (h e (by simp))]
      rfl

theorem cleanStep_kept (r : Bool) (out : List (List Char)) (e : List Char)
    (h : ∀ x ∈ out, x ≠ [] ∧ x ≠ ['.'] ∧ '/' ∉ x) (he : '/' ∉ e) :
    ∀ x ∈ cleanStep r out e, x ≠ [] ∧ x ≠ ['.'] ∧ '/' ∉ x := by
  unfold cleanStep
  by_cases h1 : e = [] ∨ e = ['.']
  · simpa [h1] using h
  · have h1a : e ≠ [] := fun hh => h1 (Or.inl hh)
    have h1b : e ≠ ['.'] := fun hh => h1 (Or.inr hh)
    rw [if_neg h1]
    by_cases h2 : e = ['.', '.']
    · rw [if_pos h2]
      cases out with
      | nil =>
        cases r
        · intro x hx
          simp at hx
          subst hx
          exact ⟨h1a, h1b, he⟩
        · intro x hx
          simp at hx
      | cons top rest =>
        by_cases h3 : top = ['.', '.']
        · simp only [h3, if_true]
          intro x hx
          rcases List.mem_cons.1 hx with hx | hx
          · subst hx; exact ⟨h1a, h1b, he⟩
          · exact h x (by simpa [h3] using hx)
        · simp only [h3, if_false]
          intro x hx
          exact h x (List.mem_cons_of_mem _ hx)
    · rw [if_neg h2]
      intro x hx
      rcases List.mem_cons.1 hx with hx | hx
      · subst hx; exact ⟨h1a, h1b, he⟩
      · exact h x hx

theorem foldl_cleanStep_kept (r : Bool) (xs : List (List Char)) :
    ∀ out : List (List Char), (∀ x ∈ out, x ≠ [] ∧ x ≠ ['.'] ∧ '/' ∉ x) →
      (∀ e ∈ xs, '/' ∉ e) →
      ∀ x ∈ xs.foldl (cleanStep r) out, x ≠ [] ∧ x ≠ ['.'] ∧ '/' ∉ x := by
  induction xs with
  | nil => intro out h _; simpa using h
  | cons e es ih =>
    intro out h hs
    simp only [List.foldl_cons]
    exact ih _ (cleanStep_kept r out e h (hs e (by simp)))
      (fun x hx => hs x (List.mem_cons_of_mem _ hx))

/-- A `..` met by the rooted scan never stays in the buffer. -/
theorem cleanStep_rooted_no_dotdot (out : List (List Char)) (e : List Char)
    (h : ∀ x ∈ out, x ≠ ['.', '.']) : ∀ x ∈ cleanStep true out e, x ≠ ['.', '.'] := by
  unfold cleanStep
  by_cases h1 : e = [] ∨ e = ['.']
  · simpa [h1] using h
  · rw [if_neg h1]
    by_cases h2 : e = ['.', '.']
    · rw [if_pos h2]
      cases out with
      | nil => simp
      | cons top rest =>
        have h3 : top ≠ ['.', '.'] := h top (by simp)
        simp only [h3, if_false]
        intro x hx
        exact h x (List.mem_cons_of_mem _ hx)
    · rw [if_neg h2]
      intro x hx
      rcases List.mem_cons.1 hx with hx | hx
      · subst hx; exact h2
      · exact h x hx

theorem foldl_cleanStep_rooted_no_dotdot (xs : List (List Char)) :
    ∀ out : List (List Char), (∀ x ∈ out, x ≠ ['.', '.']) →
      ∀ x ∈ xs.foldl (cleanStep true) out, x ≠ ['.', '.'] := by
  induction xs with
  | nil => intro out h; simpa using h
  | cons e es ih =>
    intro out h
    simp only [List.foldl_cons]
    exact ih _ (cleanStep_rooted_no_dotdot out e h)

/-- Scanning real elements only appends them. -/
theorem foldl_cleanStep_real (r : Bool) (l : List (List Char)) :
    ∀ st : List (List Char), (∀ x ∈ l, x ≠ [] ∧ x ≠ ['.'] ∧ x ≠ ['.', '.']) →
      l.foldl (cleanStep r) st = l.reverse ++ st := by
  induction l with
  | nil => intro st _; simp
  | cons e es ih =>
    intro st h
    have he := h e (by simp)
    have : cleanStep r st e = e :: st := by
      simp [cleanStep, he.1, he.2.1, he.2.2]
    simp only [List.foldl_cons, this]
    rw [ih _ (fun x hx => h x (List.mem_cons_of_mem _ hx))]
    simp

/-- Scanning the elements kept by a relative scan has the effect of the scanned element. -/
theorem cleanStep_reverse (r : Bool) (st S : List (List Char)) (e : List Char)
    (hS : ∀ x ∈ S, x ≠ [] ∧ x ≠ ['.'] ∧ '/' ∉ x) :
    (cleanStep false S e).reverse.foldl (cleanStep r) st
      = cleanStep r (S.reverse.foldl (cleanStep r) st) e := by
  by_cases h1 : e = [] ∨ e = ['.']
  · simp [cleanStep, h1]
  · by_cases h2 : e = ['.', '.']
    · subst h2
      cases S with
      | nil => simp [cleanStep]
      | cons top rest =>
        have ht := hS top (by simp)
        by_cases h3 : top = ['.', '.']
        · subst h3
          simp [cleanStep, List.foldl_append]
        · have e1 : cleanStep false (top :: rest) ['.', '.'] = rest := by
            simp [cleanStep, h3]
          rw [e1]
          simp only [List.reverse_cons, List.foldl_append, List.foldl_cons, List.foldl_nil]
          have e2 : ∀ X, cleanStep r X top = top :: X := by
            intro X; simp [cleanStep, ht.1, ht.2.1, h3]
          rw [e2]
          simp [cleanStep, h3]
    · have e1 : ∀ X q, cleanStep q X e = e :: X := by
        intro X q
        have h1a : e ≠ [] := fun hh => h1 (Or.inl hh)
        have h1b : e ≠ ['.'] := fun hh => h1 (Or.inr hh)
        simp [cleanStep, h1a, h1b, h2]
      rw [e1, e1]
      simp only [List.reverse_cons, List.foldl_append, List.foldl_cons, List.foldl_nil]
      rw [e1]

theorem foldl_cleanStep_norm (r : Bool) (xs : List (List Char)) :
    ∀ S st : List (List Char), (∀ x ∈ S, x ≠ [] ∧ x ≠ ['.'] ∧ '/' ∉ x) →
      (∀ e ∈ xs, '/' ∉ e) →
      (xs.foldl (cleanStep false) S).reverse.foldl (cleanStep r) st
        = xs.foldl (cleanStep r) (S.reverse.foldl (cleanStep r) st) := by
  induction xs with
  | nil => intro S st _ _; rfl
  | cons e es ih =>
    intro S st hS hs
    simp only [List.foldl_cons]
    rw [ih (cleanStep false S e) st
      (cleanStep_kept false S e hS (hs e (by simp)))
      (fun x hx => hs x (List.mem_cons_of_mem _ hx))]
    rw [cleanStep_reverse r st S e hS]

theorem joinElems_cons_ne (e : List Char) (es : List (List Char)) (c : Char) (t : List Char)
    (h : e = c :: t) : ∃ u, joinElems (e :: es) = c :: u := by
  subst h
  cases es with
  | nil => exact ⟨t, rfl⟩
  | cons e2 es2 => exact ⟨t ++ '/' :: joinElems (e2 :: es2), rfl⟩

theorem isRooted_joinElems (l : List (List Char)) (hne : l ≠ [])
    (h : ∀ x ∈ l, x ≠ [] ∧ x ≠ ['.'] ∧ '/' ∉ x) :
    joinElems l ≠ [] ∧ isRooted (joinElems l) = false := by
  cases l with
  | nil => exact absurd rfl hne
  | cons e es =>
    have he := h e (by simp)
    cases e with
    | nil => exact absurd rfl he.1
    | cons c t =>
      obtain ⟨u, hu⟩ := joinElems_cons_ne (c :: t) es c t rfl
      rw [hu]
      refine ⟨by simp, ?_⟩
      have hc : c ≠ '/' := fun hc => he.2.2 (by simp [hc])
      simp [isRooted, hc]

theorem relative_scan_kept (r : Bool) (x : List Char) :
    ∀ e ∈ (pathElems x).foldl (cleanStep r) [], e ≠ [] ∧ e ≠ ['.'] ∧ '/' ∉ e :=
  foldl_cleanStep_kept r (pathElems x) [] (by simp) (pathElems_sep_free x)

theorem isRooted_ne_nil (p : List Char) (h : isRooted p = true) : p ≠ [] := by
  intro hp; subst hp; exact absurd h (by decide)

theorem cleanChars_rooted (p : List Char) (h : isRooted p = true) :
    cleanChars p = '/' :: joinElems ((pathElems p).foldl (cleanStep true) []).reverse := by
  have hp := isRooted_ne_nil p h
  unfold cleanChars
  rw [if_neg hp]
  simp only [h, if_true]

theorem cleanChars_relative (p : List Char) (hp : p ≠ []) (h : isRooted p = false) :
    cleanChars p = if (pathElems p).foldl (cleanStep false) [] = [] then ['.']
      else joinElems ((pathElems p).foldl (cleanStep false) []).reverse := by
  unfold cleanChars
  rw [if_neg hp]
  simp only [h]
  rfl

theorem cleanChars_ne_nil (p : List Char) : cleanChars p ≠ [] := by
  by_cases hp : p = []
  · subst hp; decide
  · by_cases hr : isRooted p = true
    · rw [cleanChars_rooted p hr]; simp
    · have hr2 : isRooted p = false := by simpa using hr
      rw [cleanChars_relative p hp hr2]
      by_cases ho : (pathElems p).foldl (cleanStep false) [] = []
      · rw [if_pos ho]; simp
      · rw [if_neg ho]
        refine (isRooted_joinElems _ (by simpa using ho) ?_).1
        intro e he
        exact relative_scan_kept _ p e (by simpa using he)

theorem isRooted_cleanChars (p : List Char) : isRooted (cleanChars p) = isRooted p := by
  by_cases hp : p = []
  · subst hp; decide
  · by_cases hr : isRooted p = true
    · rw [cleanChars_rooted p hr, hr]; rfl
    · have hr2 : isRooted p = false := by simpa using hr
      rw [cleanChars_relative p hp hr2, hr2]
      by_cases ho : (pathElems p).foldl (cleanStep false) [] = []
      · rw [if_pos ho]; rfl
      · rw [if_neg ho]
        refine (isRooted_joinElems _ (by simpa using ho) ?_).2
        intro e he
        exact relative_scan_kept _ p e (by simpa using he)

/-- Scanning a cleaned relative path has the effect of scanning the path. -/
theorem foldl_pathElems_cleanChars (r : Bool) (st : List (List Char)) (x : List Char)
    (hx : isRooted x = false) :
    (pathElems (cleanChars x)).foldl (cleanStep r) st
      = (pathElems x).foldl (cleanStep r) st := by
  by_cases hp : x = []
  · subst hp
    simp [cleanChars, pathElems, cleanStep]
  · have norm := foldl_cleanStep_norm r (pathElems x) [] st (by simp) (pathElems_sep_free x)
    simp only [List.reverse_nil, List.foldl_nil] at norm
    rw [cleanChars_relative x hp hx]
    by_cases ho : (pathElems x).foldl (cleanStep false) [] = []
    · rw [if_pos ho]
      rw [ho] at norm
      rw [← norm]
      simp [pathElems, cleanStep]
    · rw [if_neg ho]
      rw [pathElems_joinElems _ (by simpa using ho)
        (fun e he => (relative_scan_kept false x e (by simpa using he)).2.2)]
      simpa using norm

theorem foldl_pathElems_cleanChars_nil (x : List Char) :
    (pathElems (cleanChars x)).foldl (cleanStep (isRooted x)) []
      = (pathElems x).foldl (cleanStep (isRooted x)) [] := by
  by_cases hr : isRooted x = true
  · rw [cleanChars_rooted x hr, hr]
    have e1 : ∀ J, pathElems ('/' :: J) = [] :: pathElems J := by
      intro J; simp [pathElems]
    rw [e1]
    have e2 : ∀ X, cleanStep true X [] = X := by intro X; simp [cleanStep]
    simp only [List.foldl_cons, e2]
    by_cases ho : (pathElems x).foldl (cleanStep true) [] = []
    · simp [ho, joinElems, pathElems, cleanStep]
    · have hk := relative_scan_kept true x
      have hd := foldl_cleanStep_rooted_no_dotdot (pathElems x) [] (by simp)
      rw [pathElems_joinElems _ (by simpa using ho)
        (fun e he => (hk e (by simpa using he)).2.2)]
      rw [foldl_cleanStep_real true _ []]
      · simp
      · intro e he
        have he2 : e ∈ (pathElems x).foldl (cleanStep true) [] := by simpa using he
        exact ⟨(hk e he2).1, (hk e he2).2.1, hd e he2⟩
  · have hr2 : isRooted x = false := by simpa using hr
    rw [hr2]
    exact foldl_pathElems_cleanChars false [] x hr2

theorem cleanChars_congr (p q : List Char) (hp : p ≠ []) (hq : q ≠ [])
    (hr : isRooted p = isRooted q)
    (hf : (pathElems p).foldl (cleanStep (isRooted p)) []
      = (pathElems q).foldl (cleanStep (isRooted p)) []) :
    cleanChars p = cleanChars q := by
  by_cases h : isRooted p = true
  · rw [cleanChars_rooted p h, cleanChars_rooted q (hr ▸ h)]
    rw [h] at hf
    rw [hf]
  · have h2 : isRooted p = false := by simpa using h
    rw [cleanChars_relative p hp h2, cleanChars_relative q hq (hr ▸ h2)]
    rw [h2] at hf
    rw [hf]

theorem isRooted_append (a b : List Char) (ha : a ≠ []) :
    isRooted (a ++ b) = isRooted a := by
  cases a with
  | nil => exact absurd rfl ha
  | cons c t => rfl

theorem cleanChars_idem (x : List Char) : cleanChars (cleanChars x) = cleanChars x := by
  by_cases hp : x = []
  · subst hp; decide
  · refine (cleanChars_congr x (cleanChars x) hp (cleanChars_ne_nil x)
      (isRooted_cleanChars x).symm ?_).symm
    exact (foldl_pathElems_cleanChars_nil x).symm

theorem cleanChars_join_left (y c : List Char) (hy : y ≠ []) :
    cleanChars (cleanChars y ++ '/' :: c) = cleanChars (y ++ '/' :: c) := by
  have hn := cleanChars_ne_nil y
  refine cleanChars_congr _ _ (by simp [hn]) (by simp [hy]) ?_ ?_
  · rw [isRooted_append _ _ hn, isRooted_append _ _ hy, isRooted_cleanChars]
  · rw [isRooted_append _ _ hn, isRooted_cleanChars, pathElems_append_sep,
      pathElems_append_sep, List.foldl_append, List.foldl_append,
      foldl_pathElems_cleanChars_nil]

theorem cleanChars_join_right (a x : List Char) (ha : a ≠ []) (hx : isRooted x = false) :
    cleanChars (a ++ '/' :: cleanChars x) = cleanChars (a ++ '/' :: x) := by
  refine cleanChars_congr _ _ (by simp [ha]) (by simp [ha]) ?_ ?_
  · rw [isRooted_append _ _ ha, isRooted_append _ _ ha]
  · rw [pathElems_append_sep, pathElems_append_sep, List.foldl_append, List.foldl_append,
      foldl_pathElems_cleanChars _ _ x hx]

theorem cleanChars_sep_nil (a c : List Char) (ha : a ≠ []) :
    cleanChars ((a ++ '/' :: []) ++ '/' :: c) = cleanChars (a ++ '/' :: c) := by
  refine cleanChars_congr _ _ (by simp) (by simp [ha]) ?_ ?_
  · rw [isRooted_append _ _ (by simp), isRooted_append _ _ ha, isRooted_append _ _ ha]
  · rw [pathElems_append_sep, pathElems_append_sep, pathElems_append_sep,
      List.foldl_append, List.foldl_append, List.foldl_append]
    simp [pathElems, cleanStep]

theorem Join_pair (a b : String) :
    Join [a, b] = if a.data = [] then (if b.data = [] then "" else ⟨cleanChars b.data⟩)
      else ⟨cleanChars (a.data ++ '/' :: b.data)⟩ := by
  simp only [Join, sepJoin]

theorem Join_pair_data (a b : String) :
    (Join [a, b]).data = if a.data = [] then (if b.data = [] then [] else cleanChars b.data)
      else cleanChars (a.data ++ '/' :: b.data) := by
  rw [Join_pair]
  by_cases ha : a.data = []
  · by_cases hb : b.data = []
    · simp [ha, hb]
    · simp [ha, hb]
  · simp [ha]

theorem isRooted_Join (b c : String) (hb : isRooted b.data = false)
    (hc : isRooted c.data = false) : isRooted (Join [b, c]).data = false := by
  rw [Join_pair_data]
  by_cases h1 : b.data = []
  · by_cases h2 : c.data = []
    · simp [h1, h2, isRooted]
    · simp only [h1, h2, if_true, if_false]
      rw [isRooted_cleanChars, hc]
  · simp only [h1, if_false]
    rw [isRooted_cleanChars, isRooted_append _ _ h1, hb]

/-- Go `filepath.Join` is associative on relative second and third elements. -/
theorem Join_assoc (a b c : String) (hb : isRooted b.data = false)
    (hc : isRooted c.data = false) : Join [Join [a, b], c] = Join [a, Join [b, c]] := by
  apply String.ext
  simp only [Join_pair_data]
  by_cases ha : a.data = []
  · by_cases h1 : b.data = []
    · by_cases h2 : c.data = []
      · simp [ha, h1, h2]
      · simp [ha, h1, h2, cleanChars_ne_nil, cleanChars_idem]
    · simp only [ha, h1, if_true, if_false, cleanChars_ne_nil]
      rw [cleanChars_join_left _ _ h1, cleanChars_idem]
  · simp only [ha, if_false, cleanChars_ne_nil]
    rw [cleanChars_join_left _ _ (by simp [ha])]
    by_cases h1 : b.data = []
    · by_cases h2 : c.data = []
      · simp only [h1, h2, if_true]
        have := cleanChars_sep_nil a.data [] ha
        simpa using this
      · simp only [h1, h2, if_true, if_false]
        rw [cleanChars_join_right _ _ ha hc]
        have := cleanChars_sep_nil a.data c.data ha
        simpa using this
    · simp only [h1, if_false]
      rw [cleanChars_join_right _ _ ha (by rw [isRooted_append _ _ h1, hb])]
      simp

/-! ## The index as a map -/

theorem keys_assign (index : BarrelIndex) (d : String) (l : List String) :
    keys (assign index d l) = keys index := by
  unfold keys assign
  rw [List.map_map]
  apply List.map_congr_left
  intro e _
  by_cases h : e.1 = d <;> simp [h]

theorem length_assign (index : BarrelIndex) (d : String) (l : List String) :
    (assign index d l).length = index.length := by
  simp [assign]

theorem lookup_isSome_iff (index : BarrelIndex) (x : String) :
    (lookup index x).isSome = true ↔ x ∈ keys index := by
  induction index with
  | nil => simp [lookup, keys]
  | cons e rest ih =>
    obtain ⟨k, v⟩ := e
    by_cases h : k = x
    · simp [lookup, keys, h]
    · have h2 : ¬ x = k := fun hh => h hh.symm
      simp only [lookup, h, if_false, ih, keys, List.map_cons, List.mem_cons, h2, false_or]

theorem lookup_eq_none_iff (index : BarrelIndex) (x : String) :
    lookup index x = none ↔ x ∉ keys index := by
  rw [← lookup_isSome_iff]
  cases lookup index x <;> simp

theorem lookup_cons (k : String) (v : List String) (rest : BarrelIndex) (x : String) :
    lookup ((k, v) :: rest) x = if k = x then some v else lookup rest x := rfl

theorem assign_cons_eq (k : String) (v l : List String) (rest : BarrelIndex) :
    assign ((k, v) :: rest) k l = (k, l) :: assign rest k l := by
  simp [assign]

theorem assign_cons_ne (k d : String) (v l : List String) (rest : BarrelIndex)
    (h : k ≠ d) : assign ((k, v) :: rest) d l = (k, v) :: assign rest d l := by
  simp [assign, h]

theorem lookup_assign (index : BarrelIndex) (d x : String) (l : List String) :
    lookup (assign index d l) x
      = if x = d then (if (lookup index d).isSome then some l else none)
        else lookup index x := by
  induction index with
  | nil => simp [assign, lookup]
  | cons e rest ih =>
    obtain ⟨k, v⟩ := e
    by_cases hk : k = d
    · subst hk
      rw [assign_cons_eq, lookup_cons, lookup_cons, ih]
      by_cases hx : x = k
      · subst hx; simp
      · have hx2 : ¬ k = x := fun hh => hx hh.symm
        simp [hx, hx2, lookup_cons]
    · rw [assign_cons_ne _ _ _ _ _ hk, lookup_cons, lookup_cons, lookup_cons, ih]
      by_cases hx : x = d
      · subst hx
        simp [hk]
      · simp [hx]

theorem lookup_of_mem (index : BarrelIndex) (d : String) (l : List String)
    (hnd : (keys index).Nodup) (h : (d, l) ∈ index) : lookup index d = some l := by
  induction index with
  | nil => simp at h
  | cons e rest ih =>
    obtain ⟨k, v⟩ := e
    have hnd2 : k ∉ keys rest ∧ (keys rest).Nodup := by
      simpa [keys] using hnd
    rcases List.mem_cons.1 h with h1 | h1
    · have hk : k = d := (congrArg Prod.fst h1).symm
      have hv : v = l := (congrArg Prod.snd h1).symm
      simp [lookup, hk, hv]
    · have hd : d ∈ keys rest := List.mem_map.2 ⟨(d, l), h1, rfl⟩
      have hk : k ≠ d := fun hh => hnd2.1 (hh ▸ hd)
      simp [lookup, hk, ih hnd2.2 h1]

theorem mem_of_lookup (index : BarrelIndex) (d : String) (l : List String)
    (h : lookup index d = some l) : (d, l) ∈ index := by
  induction index with
  | nil => simp [lookup] at h
  | cons e rest ih =>
    obtain ⟨k, v⟩ := e
    by_cases hk : k = d
    · simp [lookup, hk] at h
      simp [hk, h]
    · simp [lookup, hk] at h
      exact List.mem_cons_of_mem _ (ih h)

theorem relativeTargets_lookup (index : BarrelIndex) (h : relativeTargets index = true)
    (d : String) (l : List String) (hl : lookup index d = some l) :
    ∀ t ∈ l, isRooted t.data = false := by
  intro t ht
  have hm := mem_of_lookup index d l hl
  unfold relativeTargets at h
  rw [List.all_eq_true] at h
  have h2 := h (d, l) hm
  rw [List.all_eq_true] at h2
  simpa using h2 t ht

/-! ## Termination of the flattening -/

theorem unvisited_le_length (index : BarrelIndex) (V : List String) :
    unvisited index V ≤ index.length := by
  unfold unvisited
  calc ((keys index).toFinset \ V.toFinset).card
      ≤ (keys index).toFinset.card := Finset.card_le_card Finset.sdiff_subset
    _ ≤ (keys index).length := List.toFinset_card_le _
    _ = index.length := by simp [keys]

theorem unvisited_mono (index : BarrelIndex) (V V1 : List String) (h : V ⊆ V1) :
    unvisited index V1 ≤ unvisited index V := by
  unfold unvisited
  apply Finset.card_le_card
  intro x hx
  simp only [Finset.mem_sdiff, List.mem_toFinset] at hx ⊢
  exact ⟨hx.1, fun hv => hx.2 (h hv)⟩

theorem unvisited_cons_lt (index : BarrelIndex) (V : List String) (x : String)
    (hk : x ∈ keys index) (hv : x ∉ V) :
    unvisited index (x :: V) < unvisited index V := by
  unfold unvisited
  apply Finset.card_lt_card
  rw [Finset.ssubset_iff_of_subset]
  · refine ⟨x, ?_, ?_⟩
    · simp [hk, hv]
    · simp
  · intro y hy
    simp only [Finset.mem_sdiff, List.mem_toFinset, List.mem_cons, not_or] at hy ⊢
    exact ⟨hy.1, hy.2.2⟩

theorem expandPaths_total
    (nested : String → String → List String → Option (List String × List String))
    (index : BarrelIndex) (full : String) (rel : String → String) (ts : List String) :
    ∀ V : List String,
      (∀ p r V1, V ⊆ V1 → ∃ res V2, nested p r V1 = some (res, V2) ∧ V1 ⊆ V2) →
      ∃ res V2, expandPaths nested index full rel ts V = some (res, V2) ∧ V ⊆ V2 := by
  induction ts with
  | nil => intro V _; exact ⟨[], V, rfl, fun _ h => h⟩
  | cons t rest ih =>
    intro V hn
    unfold expandPaths
    by_cases hkey : (lookup index (Join [full, t])).isSome = true
    · simp only [hkey, if_true]
      obtain ⟨r1, V1, h1, hs1⟩ := hn (Join [full, t]) (rel t) V (fun _ h => h)
      obtain ⟨r2, V2, h2, hs2⟩ := ih V1 (fun p r W hW => hn p r W (fun _ h => hW (hs1 h)))
      rw [h1]
      simp only [h2]
      exact ⟨r1 ++ r2, V2, rfl, fun _ h => hs2 (hs1 h)⟩
    · simp only [hkey]
      obtain ⟨r2, V2, h2, hs2⟩ := ih V hn
      simp only [h2]
      exact ⟨rel t :: r2, V2, rfl, hs2⟩

theorem getResolvedModulePaths_total (index : BarrelIndex) :
    ∀ (fuel : Nat) (full rel : String) (V : List String), unvisited index V < fuel →
      ∃ res V2, getResolvedModulePaths fuel full rel index V = some (res, V2) ∧ V ⊆ V2 := by
  intro fuel
  induction fuel with
  | zero => intro full rel V h; exact absurd h (Nat.not_lt_zero _)
  | succ n ih =>
    intro full rel V h
    unfold getResolvedModulePaths
    by_cases hv : full ∈ V
    · simp only [hv, if_true]
      exact ⟨[], V, rfl, fun _ h => h⟩
    · simp only [hv, if_false]
      cases hl : lookup index full with
      | none => exact ⟨[], V, rfl, fun _ h => h⟩
      | some ts =>
        have hk : full ∈ keys index := (lookup_isSome_iff index full).1 (by simp [hl])
        have hlt := unvisited_cons_lt index V full hk hv
        obtain ⟨res, V2, h2, hs2⟩ := expandPaths_total
          (fun p r v => getResolvedModulePaths n p r index v) index full
          (fun modulePath => Join [rel, modulePath]) ts (full :: V)
          (fun p r V1 hV1 => ih p r V1 (by
            have := unvisited_mono index (full :: V) V1 hV1
            omega))
        exact ⟨res, V2, h2, fun _ hx => hs2 (List.mem_cons_of_mem _ hx)⟩

theorem expandPaths_mono
    (f g : String → String → List String → Option (List String × List String))
    (index : BarrelIndex) (full : String) (rel : String → String)
    (hfg : ∀ p r v x, f p r v = some x → g p r v = some x) :
    ∀ (ts V : List String) (x : List String × List String),
      expandPaths f index full rel ts V = some x →
      expandPaths g index full rel ts V = some x := by
  intro ts
  induction ts with
  | nil => intro V x h; exact h
  | cons t rest ih =>
    intro V x h
    unfold expandPaths at h ⊢
    dsimp only at h ⊢
    by_cases hkey : (lookup index (Join [full, t])).isSome = true
    · rw [if_pos hkey] at h ⊢
      cases h1 : f (Join [full, t]) (rel t) V with
      | none => simp [h1] at h
      | some pr1 =>
        obtain ⟨r1, V1⟩ := pr1
        simp only [h1] at h
        simp only [hfg _ _ _ _ h1]
        cases h2 : expandPaths f index full rel rest V1 with
        | none => simp [h2] at h
        | some pr2 =>
          simp only [h2] at h
          simp only [ih _ _ h2]
          exact h
    · rw [if_neg hkey] at h ⊢
      cases h2 : expandPaths f index full rel rest V with
      | none => simp [h2] at h
      | some pr2 =>
        simp only [h2] at h
        simp only [ih _ _ h2]
        exact h

/-- A result of `getResolvedModulePaths` does not depend on the recursion bound. -/
theorem getResolvedModulePaths_succ (index : BarrelIndex) :
    ∀ (n : Nat) (full rel : String) (V : List String) (x : List String × List String),
      getResolvedModulePaths n full rel index V = some x →
      getResolvedModulePaths (n + 1) full rel index V = some x := by
  intro n
  induction n with
  | zero => intro full rel V x h; simp [getResolvedModulePaths] at h
  | succ k ih =>
    intro full rel V x h
    unfold getResolvedModulePaths at h ⊢
    by_cases hv : full ∈ V
    · rw [if_pos hv] at h ⊢; exact h
    · rw [if_neg hv] at h ⊢
      cases hl : lookup index full with
      | none => simpa [hl] using h
      | some ts =>
        simp only [hl] at h ⊢
        exact expandPaths_mono (fun p r v => getResolvedModulePaths k p r index v)
          (fun p r v => getResolvedModulePaths (k + 1) p r index v) index full _
          (fun p r v x hh => ih p r v x hh) ts (full :: V) x h

theorem getResolvedModulePaths_le (index : BarrelIndex) (n k : Nat) (hnk : n ≤ k)
    (full rel : String) (V : List String) (x : List String × List String)
    (h : getResolvedModulePaths n full rel index V = some x) :
    getResolvedModulePaths k full rel index V = some x := by
  induction hnk with
  | refl => exact h
  | step _ ih => exact getResolvedModulePaths_succ index _ full rel V x ih

theorem flattenDir_total (index : BarrelIndex) (dir : String) (modulePaths : List String) :
    ∃ l, flattenDir index dir modulePaths = some l := by
  unfold flattenDir
  obtain ⟨res, V2, h2, _⟩ := expandPaths_total
    (fun p r v => getResolvedModulePaths (index.length + 1) p r index v) index dir
    (fun modulePath => modulePath) modulePaths [dir]
    (fun p r V1 _ => getResolvedModulePaths_total index _ p r V1 (by
      have := unvisited_le_length index V1
      omega))
  exact ⟨res, by rw [h2]; rfl⟩

theorem handleEntries_total (todo : List (String × List String)) :
    ∀ index : BarrelIndex, ∃ r, handleEntries todo index = some r := by
  induction todo with
  | nil => intro index; exact ⟨index, rfl⟩
  | cons e rest ih =>
    intro index
    obtain ⟨d, mp⟩ := e
    obtain ⟨l, hl⟩ := flattenDir_total index d mp
    unfold handleEntries
    simp only [hl]
    exact ih _

/-! ## Correctness of the depth-first expansion -/

theorem ReachLeaf_isSome (index : BarrelIndex) (x y : String) (h : ReachLeaf index x y) :
    (lookup index x).isSome = true := by
  cases h with
  | leaf x t ts h1 _ _ => simp [h1]
  | nested x t y ts h1 _ _ => simp [h1]

theorem ReachLeaf_none (index : BarrelIndex) (x y : String) (h : ReachLeaf index x y) :
    lookup index y = none := by
  induction h with
  | leaf x t ts _ _ h3 => exact h3
  | nested x t y ts _ _ _ ih => exact ih

theorem Covered_mono (index : BarrelIndex) (d0 x : String) (ts V V2 res res2 : List String)
    (hV : V ⊆ V2) (hr : res ⊆ res2) (h : Covered index d0 x ts V res) :
    Covered index d0 x ts V2 res2 := by
  intro t ht
  refine ⟨fun hk => hV ((h t ht).1 hk), fun hn => ?_⟩
  obtain ⟨q, hq, he⟩ := (h t ht).2 hn
  exact ⟨q, hr hq, he⟩

theorem expandPaths_spec
    (nested : String → String → List String → Option (List String × List String))
    (cur : BarrelIndex) (d0 full : String) (relf : String → String)
    (hn : ∀ p r V res V2, nested p r V = some (res, V2) →
      (lookup cur p).isSome = true → isRooted r.data = false → Join [d0, r] = p →
      V ⊆ V2 ∧ p ∈ V2 ∧
      (∀ q ∈ res, isRooted q.data = false ∧ ReachLeaf cur p (Join [d0, q])) ∧
      Closed cur d0 V V2 res)
    (hrel : ∀ t, isRooted t.data = false →
      isRooted (relf t).data = false ∧ Join [d0, relf t] = Join [full, t]) :
    ∀ (ts V res V2 : List String), (∀ t ∈ ts, isRooted t.data = false) →
      expandPaths nested cur full relf ts V = some (res, V2) →
      V ⊆ V2 ∧
      (∀ q ∈ res, isRooted q.data = false ∧ ∃ t ∈ ts,
        (lookup cur (Join [full, t]) = none ∧ Join [d0, q] = Join [full, t]) ∨
        ReachLeaf cur (Join [full, t]) (Join [d0, q])) ∧
      Closed cur d0 V V2 res ∧ Covered cur d0 full ts V2 res := by
  intro ts
  induction ts with
  | nil =>
    intro V res V2 _ h
    simp only [expandPaths, Option.some.injEq, Prod.mk.injEq] at h
    obtain ⟨h1, h2⟩ := h
    subst h1; subst h2
    refine ⟨fun _ h => h, by simp, ?_, by simp [Covered]⟩
    intro x hx hnx
    exact absurd hx hnx
  | cons t rest ih =>
    intro V res V2 hts h
    have ht : isRooted t.data = false := hts t (by simp)
    have hrest : ∀ u ∈ rest, isRooted u.data = false :=
      fun u hu => hts u (List.mem_cons_of_mem _ hu)
    unfold expandPaths at h
    by_cases hkey : (lookup cur (Join [full, t])).isSome = true
    · rw [if_pos hkey] at h
      cases h1 : nested (Join [full, t]) (relf t) V with
      | none => simp [h1] at h
      | some pr1 =>
        obtain ⟨r1, V1⟩ := pr1
        simp only [h1] at h
        cases h2 : expandPaths nested cur full relf rest V1 with
        | none => simp [h2] at h
        | some pr2 =>
          obtain ⟨r2, W⟩ := pr2
          simp only [h2, Option.some.injEq, Prod.mk.injEq] at h
          obtain ⟨hres, hW⟩ := h
          subst hres; subst hW
          obtain ⟨a1, a2, a3, a4⟩ := hn _ _ _ _ _ h1 hkey (hrel t ht).1 (hrel t ht).2
          obtain ⟨b1, b2, b3, b4⟩ := ih V1 r2 W hrest h2
          refine ⟨fun _ hx => b1 (a1 hx), ?_, ?_, ?_⟩
          · intro q hq
            rcases List.mem_append.1 hq with hq | hq
            · exact ⟨(a3 q hq).1, t, by simp, Or.inr (a3 q hq).2⟩
            · obtain ⟨c1, u, hu, c2⟩ := b2 q hq
              exact ⟨c1, u, List.mem_cons_of_mem _ hu, c2⟩
          · intro x hx hnx ts2 hl
            by_cases hx1 : x ∈ V1
            · exact Covered_mono cur d0 x ts2 V1 W r1 (r1 ++ r2) b1
                (List.subset_append_left _ _) (a4 x hx1 hnx ts2 hl)
            · exact Covered_mono cur d0 x ts2 W W r2 (r1 ++ r2) (fun _ h => h)
                (List.subset_append_right _ _) (b3 x hx hx1 ts2 hl)
          · intro u hu
            rcases List.mem_cons.1 hu with hu | hu
            · subst hu
              refine ⟨fun _ => b1 a2, fun hnone => ?_⟩
              rw [hnone] at hkey
              simp at hkey
            · exact Covered_mono cur d0 full rest W W r2 (r1 ++ r2) (fun _ h => h)
                (List.subset_append_right _ _) b4 u hu
    · rw [if_neg hkey] at h
      cases h2 : expandPaths nested cur full relf rest V with
      | none => simp [h2] at h
      | some pr2 =>
        obtain ⟨r2, W⟩ := pr2
        simp only [h2, Option.some.injEq, Prod.mk.injEq] at h
        obtain ⟨hres, hW⟩ := h
        subst hres; subst hW
        obtain ⟨b1, b2, b3, b4⟩ := ih V r2 W hrest h2
        have hnone : lookup cur (Join [full, t]) = none := by
          cases hl : lookup cur (Join [full, t]) with
          | none => rfl
          | some v => rw [hl] at hkey; simp at hkey
        refine ⟨b1, ?_, ?_, ?_⟩
        · intro q hq
          rcases List.mem_cons.1 hq with hq | hq
          · subst hq
            exact ⟨(hrel t ht).1, t, by simp, Or.inl ⟨hnone, (hrel t ht).2⟩⟩
          · obtain ⟨c1, u, hu, c2⟩ := b2 q hq
            exact ⟨c1, u, List.mem_cons_of_mem _ hu, c2⟩
        · intro x hx hnx ts2 hl
          exact Covered_mono cur d0 x ts2 W W r2 (relf t :: r2) (fun _ h => h)
            (List.subset_cons_self _ _) (b3 x hx hnx ts2 hl)
        · intro u hu
          rcases List.mem_cons.1 hu with hu | hu
          · subst hu
            refine ⟨fun hk => absurd hk hkey, fun _ => ⟨relf u, by simp, (hrel u ht).2⟩⟩
          · exact Covered_mono cur d0 full rest W W r2 (relf t :: r2) (fun _ h => h)
              (List.subset_cons_self _ _) b4 u hu

theorem getResolvedModulePaths_spec (cur : BarrelIndex) (d0 : String)
    (hcur : ∀ d l, lookup cur d = some l → ∀ t ∈ l, isRooted t.data = false) :
    ∀ (fuel : Nat) (p r : String) (V res V2 : List String),
      getResolvedModulePaths fuel p r cur V = some (res, V2) →
      (lookup cur p).isSome = true → isRooted r.data = false → Join [d0, r] = p →
      V ⊆ V2 ∧ p ∈ V2 ∧
      (∀ q ∈ res, isRooted q.data = false ∧ ReachLeaf cur p (Join [d0, q])) ∧
      Closed cur d0 V V2 res := by
  intro fuel
  induction fuel with
  | zero =>
    intro p r V res V2 h
    simp [getResolvedModulePaths] at h
  | succ n ih =>
    intro p r V res V2 h hkey hr hp
    unfold getResolvedModulePaths at h
    by_cases hv : p ∈ V
    · rw [if_pos hv] at h
      simp only [Option.some.injEq, Prod.mk.injEq] at h
      obtain ⟨h1, h2⟩ := h
      subst h1; subst h2
      refine ⟨fun _ h => h, hv, by simp, ?_⟩
      intro x hx hnx
      exact absurd hx hnx
    · rw [if_neg hv] at h
      cases hl : lookup cur p with
      | none => rw [hl] at hkey; simp at hkey
      | some ts =>
        simp only [hl] at h
        have hrel : ∀ t, isRooted t.data = false →
            isRooted (Join [r, t]).data = false ∧ Join [d0, Join [r, t]] = Join [p, t] := by
          intro t ht
          refine ⟨isRooted_Join r t hr ht, ?_⟩
          rw [← Join_assoc d0 r t hr ht, hp]
        obtain ⟨a1, a2, a3, a4⟩ := expandPaths_spec
          (fun p r v => getResolvedModulePaths n p r cur v) cur d0 p
          (fun modulePath => Join [r, modulePath])
          (fun p2 r2 W res2 W2 hh hk2 hr2 hp2 => ih p2 r2 W res2 W2 hh hk2 hr2 hp2)
          hrel ts (p :: V) res V2 (hcur p ts hl) h
        refine ⟨fun _ hx => a1 (List.mem_cons_of_mem _ hx), a1 (by simp), ?_, ?_⟩
        · intro q hq
          obtain ⟨c1, t, ht, c2⟩ := a2 q hq
          refine ⟨c1, ?_⟩
          rcases c2 with ⟨c3, c4⟩ | c3
          · rw [c4]
            exact ReachLeaf.leaf p t ts hl ht c3
          · exact ReachLeaf.nested p t _ ts hl ht c3
        · intro x hx hnx ts2 hl2
          by_cases hxp : x = p
          · subst hxp
            rw [hl] at hl2
            simp only [Option.some.injEq] at hl2
            subst hl2
            exact a4
          · exact a3 x hx (by simp [hxp, hnx]) ts2 hl2

theorem flattenDir_spec (cur : BarrelIndex) (d0 : String) (mp L : List String)
    (hcur : ∀ d l, lookup cur d = some l → ∀ t ∈ l, isRooted t.data = false)
    (hl : lookup cur d0 = some mp) (h : flattenDir cur d0 mp = some L) :
    (∀ q ∈ L, isRooted q.data = false ∧ ReachLeaf cur d0 (Join [d0, q])) ∧
    (∀ y, ReachLeaf cur d0 y → ∃ q ∈ L, Join [d0, q] = y) := by
  unfold flattenDir at h
  cases he : expandPaths
      (fun p r v => getResolvedModulePaths (cur.length + 1) p r cur v) cur d0
      (fun modulePath => modulePath) mp [d0] with
  | none => rw [he] at h; simp at h
  | some pr =>
    obtain ⟨res, V2⟩ := pr
    rw [he] at h
    simp only [Option.map_some', Option.some.injEq] at h
    subst h
    obtain ⟨a1, a2, a3, a4⟩ := expandPaths_spec
      (fun p r v => getResolvedModulePaths (cur.length + 1) p r cur v) cur d0 d0
      (fun modulePath => modulePath)
      (fun p2 r2 W res2 W2 hh hk2 hr2 hp2 =>
        getResolvedModulePaths_spec cur d0 hcur _ p2 r2 W res2 W2 hh hk2 hr2 hp2)
      (fun t ht => ⟨ht, rfl⟩) mp [d0] res V2 (hcur d0 mp hl) he
    have hall : ∀ x ∈ V2, ∀ ts, lookup cur x = some ts → Covered cur d0 x ts V2 res := by
      intro x hx ts hts
      by_cases hxd : x = d0
      · subst hxd
        rw [hl] at hts
        simp only [Option.some.injEq] at hts
        subst hts
        exact a4
      · exact a3 x hx (by simp [hxd]) ts hts
    refine ⟨?_, ?_⟩
    · intro q hq
      obtain ⟨c1, t, ht, c2⟩ := a2 q hq
      refine ⟨c1, ?_⟩
      rcases c2 with ⟨c3, c4⟩ | c3
      · rw [c4]
        exact ReachLeaf.leaf d0 t mp hl ht c3
      · exact ReachLeaf.nested d0 t _ mp hl ht c3
    · intro y hy
      have key : ∀ x y, ReachLeaf cur x y → x ∈ V2 → ∃ q ∈ res, Join [d0, q] = y := by
        intro x y hxy
        induction hxy with
        | leaf x t ts h1 h2 h3 =>
          intro hx
          exact (hall x hx ts h1 t h2).2 h3
        | nested x t y ts h1 h2 h3 ih =>
          intro hx
          exact ih ((hall x hx ts h1 t h2).1 (ReachLeaf_isSome cur _ _ h3))
      exact key d0 y hy (a1 (by simp))

theorem lookup_assign_of_key (cur : BarrelIndex) (d x : String) (mp L : List String)
    (hl : lookup cur d = some mp) :
    lookup (assign cur d L) x = if x = d then some L else lookup cur x := by
  rw [lookup_assign, hl]
  simp

theorem lookup_assign_none (cur : BarrelIndex) (d x : String) (L : List String) :
    lookup (assign cur d L) x = none ↔ lookup cur x = none := by
  rw [lookup_eq_none_iff, lookup_eq_none_iff, keys_assign]

theorem ReachLeaf_assign (cur : BarrelIndex) (d : String) (mp L : List String)
    (hl : lookup cur d = some mp)
    (hs : ∀ q ∈ L, ReachLeaf cur d (Join [d, q]))
    (hc : ∀ y, ReachLeaf cur d y → ∃ q ∈ L, Join [d, q] = y) (x y : String) :
    ReachLeaf (assign cur d L) x y ↔ ReachLeaf cur x y := by
  have hd : lookup (assign cur d L) d = some L := by
    rw [lookup_assign_of_key cur d d mp L hl]; simp
  constructor
  · intro h
    induction h with
    | leaf x t ts h1 h2 h3 =>
      rw [lookup_assign_of_key cur d x mp L hl] at h1
      by_cases hx : x = d
      · subst hx
        simp only [if_true, Option.some.injEq] at h1
        subst h1
        exact hs t h2
      · rw [if_neg hx] at h1
        exact ReachLeaf.leaf x t ts h1 h2 ((lookup_assign_none cur d _ L).1 h3)
    | nested x t y ts h1 h2 h3 ih =>
      rw [lookup_assign_of_key cur d x mp L hl] at h1
      by_cases hx : x = d
      · subst hx
        simp only [if_true, Option.some.injEq] at h1
        subst h1
        have h4 := ReachLeaf_none cur _ _ (hs t h2)
        have h5 := ReachLeaf_isSome cur _ _ ih
        rw [h4] at h5
        simp at h5
      · rw [if_neg hx] at h1
        exact ReachLeaf.nested x t y ts h1 h2 ih
  · intro h
    have fromd : ∀ y, ReachLeaf cur d y → ReachLeaf (assign cur d L) d y := by
      intro y hy
      obtain ⟨q, hq, he⟩ := hc y hy
      have hn := ReachLeaf_none cur _ _ hy
      rw [← he]
      rw [← he] at hn
      exact ReachLeaf.leaf d q L hd hq ((lookup_assign_none cur d _ L).2 hn)
    induction h with
    | leaf x t ts h1 h2 h3 =>
      by_cases hx : x = d
      · subst hx
        exact fromd _ (ReachLeaf.leaf x t ts h1 h2 h3)
      · have h1b : lookup (assign cur d L) x = some ts := by
          rw [lookup_assign_of_key cur d x mp L hl, if_neg hx]; exact h1
        exact ReachLeaf.leaf x t ts h1b h2 ((lookup_assign_none cur d _ L).2 h3)
    | nested x t y ts h1 h2 h3 ih =>
      by_cases hx : x = d
      · subst hx
        exact fromd _ (ReachLeaf.nested x t y ts h1 h2 h3)
      · have h1b : lookup (assign cur d L) x = some ts := by
          rw [lookup_assign_of_key cur d x mp L hl, if_neg hx]; exact h1
        exact ReachLeaf.nested x t y ts h1b h2 ih

theorem FlatInv_step (m : BarrelIndex) (hnd : (keys m).Nodup) (d : String)
    (mp L : List String) (rest : List (String × List String)) (cur : BarrelIndex)
    (hinv : FlatInv m ((d, mp) :: rest) cur) (hL : flattenDir cur d mp = some L) :
    FlatInv m rest (assign cur d L) := by
  obtain ⟨hk, hrel, hreach, hin, hnd2, hdone⟩ := hinv
  have hnd3 : d ∉ keys rest ∧ (keys rest).Nodup := by simpa [keys] using hnd2
  have hndc : (keys cur).Nodup := hk ▸ hnd
  have hl : lookup cur d = some mp := lookup_of_mem cur d mp hndc (hin (d, mp) (by simp))
  obtain ⟨s1, s2⟩ := flattenDir_spec cur d mp L hrel hl hL
  refine ⟨?_, ?_, ?_, ?_, hnd3.2, ?_⟩
  · rw [keys_assign, hk]
  · intro x l hx t ht
    rw [lookup_assign_of_key cur d x mp L hl] at hx
    by_cases hxd : x = d
    · rw [if_pos hxd] at hx
      simp only [Option.some.injEq] at hx
      subst hx
      exact (s1 t ht).1
    · rw [if_neg hxd] at hx
      exact hrel x l hx t ht
  · intro x y
    rw [ReachLeaf_assign cur d mp L hl (fun q hq => (s1 q hq).2) s2 x y]
    exact hreach x y
  · intro e he
    obtain ⟨k, v⟩ := e
    have hkd : k ≠ d := by
      intro hh
      apply hnd3.1
      rw [← hh]
      exact List.mem_map.2 ⟨(k, v), he, rfl⟩
    have h1 : lookup cur k = some v :=
      lookup_of_mem cur k v hndc (hin (k, v) (List.mem_cons_of_mem _ he))
    apply mem_of_lookup
    rw [lookup_assign_of_key cur d k mp L hl, if_neg hkd]
    exact h1
  · intro x l hx hxr q hq
    rw [lookup_assign_none]
    rw [lookup_assign_of_key cur d x mp L hl] at hx
    by_cases hxd : x = d
    · rw [if_pos hxd] at hx
      simp only [Option.some.injEq] at hx
      subst hx
      subst hxd
      exact ReachLeaf_none cur _ _ (s1 q hq).2
    · rw [if_neg hxd] at hx
      refine hdone x l hx ?_ q hq
      intro hmem
      simp only [keys, List.map_cons, List.mem_cons] at hmem
      rcases hmem with hmem | hmem
      · exact hxd hmem
      · exact hxr hmem

theorem FlatInv_init (m : BarrelIndex) (hnd : (keys m).Nodup)
    (hrel : relativeTargets m = true) : FlatInv m m m := by
  refine ⟨rfl, relativeTargets_lookup m hrel, fun _ _ => Iff.rfl, fun _ h => h, hnd, ?_⟩
  intro x l hx hxn
  have : x ∈ keys m := (lookup_isSome_iff m x).1 (by simp [hx])
  exact absurd this hxn

theorem handleEntries_spec (m : BarrelIndex) (hnd : (keys m).Nodup) :
    ∀ (todo : List (String × List String)) (cur : BarrelIndex), FlatInv m todo cur →
      ∃ fin, handleEntries todo cur = some fin ∧ FlatInv m [] fin := by
  intro todo
  induction todo with
  | nil => intro cur h; exact ⟨cur, rfl, h⟩
  | cons e rest ih =>
    intro cur hinv
    obtain ⟨d, mp⟩ := e
    obtain ⟨L, hL⟩ := flattenDir_total cur d mp
    unfold handleEntries
    simp only [hL]
    exact ih (assign cur d L) (FlatInv_step m hnd d mp L rest cur hinv hL)

/-- The state of the index after `handleNestedBarrels`, for an index with relative
targets: the keys are kept, every entry of every list is a leaf, and the leaves reachable
from every directory are those of the index before the call. -/
theorem handleNestedBarrels_spec (m : BarrelIndex) (hnd : (keys m).Nodup)
    (hrel : relativeTargets m = true) :
    ∃ fin, handleNestedBarrels m = some fin ∧ keys fin = keys m ∧
      (∀ d l, lookup fin d = some l → ∀ t ∈ l, isRooted t.data = false) ∧
      (∀ x y, ReachLeaf fin x y ↔ ReachLeaf m x y) ∧
      (∀ x l, lookup fin x = some l → ∀ q ∈ l, lookup fin (Join [x, q]) = none) := by
  unfold handleNestedBarrels
  obtain ⟨fin, h1, h2, h3, h4, _, _, h5⟩ :=
    handleEntries_spec m hnd m m (FlatInv_init m hnd hrel)
  exact ⟨fin, h1, h2, h3, h4, fun x l hl => h5 x l hl (by simp [keys])⟩

/-- In an index whose lists hold leaves only, the leaves reachable from a directory are
the full paths of the entries of its list. -/
theorem ReachLeaf_flat (fin : BarrelIndex)
    (hflat : ∀ x l, lookup fin x = some l → ∀ q ∈ l, lookup fin (Join [x, q]) = none)
    (d : String) (l : List String) (hl : lookup fin d = some l) (y : String) :
    ReachLeaf fin d y ↔ ∃ q ∈ l, Join [d, q] = y := by
  constructor
  · intro h
    cases h with
    | leaf x t ts h1 h2 h3 =>
      rw [hl] at h1
      simp only [Option.some.injEq] at h1
      subst h1
      exact ⟨t, h2, rfl⟩
    | nested x t y ts h1 h2 h3 =>
      rw [hl] at h1
      simp only [Option.some.injEq] at h1
      subst h1
      have h4 := ReachLeaf_isSome fin _ _ h3
      rw [hflat d l hl t h2] at h4
      simp at h4
  · rintro ⟨q, hq, he⟩
    rw [← he]
    exact ReachLeaf.leaf d q l hl hq (hflat d l hl q hq)

/-! ## Flat indexes are fixed points -/

theorem expandPaths_flat
    (nested : String → String → List String → Option (List String × List String))
    (cur : BarrelIndex) (full : String) (ts V : List String)
    (h : ∀ t ∈ ts, lookup cur (Join [full, t]) = none) :
    expandPaths nested cur full (fun modulePath => modulePath) ts V = some (ts, V) := by
  induction ts with
  | nil => rfl
  | cons t rest ih =>
    unfold expandPaths
    have h1 : ¬ (lookup cur (Join [full, t])).isSome = true := by
      rw [h t (by simp)]; simp
    rw [if_neg h1, ih (fun u hu => h u (List.mem_cons_of_mem _ hu))]

theorem flattenDir_flat (cur : BarrelIndex) (d : String) (l : List String)
    (h : ∀ t ∈ l, lookup cur (Join [d, t]) = none) : flattenDir cur d l = some l := by
  unfold flattenDir
  rw [expandPaths_flat _ cur d l [d] h]
  rfl

theorem assign_self (cur : BarrelIndex) (d : String) (l : List String)
    (hnd : (keys cur).Nodup) (h : (d, l) ∈ cur) : assign cur d l = cur := by
  unfold assign
  conv_rhs => rw [← List.map_id cur]
  apply List.map_congr_left
  intro e he
  obtain ⟨k, v⟩ := e
  by_cases hk : k = d
  · subst hk
    have h1 := lookup_of_mem cur k v hnd he
    have h2 := lookup_of_mem cur k l hnd h
    rw [h1] at h2
    simp only [Option.some.injEq] at h2
    subst h2
    simp
  · simp [hk]

theorem handleEntries_flat (cur : BarrelIndex) (hnd : (keys cur).Nodup)
    (hflat : ∀ x l, lookup cur x = some l → ∀ q ∈ l, lookup cur (Join [x, q]) = none) :
    ∀ todo : List (String × List String), (∀ e ∈ todo, e ∈ cur) →
      handleEntries todo cur = some cur := by
  intro todo
  induction todo with
  | nil => intro _; rfl
  | cons e rest ih =>
    intro hin
    obtain ⟨d, l⟩ := e
    have hm : (d, l) ∈ cur := hin (d, l) (by simp)
    have hl := lookup_of_mem cur d l hnd hm
    unfold handleEntries
    simp only [flattenDir_flat cur d l (hflat d l hl)]
    rw [assign_self cur d l hnd hm]
    exact ih (fun e he => hin e (List.mem_cons_of_mem _ he))

theorem lookup_perm (p q : BarrelIndex) (hp : p.Perm q) (hnd : (keys q).Nodup)
    (x : String) : lookup p x = lookup q x := by
  have hndp : (keys p).Nodup := (List.Perm.nodup_iff (List.Perm.map Prod.fst hp)).2 hnd
  cases h : lookup q x with
  | none =>
    rw [lookup_eq_none_iff] at h ⊢
    intro hx
    exact h ((List.Perm.mem_iff (List.Perm.map Prod.fst hp)).1 hx)
  | some l =>
    exact lookup_of_mem p x l hndp ((List.Perm.mem_iff hp).2 (mem_of_lookup q x l h))

theorem handleNestedBarrels_flat_perm (fin q : BarrelIndex) (hnd : (keys fin).Nodup)
    (hflat : ∀ x l, lookup fin x = some l → ∀ t ∈ l, lookup fin (Join [x, t]) = none)
    (hq : q.Perm fin) : handleNestedBarrels q = some q := by
  have hndq : (keys q).Nodup := (List.Perm.nodup_iff (List.Perm.map Prod.fst hq)).2 hnd
  unfold handleNestedBarrels
  apply handleEntries_flat q hndq _ q (fun _ h => h)
  intro x l hl t ht
  rw [lookup_perm q fin hq hnd] at hl ⊢
  exact hflat x l hl t ht

/-! ## `filepath.Join` of a chain of targets -/

theorem sepJoin_snoc (l : List String) (t : String) (hl : l ≠ []) :
    sepJoin (l ++ [t]) = sepJoin l ++ '/' :: t.data := by
  induction l with
  | nil => exact absurd rfl hl
  | cons e es ih =>
    cases es with
    | nil => rfl
    | cons e2 es2 =>
      have h2 : sepJoin (e2 :: (es2 ++ [t])) = sepJoin (e2 :: es2) ++ '/' :: t.data :=
        ih (by simp)
      show e.data ++ '/' :: sepJoin (e2 :: (es2 ++ [t])) = _
      rw [h2]
      simp [sepJoin]

theorem sepJoin_ne_nil (e : String) (es : List String) (he : e.data ≠ []) :
    sepJoin (e :: es) ≠ [] := by
  cases es with
  | nil => simpa [sepJoin] using he
  | cons e2 es2 => simp [sepJoin, he]

theorem isRooted_sepJoin (e : String) (es : List String) (he : e.data ≠ []) :
    isRooted (sepJoin (e :: es)) = isRooted e.data := by
  cases es with
  | nil => rfl
  | cons e2 es2 =>
    simp only [sepJoin]
    exact isRooted_append _ _ he

theorem Join_cons (e : String) (es : List String) :
    Join (e :: es) = if e.data = [] then Join es else ⟨cleanChars (sepJoin (e :: es))⟩ := rfl

theorem Join_snoc (l : List String) (t : String) (hl : l ≠ []) :
    Join (l ++ [t]) = Join [Join l, t] := by
  induction l with
  | nil => exact absurd rfl hl
  | cons e es ih =>
    by_cases he : e.data = []
    · rw [List.cons_append, Join_cons, if_pos he, Join_cons e es, if_pos he]
      cases es with
      | nil =>
        have : Join [] = "" := rfl
        rw [this, List.nil_append, Join_pair]
        simp [Join, sepJoin]
      | cons e2 es2 => exact ih (by simp)
    · rw [List.cons_append, Join_cons, if_neg he, Join_cons e es, if_neg he, Join_pair]
      have h1 : sepJoin (e :: (es ++ [t])) = sepJoin (e :: es) ++ '/' :: t.data :=
        sepJoin_snoc (e :: es) t (by simp)
      simp only [cleanChars_ne_nil, if_false]
      rw [h1, cleanChars_join_left _ _ (sepJoin_ne_nil e es he)]

theorem isRooted_Join_list (x : List String) (h : ∀ u ∈ x, isRooted u.data = false) :
    isRooted (Join x).data = false := by
  induction x with
  | nil => rfl
  | cons e es ih =>
    rw [Join_cons]
    by_cases he : e.data = []
    · rw [if_pos he]
      exact ih (fun u hu => h u (List.mem_cons_of_mem _ hu))
    · rw [if_neg he]
      show isRooted (cleanChars (sepJoin (e :: es))) = false
      rw [isRooted_cleanChars, isRooted_sepJoin e es he]
      exact h e (by simp)

theorem Join_Join_single (r u : String) (hu : isRooted u.data = false) :
    Join [r, Join [u]] = Join [r, u] := by
  apply String.ext
  have h1 : (Join [u]).data = if u.data = [] then [] else cleanChars u.data := by
    by_cases h : u.data = []
    · simp [Join, sepJoin, h]
    · simp [Join, sepJoin, h]
  simp only [Join_pair_data, h1]
  by_cases hr : r.data = []
  · by_cases h : u.data = []
    · simp [hr, h]
    · simp [hr, h, cleanChars_ne_nil, cleanChars_idem]
  · by_cases h : u.data = []
    · simp [hr, h]
    · simp only [hr, h, if_false]
      rw [cleanChars_join_right _ _ hr hu]

/-- The path-join of a chain followed by further relative targets is the join of the
re-prefix with the path-join of the further targets. -/
theorem Join_chain_append (rel : String) (chain : List String)
    (hR : ∀ t, Join [rel, t] = Join (chain ++ [t])) (hc : chain ≠ []) :
    ∀ x : List String, x ≠ [] → (∀ u ∈ x, isRooted u.data = false) →
      Join (chain ++ x) = Join [rel, Join x] := by
  intro x
  induction x using List.reverseRecOn with
  | nil => intro h; exact absurd rfl h
  | append_singleton x1 t ih =>
    intro _ hx
    have ht : isRooted t.data = false := hx t (by simp)
    have hx1 : ∀ u ∈ x1, isRooted u.data = false := fun u hu => hx u (by simp [hu])
    by_cases hn : x1 = []
    · subst hn
      rw [List.nil_append, Join_Join_single rel t ht, hR]
    · rw [← List.append_assoc, Join_snoc _ t (by simp [hc]), ih hn hx1,
        Join_assoc rel (Join x1) t (isRooted_Join_list x1 hx1) ht, Join_snoc x1 t hn]

/-! ## The depth-first walk of the specification -/

theorem dfsTargets_mono
    (f g : String → List String → Option (List String × List String))
    (m : BarrelIndex) (full : String) (chain : List String)
    (hfg : ∀ p c r, f p c = some r → g p c = some r) :
    ∀ (ts : List String) (r : List String × List String),
      dfsTargets f m full chain ts = some r → dfsTargets g m full chain ts = some r := by
  intro ts
  induction ts with
  | nil => intro r h; exact h
  | cons t rest ih =>
    intro r h
    unfold dfsTargets at h ⊢
    by_cases hkey : (lookup m (Join [full, t])).isSome = true
    · rw [if_pos hkey] at h ⊢
      cases h1 : f (Join [full, t]) (chain ++ [t]) with
      | none => simp [h1] at h
      | some pr1 =>
        obtain ⟨l1, d1⟩ := pr1
        simp only [h1] at h
        simp only [hfg _ _ _ h1]
        cases h2 : dfsTargets f m full chain rest with
        | none => simp [h2] at h
        | some pr2 =>
          simp only [h2] at h
          simp only [ih _ h2]
          exact h
    · rw [if_neg hkey] at h ⊢
      cases h2 : dfsTargets f m full chain rest with
      | none => simp [h2] at h
      | some pr2 =>
        simp only [h2] at h
        simp only [ih _ h2]
        exact h

theorem dfsLeaves_succ (m : BarrelIndex) :
    ∀ (n : Nat) (y : String) (chain : List String) (r : List String × List String),
      dfsLeaves m n y chain = some r → dfsLeaves m (n + 1) y chain = some r := by
  intro n
  induction n with
  | zero => intro y chain r h; simp [dfsLeaves] at h
  | succ k ih =>
    intro y chain r h
    unfold dfsLeaves at h ⊢
    cases hl : lookup m y with
    | none => simpa [hl] using h
    | some ts =>
      simp only [hl] at h ⊢
      cases h1 : dfsTargets (fun p c => dfsLeaves m k p c) m y chain ts with
      | none => simp [h1] at h
      | some pr =>
        simp only [h1] at h
        have h2 := dfsTargets_mono (fun p c => dfsLeaves m k p c)
          (fun p c => dfsLeaves m (k + 1) p c) m y chain (fun p c r hh => ih p c r hh) ts pr h1
        simp only [h2]
        exact h

theorem dfsLeaves_le (m : BarrelIndex) (n k : Nat) (hnk : n ≤ k) (y : String)
    (chain : List String) (r : List String × List String)
    (h : dfsLeaves m n y chain = some r) : dfsLeaves m k y chain = some r := by
  induction hnk with
  | refl => exact h
  | step _ ih => exact dfsLeaves_succ m _ y chain r ih

theorem dfsLeaves_det (m : BarrelIndex) (n k : Nat) (y : String) (chain : List String)
    (r r2 : List String × List String) (h : dfsLeaves m n y chain = some r)
    (h2 : dfsLeaves m k y chain = some r2) : r = r2 := by
  have a := dfsLeaves_le m n (max n k) (Nat.le_max_left _ _) y chain r h
  have b := dfsLeaves_le m k (max n k) (Nat.le_max_right _ _) y chain r2 h2
  rw [a] at b
  exact Option.some.inj b

theorem dfsTargets_prefix (m : BarrelIndex) (rel : String) (chain : List String)
    (hR : ∀ t, Join [rel, t] = Join (chain ++ [t])) (hc : chain ≠ [])
    (f : String → List String → Option (List String × List String))
    (hf : ∀ (y : String) (ch l ds : List String), (∀ u ∈ ch, isRooted u.data = false) →
      f y (chain ++ ch) = some (l, ds) →
      ∃ l0, f y ch = some (l0, ds) ∧ l = l0.map (fun p => Join [rel, p]))
    (y : String) (ch : List String) (hch : ∀ u ∈ ch, isRooted u.data = false) :
    ∀ (ts l ds : List String), (∀ t ∈ ts, isRooted t.data = false) →
      dfsTargets f m y (chain ++ ch) ts = some (l, ds) →
      ∃ l0, dfsTargets f m y ch ts = some (l0, ds) ∧ l = l0.map (fun p => Join [rel, p]) := by
  intro ts
  induction ts with
  | nil =>
    intro l ds _ h
    simp only [dfsTargets, Option.some.injEq, Prod.mk.injEq] at h
    refine ⟨[], ?_, ?_⟩
    · simp [dfsTargets, h.2]
    · simp [← h.1]
  | cons t rest ih =>
    intro l ds hts h
    have ht : isRooted t.data = false := hts t (by simp)
    have hrest : ∀ u ∈ rest, isRooted u.data = false :=
      fun u hu => hts u (List.mem_cons_of_mem _ hu)
    unfold dfsTargets at h ⊢
    by_cases hkey : (lookup m (Join [y, t])).isSome = true
    · rw [if_pos hkey] at h ⊢
      simp only [List.append_assoc] at h
      cases h1 : f (Join [y, t]) (chain ++ (ch ++ [t])) with
      | none => simp [h1] at h
      | some pr1 =>
        obtain ⟨l1, d1⟩ := pr1
        simp only [h1] at h
        cases h2 : dfsTargets f m y (chain ++ ch) rest with
        | none => simp [h2] at h
        | some pr2 =>
          obtain ⟨l2, d2⟩ := pr2
          simp only [h2, Option.some.injEq, Prod.mk.injEq] at h
          obtain ⟨e1, e2⟩ := h
          obtain ⟨a0, ha, hb⟩ := hf (Join [y, t]) (ch ++ [t]) l1 d1
            (by
              intro u hu
              rcases List.mem_append.1 hu with hu | hu
              · exact hch u hu
              · simp only [List.mem_singleton] at hu
                subst hu; exact ht) h1
          obtain ⟨b0, hc1, hc2⟩ := ih l2 d2 hrest h2
          simp only [ha, hc1]
          refine ⟨a0 ++ b0, by rw [e2], ?_⟩
          rw [← e1, hb, hc2, List.map_append]
    · rw [if_neg hkey] at h ⊢
      cases h2 : dfsTargets f m y (chain ++ ch) rest with
      | none => simp [h2] at h
      | some pr2 =>
        obtain ⟨l2, d2⟩ := pr2
        simp only [h2, Option.some.injEq, Prod.mk.injEq] at h
        obtain ⟨e1, e2⟩ := h
        obtain ⟨b0, hc1, hc2⟩ := ih l2 d2 hrest h2
        simp only [hc1]
        refine ⟨_, by rw [e2], ?_⟩
        rw [← e1, hc2, List.map_cons]
        congr 1
        have hne : chain ++ ch ≠ [] := by simp [hc]
        rw [if_neg hne]
        by_cases hch0 : ch = []
        · subst hch0
          rw [if_pos rfl, List.append_nil, hR]
        · rw [if_neg hch0, List.append_assoc]
          exact Join_chain_append rel chain hR hc (ch ++ [t]) (by simp)
            (by
              intro u hu
              rcases List.mem_append.1 hu with hu | hu
              · exact hch u hu
              · simp only [List.mem_singleton] at hu
                subst hu; exact ht)

theorem dfsLeaves_prefix (m : BarrelIndex)
    (hm : ∀ d l, lookup m d = some l → ∀ t ∈ l, isRooted t.data = false)
    (rel : String) (chain : List String)
    (hR : ∀ t, Join [rel, t] = Join (chain ++ [t])) (hc : chain ≠ []) :
    ∀ (n : Nat) (y : String) (ch l ds : List String),
      (∀ u ∈ ch, isRooted u.data = false) →
      dfsLeaves m n y (chain ++ ch) = some (l, ds) →
      ∃ l0, dfsLeaves m n y ch = some (l0, ds) ∧ l = l0.map (fun p => Join [rel, p]) := by
  intro n
  induction n with
  | zero => intro y ch l ds _ h; simp [dfsLeaves] at h
  | succ k ih =>
    intro y ch l ds hch h
    unfold dfsLeaves at h ⊢
    cases hl : lookup m y with
    | none =>
      simp only [hl, Option.some.injEq, Prod.mk.injEq] at h
      exact ⟨[], by simp [h.2], by simp [← h.1]⟩
    | some ts =>
      simp only [hl] at h ⊢
      cases h1 : dfsTargets (fun p c => dfsLeaves m k p c) m y (chain ++ ch) ts with
      | none => simp [h1] at h
      | some pr =>
        obtain ⟨l1, d1⟩ := pr
        simp only [h1, Option.some.injEq, Prod.mk.injEq] at h
        obtain ⟨l0, h2, h3⟩ := dfsTargets_prefix m rel chain hR hc
          (fun p c => dfsLeaves m k p c) (fun y2 ch2 l2 ds2 hh1 hh2 => ih y2 ch2 l2 ds2 hh1 hh2)
          y ch hch ts l1 d1 (hm y ts hl) h1
        simp only [h2]
        exact ⟨l0, by rw [h.2], by rw [← h.1, h3]⟩

/-! ## The flattening of a directory that is reached once is the walk of the specification -/

theorem expandPaths_flat_rel
    (nested : String → String → List String → Option (List String × List String))
    (cur : BarrelIndex) (full : String) (relf : String → String) (ts V : List String)
    (h : ∀ t ∈ ts, lookup cur (Join [full, t]) = none) :
    expandPaths nested cur full relf ts V = some (ts.map relf, V) := by
  induction ts with
  | nil => rfl
  | cons t rest ih =>
    unfold expandPaths
    have h1 : ¬ (lookup cur (Join [full, t])).isSome = true := by
      rw [h t (by simp)]; simp
    rw [if_neg h1, ih (fun u hu => h u (List.mem_cons_of_mem _ hu))]
    rfl

theorem lookup_isSome_congr (cur m : BarrelIndex) (hk : keys cur = keys m) (p : String) :
    (lookup cur p).isSome = (lookup m p).isSome := by
  rw [Bool.eq_iff_iff, lookup_isSome_iff, lookup_isSome_iff, hk]

theorem expandPaths_dfs (m cur : BarrelIndex) (hk : keys cur = keys m) (fuel n : Nat)
    (hrec : ∀ (y : String) (chain : List String) (rel : String) (l ds V res V2 : List String),
      dfsLeaves m n y chain = some (l, ds) → chain ≠ [] →
      (∀ u ∈ chain, isRooted u.data = false) →
      (∀ t, Join [rel, t] = Join (chain ++ [t])) → ds.Nodup → (∀ x ∈ ds, x ∉ V) →
      getResolvedModulePaths fuel y rel cur V = some (res, V2) →
      res = l ∧ ∀ x ∈ V2, x ∈ V ∨ x ∈ ds)
    (y : String) (chain : List String) (relf : String → String)
    (hleaf : ∀ t, relf t = if chain = [] then t else Join (chain ++ [t]))
    (hnest : ∀ t u, Join [relf t, u] = Join ((chain ++ [t]) ++ [u]))
    (hchain : ∀ u ∈ chain, isRooted u.data = false) :
    ∀ (ts V res V2 l ds : List String), (∀ t ∈ ts, isRooted t.data = false) →
      dfsTargets (fun p c => dfsLeaves m n p c) m y chain ts = some (l, ds) →
      ds.Nodup → (∀ x ∈ ds, x ∉ V) →
      expandPaths (fun p r v => getResolvedModulePaths fuel p r cur v) cur y relf ts V
        = some (res, V2) →
      res = l ∧ ∀ x ∈ V2, x ∈ V ∨ x ∈ ds := by
  intro ts
  induction ts with
  | nil =>
    intro V res V2 l ds _ hs _ _ hc
    simp only [dfsTargets, Option.some.injEq, Prod.mk.injEq] at hs
    simp only [expandPaths, Option.some.injEq, Prod.mk.injEq] at hc
    refine ⟨by rw [← hc.1, ← hs.1], ?_⟩
    intro x hx
    rw [← hc.2] at hx
    exact Or.inl hx
  | cons t rest ih =>
    intro V res V2 l ds hts hs hnd hdisj hc
    have ht : isRooted t.data = false := hts t (by simp)
    have hrest : ∀ u ∈ rest, isRooted u.data = false :=
      fun u hu => hts u (List.mem_cons_of_mem _ hu)
    unfold dfsTargets at hs
    unfold expandPaths at hc
    dsimp only at hc
    rw [lookup_isSome_congr cur m hk] at hc
    by_cases hkey : (lookup m (Join [y, t])).isSome = true
    · rw [if_pos hkey] at hs hc
      cases hs1 : dfsLeaves m n (Join [y, t]) (chain ++ [t]) with
      | none => simp [hs1] at hs
      | some pr1 =>
        obtain ⟨l1, d1⟩ := pr1
        simp only [hs1] at hs
        cases hs2 : dfsTargets (fun p c => dfsLeaves m n p c) m y chain rest with
        | none => simp [hs2] at hs
        | some pr2 =>
          obtain ⟨l2, d2⟩ := pr2
          simp only [hs2, Option.some.injEq, Prod.mk.injEq] at hs
          obtain ⟨e1, e2⟩ := hs
          subst e1; subst e2
          cases hc1 : getResolvedModulePaths fuel (Join [y, t]) (relf t) cur V with
          | none => simp [hc1] at hc
          | some qr1 =>
            obtain ⟨r1, V1⟩ := qr1
            simp only [hc1] at hc
            cases hc2 : expandPaths (fun p r v => getResolvedModulePaths fuel p r cur v)
                cur y relf rest V1 with
            | none => simp [hc2] at hc
            | some qr2 =>
              obtain ⟨r2, W⟩ := qr2
              simp only [hc2, Option.some.injEq, Prod.mk.injEq] at hc
              obtain ⟨f1, f2⟩ := hc
              subst f1; subst f2
              have hnd1 : d1.Nodup := (List.nodup_append.1 hnd).1
              have hnd2 : d2.Nodup := (List.nodup_append.1 hnd).2.1
              have hdj : ∀ x, x ∈ d1 → x ∈ d2 → False :=
                fun x h1 h2 => (List.nodup_append.1 hnd).2.2 h1 h2
              obtain ⟨a1, a2⟩ := hrec (Join [y, t]) (chain ++ [t]) (relf t) l1 d1 V r1 V1 hs1
                (by simp)
                (by
                  intro u hu
                  rcases List.mem_append.1 hu with hu | hu
                  · exact hchain u hu
                  · simp only [List.mem_singleton] at hu
                    subst hu; exact ht)
                (hnest t) hnd1 (fun x hx => hdisj x (List.mem_append_left _ hx)) hc1
              obtain ⟨b1, b2⟩ := ih V1 r2 W l2 d2 hrest hs2 hnd2
                (by
                  intro x hx hx1
                  rcases a2 x hx1 with h | h
                  · exact hdisj x (List.mem_append_right _ hx) h
                  · exact hdj x h hx) hc2
              refine ⟨by rw [a1, b1], ?_⟩
              intro x hx
              rcases b2 x hx with h | h
              · rcases a2 x h with h2 | h2
                · exact Or.inl h2
                · exact Or.inr (List.mem_append_left _ h2)
              · exact Or.inr (List.mem_append_right _ h)
    · rw [if_neg hkey] at hs hc
      cases hs2 : dfsTargets (fun p c => dfsLeaves m n p c) m y chain rest with
      | none => simp [hs2] at hs
      | some pr2 =>
        obtain ⟨l2, d2⟩ := pr2
        simp only [hs2, Option.some.injEq, Prod.mk.injEq] at hs
        obtain ⟨e1, e2⟩ := hs
        subst e1; subst e2
        cases hc2 : expandPaths (fun p r v => getResolvedModulePaths fuel p r cur v)
            cur y relf rest V with
        | none => simp [hc2] at hc
        | some qr2 =>
          obtain ⟨r2, W⟩ := qr2
          simp only [hc2, Option.some.injEq, Prod.mk.injEq] at hc
          obtain ⟨f1, f2⟩ := hc
          subst f1; subst f2
          obtain ⟨b1, b2⟩ := ih V r2 W l2 d2 hrest hs2 hnd hdisj hc2
          exact ⟨by rw [b1, hleaf t], b2⟩

theorem getResolvedModulePaths_dfs (m cur : BarrelIndex)
    (todo : List (String × List String)) (hk : keys cur = keys m)
    (hrelm : ∀ d l, lookup m d = some l → ∀ t ∈ l, isRooted t.data = false)
    (hdone : ∀ x l, lookup cur x = some l → x ∉ keys todo →
      ∀ q ∈ l, lookup cur (Join [x, q]) = none)
    (hun : ∀ y, y ∈ keys todo → lookup cur y = lookup m y)
    (htree : ∀ (y : String) (n : Nat) (l ds : List String),
      dfsLeaves m n y [] = some (l, ds) → ds.Nodup → y ∈ keys m → y ∉ keys todo →
      lookup cur y = some l) :
    ∀ (n fuel : Nat) (y : String) (chain : List String) (rel : String)
      (l ds V res V2 : List String),
      dfsLeaves m n y chain = some (l, ds) → chain ≠ [] →
      (∀ u ∈ chain, isRooted u.data = false) →
      (∀ t, Join [rel, t] = Join (chain ++ [t])) → ds.Nodup → (∀ x ∈ ds, x ∉ V) →
      getResolvedModulePaths fuel y rel cur V = some (res, V2) →
      res = l ∧ ∀ x ∈ V2, x ∈ V ∨ x ∈ ds := by
  intro n
  induction n with
  | zero => intro fuel y chain rel l ds V res V2 h; simp [dfsLeaves] at h
  | succ k ih =>
    intro fuel y chain rel l ds V res V2 hs hc hchain hR hnd hdisj hcode
    have hs0 := hs
    unfold dfsLeaves at hs
    cases fuel with
    | zero => simp [getResolvedModulePaths] at hcode
    | succ f =>
      unfold getResolvedModulePaths at hcode
      cases hl : lookup m y with
      | none =>
        simp only [hl, Option.some.injEq, Prod.mk.injEq] at hs
        have hlc : lookup cur y = none := by
          rw [lookup_eq_none_iff, hk, ← lookup_eq_none_iff]; exact hl
        by_cases hv : y ∈ V
        · rw [if_pos hv] at hcode
          simp only [Option.some.injEq, Prod.mk.injEq] at hcode
          exact ⟨by rw [← hcode.1, ← hs.1], fun x hx => Or.inl (hcode.2 ▸ hx)⟩
        · rw [if_neg hv] at hcode
          simp only [hlc, Option.some.injEq, Prod.mk.injEq] at hcode
          exact ⟨by rw [← hcode.1, ← hs.1], fun x hx => Or.inl (hcode.2 ▸ hx)⟩
      | some ts =>
        simp only [hl] at hs
        cases hs1 : dfsTargets (fun p c => dfsLeaves m k p c) m y chain ts with
        | none => simp [hs1] at hs
        | some pr =>
          obtain ⟨l1, d1⟩ := pr
          simp only [hs1, Option.some.injEq, Prod.mk.injEq] at hs
          obtain ⟨e1, e2⟩ := hs
          subst e1; subst e2
          have hyV : y ∉ V := hdisj y (by simp)
          rw [if_neg hyV] at hcode
          have hykey : y ∈ keys m := (lookup_isSome_iff m y).1 (by simp [hl])
          have hnd1 : d1.Nodup := (List.nodup_cons.1 hnd).2
          have hyd1 : y ∉ d1 := (List.nodup_cons.1 hnd).1
          by_cases hy : y ∈ keys todo
          · have hlc : lookup cur y = some ts := by rw [hun y hy, hl]
            simp only [hlc] at hcode
            obtain ⟨a1, a2⟩ := expandPaths_dfs m cur hk f k
              (fun y2 chain2 rel2 l2 ds2 W res2 W2 h1 h2 h3 h4 h5 h6 h7 =>
                ih f y2 chain2 rel2 l2 ds2 W res2 W2 h1 h2 h3 h4 h5 h6 h7)
              y chain (fun modulePath => Join [rel, modulePath])
              (by intro t; rw [if_neg hc]; exact hR t)
              (by
                intro t u
                rw [Join_snoc (chain ++ [t]) u (by simp), ← hR t])
              hchain ts (y :: V) res V2 l1 d1 (hrelm y ts hl) hs1 hnd1
              (by
                intro x hx hx2
                rcases List.mem_cons.1 hx2 with h | h
                · exact hyd1 (h ▸ hx)
                · exact hdisj x (List.mem_cons_of_mem _ hx) h)
              hcode
            refine ⟨a1, ?_⟩
            intro x hx
            rcases a2 x hx with h | h
            · rcases List.mem_cons.1 h with h2 | h2
              · exact Or.inr (by simp [h2])
              · exact Or.inl h2
            · exact Or.inr (List.mem_cons_of_mem _ h)
          · obtain ⟨l0, p1, p2⟩ := dfsLeaves_prefix m hrelm rel chain hR hc (k + 1) y []
              l1 (y :: d1) (by simp) (by simpa using hs0)
            have hlc : lookup cur y = some l0 := htree y (k + 1) l0 (y :: d1) p1 hnd hykey hy
            simp only [hlc] at hcode
            rw [expandPaths_flat_rel _ cur y _ l0 (y :: V) (hdone y l0 hlc hy)] at hcode
            simp only [Option.some.injEq, Prod.mk.injEq] at hcode
            refine ⟨by rw [← hcode.1, p2], ?_⟩
            intro x hx
            rw [← hcode.2] at hx
            rcases List.mem_cons.1 hx with h | h
            · exact Or.inr (by simp [h])
            · exact Or.inl h

theorem flattenDir_dfs (m cur : BarrelIndex)
    (todo : List (String × List String)) (hk : keys cur = keys m)
    (hrelm : ∀ d l, lookup m d = some l → ∀ t ∈ l, isRooted t.data = false)
    (hdone : ∀ x l, lookup cur x = some l → x ∉ keys todo →
      ∀ q ∈ l, lookup cur (Join [x, q]) = none)
    (hun : ∀ y, y ∈ keys todo → lookup cur y = lookup m y)
    (htree : ∀ (y : String) (n : Nat) (l ds : List String),
      dfsLeaves m n y [] = some (l, ds) → ds.Nodup → y ∈ keys m → y ∉ keys todo →
      lookup cur y = some l)
    (d : String) (mp L l ds : List String) (n : Nat) (hl : lookup m d = some mp)
    (hs : dfsLeaves m n d [] = some (l, ds)) (hnd : ds.Nodup)
    (hL : flattenDir cur d mp = some L) : L = l := by
  cases n with
  | zero => simp [dfsLeaves] at hs
  | succ k =>
    unfold dfsLeaves at hs
    simp only [hl] at hs
    cases hs1 : dfsTargets (fun p c => dfsLeaves m k p c) m d [] mp with
    | none => simp [hs1] at hs
    | some pr =>
      obtain ⟨l1, d1⟩ := pr
      simp only [hs1, Option.some.injEq, Prod.mk.injEq] at hs
      obtain ⟨e1, e2⟩ := hs
      subst e1; subst e2
      unfold flattenDir at hL
      cases he : expandPaths
          (fun p r v => getResolvedModulePaths (cur.length + 1) p r cur v) cur d
          (fun modulePath => modulePath) mp [d] with
      | none => rw [he] at hL; simp at hL
      | some qr =>
        obtain ⟨res, V2⟩ := qr
        rw [he] at hL
        simp only [Option.map_some', Option.some.injEq] at hL
        subst hL
        exact (expandPaths_dfs m cur hk (cur.length + 1) k
          (fun y2 chain2 rel2 l2 ds2 W res2 W2 h1 h2 h3 h4 h5 h6 h7 =>
            getResolvedModulePaths_dfs m cur todo hk hrelm hdone hun htree k _ y2 chain2 rel2
              l2 ds2 W res2 W2 h1 h2 h3 h4 h5 h6 h7)
          d [] (fun modulePath => modulePath) (by intro t; simp) (by intro t u; rfl)
          (by simp) mp [d] res V2 l1 d1 (hrelm d mp hl) hs1 (List.nodup_cons.1 hnd).2
          (by
            intro x hx hx2
            simp only [List.mem_singleton] at hx2
            exact (List.nodup_cons.1 hnd).1 (hx2 ▸ hx))
          he).1

theorem handleEntries_tree (m : BarrelIndex) (hnd : (keys m).Nodup)
    (hrelm : ∀ d l, lookup m d = some l → ∀ t ∈ l, isRooted t.data = false) :
    ∀ (todo : List (String × List String)) (cur : BarrelIndex), FlatInv m todo cur →
      (∀ e ∈ todo, e ∈ m) →
      (∀ (y : String) (n : Nat) (l ds : List String),
        dfsLeaves m n y [] = some (l, ds) → ds.Nodup → y ∈ keys m → y ∉ keys todo →
        lookup cur y = some l) →
      ∃ fin, handleEntries todo cur = some fin ∧
        ∀ (y : String) (n : Nat) (l ds : List String),
          dfsLeaves m n y [] = some (l, ds) → ds.Nodup → y ∈ keys m →
          lookup fin y = some l := by
  intro todo
  induction todo with
  | nil =>
    intro cur _ _ htree
    exact ⟨cur, rfl, fun y n l ds h1 h2 h3 => htree y n l ds h1 h2 h3 (by simp [keys])⟩
  | cons e rest ih =>
    intro cur hinv hm htree
    obtain ⟨d, mp⟩ := e
    obtain ⟨L, hL⟩ := flattenDir_total cur d mp
    have hinv2 := FlatInv_step m hnd d mp L rest cur hinv hL
    obtain ⟨hk, hrel, hreach, hin, hnd2, hdone⟩ := hinv
    have hndc : (keys cur).Nodup := hk ▸ hnd
    have hlm : lookup m d = some mp := lookup_of_mem m d mp hnd (hm (d, mp) (by simp))
    have hlc : lookup cur d = some mp := lookup_of_mem cur d mp hndc (hin (d, mp) (by simp))
    have hun : ∀ y, y ∈ keys ((d, mp) :: rest) → lookup cur y = lookup m y := by
      intro y hy
      obtain ⟨e, he, hey⟩ := List.mem_map.1 hy
      obtain ⟨k, v⟩ := e
      simp only at hey
      subst hey
      rw [lookup_of_mem cur k v hndc (hin (k, v) he), lookup_of_mem m k v hnd (hm (k, v) he)]
    unfold handleEntries
    simp only [hL]
    apply ih (assign cur d L) hinv2 (fun e he => hm e (List.mem_cons_of_mem _ he))
    intro y n l ds h1 h2 h3 h4
    rw [lookup_assign_of_key cur d y mp L hlc]
    by_cases hyd : y = d
    · subst hyd
      rw [if_pos rfl]
      rw [flattenDir_dfs m cur ((y, mp) :: rest) hk hrelm hdone hun htree y mp L l ds n hlm
        h1 h2 hL]
    · rw [if_neg hyd]
      apply htree y n l ds h1 h2 h3
      intro hmem
      simp only [keys, List.map_cons, List.mem_cons] at hmem
      rcases hmem with hmem | hmem
      · exact hyd hmem
      · exact h4 hmem

/-- For an index with relative targets, the list that `handleNestedBarrels` stores for a
directory below which no barrel directory is entered twice is the depth-first list of its
leaves. -/
theorem handleNestedBarrels_dfs (m : BarrelIndex) (hnd : (keys m).Nodup)
    (hrel : relativeTargets m = true) :
    ∃ fin, handleNestedBarrels m = some fin ∧
      ∀ (y : String) (n : Nat) (l ds : List String),
        dfsLeaves m n y [] = some (l, ds) → ds.Nodup → y ∈ keys m →
        lookup fin y = some l := by
  unfold handleNestedBarrels
  refine handleEntries_tree m hnd (relativeTargets_lookup m hrel) m m
    (FlatInv_init m hnd hrel) (fun _ h => h) ?_
  intro y n l ds _ _ h3 h4
  exact absurd h3 h4

/-! ## The loops of `getBarrelModulePaths` -/

theorem recordModulePaths_eq (fs : FSNode) (filePath : String) (extensions : List String) :
    ∀ (targets modulePaths : List String),
      recordModulePaths fs filePath extensions targets modulePaths
        = modulePaths ++ targets.flatMap (recordModulePath fs filePath extensions) := by
  intro targets
  induction targets with
  | nil => intro modulePaths; simp [recordModulePaths]
  | cons t rest ih =>
    intro modulePaths
    simp [recordModulePaths, ih, List.append_assoc]

theorem probeExtensions_eq (fs : FSNode) (path modulePath : String) :
    ∀ extensions : List String,
      probeExtensions fs path modulePath extensions
        = match firstExisting fs path extensions with
          | some extension => [modulePath ++ extension]
          | none => [] := by
  intro extensions
  induction extensions with
  | nil => rfl
  | cons e rest ih =>
    unfold probeExtensions firstExisting
    by_cases h : (stat fs (path ++ e)).isSome = true
    · simp [List.find?, h]
    · have h2 : (stat fs (path ++ e)).isSome = false := by simpa using h
      rw [if_neg h, ih]
      simp [List.find?, h2, firstExisting]

theorem firstExisting_isSome (fs : FSNode) (path : String) (extensions : List String) :
    (firstExisting fs path extensions).isSome = true ↔
      ∃ extension ∈ extensions, (stat fs (path ++ extension)).isSome = true := by
  unfold firstExisting
  rw [List.find?_isSome]

theorem probeExtensions_ne_nil (fs : FSNode) (path modulePath : String)
    (extensions : List String) :
    probeExtensions fs path modulePath extensions ≠ [] ↔
      ∃ extension ∈ extensions, (stat fs (path ++ extension)).isSome = true := by
  rw [probeExtensions_eq, ← firstExisting_isSome]
  cases firstExisting fs path extensions <;> simp

theorem getBarrelModulePaths_eq (fs : FSNode) (filePath : String) (extensions : List String) :
    getBarrelModulePaths fs filePath extensions
      = match readFile fs filePath with
        | none => []
        | some content =>
          (reExportTargets content).flatMap (recordModulePath fs filePath extensions) := by
  unfold getBarrelModulePaths
  cases readFile fs filePath with
  | none => rfl
  | some content => simp [recordModulePaths_eq]

theorem isIndexFile_iff (path : String) (extensions : List String) :
    isIndexFile path extensions = true ↔ ∃ ext ∈ extensions, Base path = "index" ++ ext := by
  induction extensions with
  | nil => simp [isIndexFile]
  | cons e rest ih =>
    unfold isIndexFile
    by_cases h : Base path = "index" ++ e
    · simp [h]
    · rw [if_neg h, ih]
      simp [h]

theorem recordsModulePath_iff (fs : FSNode) (extensions : List String) (path : String) :
    recordsModulePath fs extensions path = true ↔
      (isIndexFile path extensions = true ∧
        (getBarrelModulePaths fs path extensions).length > 0) := by
  unfold recordsModulePath
  rw [isIndexFile_iff]
  simp

/-! ## The walk visits what is visible -/

theorem mem_toList_cons (name : String) (node : FSNode) (rest : FSEntries)
    (x : String × FSNode) :
    x ∈ (FSEntries.cons name node rest).toList ↔ x = (name, node) ∨ x ∈ rest.toList := by
  simp [FSEntries.toList]

mutual
theorem walkNode_visible (ignorePath : String → Bool) :
    ∀ (node : FSNode) (path p : String) (k : Bool),
      (p, k) ∈ walkNode ignorePath path node → ignorePath p = false →
      ∃ n, Visible ignorePath path node p n ∧ n.isDir = k
  | .file c, path, p, k, h, hp => by
    simp only [walkNode, List.mem_singleton, Prod.mk.injEq] at h
    obtain ⟨h1, h2⟩ := h
    subst h1; subst h2
    exact ⟨.file c, Visible.self p (.file c) hp, rfl⟩
  | .dir entries, path, p, k, h, hp => by
    unfold walkNode at h
    by_cases hs : ignorePath path = true
    · rw [if_pos hs] at h
      simp only [List.mem_singleton, Prod.mk.injEq] at h
      obtain ⟨h1, _⟩ := h
      subst h1
      rw [hs] at hp
      exact absurd hp (by simp)
    · rw [if_neg hs] at h
      have hs2 : ignorePath path = false := by simpa using hs
      rcases List.mem_cons.1 h with h | h
      · simp only [Prod.mk.injEq] at h
        obtain ⟨h1, h2⟩ := h
        subst h1; subst h2
        exact ⟨.dir entries, Visible.self p (.dir entries) hp, rfl⟩
      · obtain ⟨name, child, hmem, n, hv, hk⟩ :=
          walkEntries_visible ignorePath entries path p k h hp
        exact ⟨n, Visible.inside path entries name child p n hs2 hmem hv, hk⟩
theorem walkEntries_visible (ignorePath : String → Bool) :
    ∀ (entries : FSEntries) (path p : String) (k : Bool),
      (p, k) ∈ walkEntries ignorePath path entries → ignorePath p = false →
      ∃ name child, (name, child) ∈ entries.toList ∧
        ∃ n, Visible ignorePath (Join [path, name]) child p n ∧ n.isDir = k
  | .nil, path, p, k, h, _ => by
    simp [walkEntries] at h
  | .cons name node rest, path, p, k, h, hp => by
    unfold walkEntries at h
    rcases List.mem_append.1 h with h | h
    · obtain ⟨n, hv, hk⟩ := walkNode_visible ignorePath node (Join [path, name]) p k h hp
      exact ⟨name, node, by simp [FSEntries.toList], n, hv, hk⟩
    · obtain ⟨name2, child, hmem, n, hv, hk⟩ :=
        walkEntries_visible ignorePath rest path p k h hp
      exact ⟨name2, child, by simp [FSEntries.toList, hmem], n, hv, hk⟩
end

theorem mem_walkEntries (ignorePath : String → Bool) (path : String) (x : String × Bool) :
    ∀ (entries : FSEntries) (name : String) (child : FSNode),
      (name, child) ∈ entries.toList → x ∈ walkNode ignorePath (Join [path, name]) child →
      x ∈ walkEntries ignorePath path entries
  | .nil, name, child, hmem, _ => by simp [FSEntries.toList] at hmem
  | .cons name1 node rest, name, child, hmem, hx => by
    unfold walkEntries
    rcases (mem_toList_cons name1 node rest (name, child)).1 hmem with h | h
    · simp only [Prod.mk.injEq] at h
      obtain ⟨h1, h2⟩ := h
      subst h1; subst h2
      exact List.mem_append_left _ hx
    · exact List.mem_append_right _ (mem_walkEntries ignorePath path x rest name child h hx)

theorem visible_walkNode (ignorePath : String → Bool) (path : String) (node : FSNode)
    (p : String) (n : FSNode) (h : Visible ignorePath path node p n) :
    (p, n.isDir) ∈ walkNode ignorePath path node ∧ ignorePath p = false := by
  induction h with
  | self path node hi =>
    refine ⟨?_, hi⟩
    cases node with
    | file c => simp [walkNode, FSNode.isDir]
    | dir es => simp [walkNode, FSNode.isDir, hi]
  | inside path entries name child p n hi hmem _ ih =>
    refine ⟨?_, ih.2⟩
    unfold walkNode
    rw [if_neg (by simp [hi])]
    exact List.mem_cons_of_mem _ (mem_walkEntries ignorePath path _ entries name child hmem ih.1)

theorem mem_walkRoot (fs : FSNode) (ignorePath : String → Bool) (rootPath p : String)
    (k : Bool) :
    ((p, k) ∈ walkRoot fs ignorePath rootPath ∧ ignorePath p = false) ↔
      ∃ rootNode, stat fs rootPath = some rootNode ∧
        ∃ n, Visible ignorePath rootPath rootNode p n ∧ n.isDir = k := by
  unfold walkRoot Walk
  cases hs : stat fs rootPath with
  | none => simp
  | some rootNode =>
    simp only [Option.some.injEq, exists_eq_left']
    constructor
    · rintro ⟨h, hp⟩
      exact walkNode_visible ignorePath rootNode rootPath p k h hp
    · rintro ⟨n, hv, hk⟩
      subst hk
      exact visible_walkNode ignorePath rootPath rootNode p n hv

/-! ## The walk function of `BarrelFilePaths` -/

theorem isBarrelEntry_iff (fs : FSNode) (ignorePath : String → Bool)
    (extensions : List String) (entry : String × Bool) :
    isBarrelEntry fs ignorePath extensions entry = true ↔
      (ignorePath entry.1 = false ∧ entry.2 = false ∧ isIndexFile entry.1 extensions = true ∧
        (getBarrelModulePaths fs entry.1 extensions).length > 0) := by
  unfold isBarrelEntry
  simp only [Bool.and_eq_true, Bool.not_eq_true', recordsModulePath_iff]
  tauto

theorem visitBarrelFile_eq (fs : FSNode) (ignorePath : String → Bool)
    (extensions : List String) (barrelFilePaths : List String) (entry : String × Bool) :
    visitBarrelFile fs ignorePath extensions barrelFilePaths entry
      = barrelFilePaths ++
          (if isBarrelEntry fs ignorePath extensions entry then [entry.1] else []) := by
  have hiff := isBarrelEntry_iff fs ignorePath extensions entry
  unfold visitBarrelFile
  by_cases h1 : ignorePath entry.1 = true
  · rw [if_pos h1]
    have : ¬ isBarrelEntry fs ignorePath extensions entry = true := by
      rw [hiff]; simp [h1]
    rw [if_neg this]; simp
  · rw [if_neg h1]
    have h1f : ignorePath entry.1 = false := by simpa using h1
    by_cases h2 : (!entry.2 && isIndexFile entry.1 extensions) = true
    · rw [if_pos h2]
      simp only [Bool.and_eq_true, Bool.not_eq_true'] at h2
      by_cases h3 : (getBarrelModulePaths fs entry.1 extensions).length > 0
      · rw [if_pos h3, if_pos (hiff.2 ⟨h1f, h2.1, h2.2, h3⟩)]
      · rw [if_neg h3]
        have : ¬ isBarrelEntry fs ignorePath extensions entry = true := by
          rw [hiff]; tauto
        rw [if_neg this]; simp
    · rw [if_neg h2]
      have : ¬ isBarrelEntry fs ignorePath extensions entry = true := by
        rw [hiff]
        simp only [Bool.and_eq_true, Bool.not_eq_true'] at h2
        tauto
      rw [if_neg this]; simp

theorem foldl_visitBarrelFile (fs : FSNode) (ignorePath : String → Bool)
    (extensions : List String) :
    ∀ (entries : List (String × Bool)) (barrelFilePaths : List String),
      entries.foldl (visitBarrelFile fs ignorePath extensions) barrelFilePaths
        = barrelFilePaths ++
            ((entries.filter (isBarrelEntry fs ignorePath extensions)).map Prod.fst) := by
  intro entries
  induction entries with
  | nil => intro b; simp
  | cons e rest ih =>
    intro b
    rw [List.foldl_cons, ih, visitBarrelFile_eq]
    by_cases h : isBarrelEntry fs ignorePath extensions e = true
    · simp [h, List.filter_cons]
    · simp [h, List.filter_cons]

theorem BarrelFilePaths_eq (fs : FSNode) (ignorePath : String → Bool) (rootPath : String)
    (extensions : List String) :
    BarrelFilePaths fs ignorePath rootPath extensions
      = ((walkRoot fs ignorePath rootPath).filter
          (isBarrelEntry fs ignorePath extensions)).map Prod.fst := by
  unfold BarrelFilePaths
  rw [foldl_visitBarrelFile]
  simp

/-! ## The count over the tree -/

mutual
theorem countNode_walk (fs : FSNode) (ignorePath : String → Bool) (extensions : List String) :
    ∀ (node : FSNode) (path : String),
      ((walkNode ignorePath path node).filter
          (isBarrelEntry fs ignorePath extensions)).length
        = countNode ignorePath (recordsModulePath fs extensions) path node
  | .file c, path => by
    simp only [walkNode, countNode, List.filter_cons, List.filter_nil, isBarrelEntry,
      Bool.not_false, Bool.and_true]
    by_cases h : (!ignorePath path && recordsModulePath fs extensions path) = true
    · rw [if_pos h, if_pos h]; rfl
    · rw [if_neg h, if_neg h]; rfl
  | .dir entries, path => by
    unfold walkNode countNode
    by_cases hs : ignorePath path = true
    · rw [if_pos hs, if_pos hs]
      simp [isBarrelEntry, hs]
    · rw [if_neg hs, if_neg hs, List.filter_cons]
      have hhead : isBarrelEntry fs ignorePath extensions (path, true) = false := by
        simp [isBarrelEntry]
      rw [hhead]
      simp only [Bool.false_eq_true, if_false]
      exact countEntries_walk fs ignorePath extensions entries path
theorem countEntries_walk (fs : FSNode) (ignorePath : String → Bool)
    (extensions : List String) :
    ∀ (entries : FSEntries) (path : String),
      ((walkEntries ignorePath path entries).filter
          (isBarrelEntry fs ignorePath extensions)).length
        = countEntries ignorePath (recordsModulePath fs extensions) path entries
  | .nil, path => by simp [walkEntries, countEntries]
  | .cons name node rest, path => by
    unfold walkEntries countEntries
    rw [List.filter_append, List.length_append,
      countNode_walk fs ignorePath extensions node (Join [path, name]),
      countEntries_walk fs ignorePath extensions rest path]
end

/-! ## `BarrelMaps` is the sequence of its registrations -/

theorem lookupString_putString (m : List (String × String)) (k v key : String) :
    lookupString (putString m k v) key = if k = key then some v else lookupString m key := by
  induction m with
  | nil => simp [putString, lookupString]
  | cons e rest ih =>
    obtain ⟨k0, v0⟩ := e
    unfold putString
    by_cases h0 : k0 = k
    · rw [if_pos h0]
      subst h0
      by_cases h1 : k0 = key
      · simp [lookupString, h1]
      · simp [lookupString, h1]
    · rw [if_neg h0]
      by_cases h1 : k0 = key
      · have h2 : ¬ k = key := fun h => h0 (h1.trans h.symm)
        simp [lookupString, h1, h2]
      · simp only [lookupString, if_neg h1, ih]

theorem registerNames_eq (barrelDir aliasFullPath modulePath : String) :
    ∀ (names : List String) (b : BarrelResolvedPath),
      registerNames barrelDir aliasFullPath modulePath names b
        = (names.map fun moduleName =>
            (⟨barrelDir, aliasFullPath, modulePath, moduleName⟩ : Registration)).foldl
            Registration.apply b := by
  intro names
  induction names with
  | nil => intro b; rfl
  | cons n rest ih =>
    intro b
    simp only [registerNames, ih, List.map_cons, List.foldl_cons, Registration.apply]

theorem visitModuleFile_eq (fs : FSNode) (extensions : List String)
    (barrelDir aliasFullPath modulePath : String) (b : BarrelResolvedPath)
    (entry : String × Bool) :
    visitModuleFile fs extensions barrelDir aliasFullPath modulePath b entry
      = ((entryNames fs extensions entry).map fun moduleName =>
          (⟨barrelDir, aliasFullPath, modulePath, moduleName⟩ : Registration)).foldl
          Registration.apply b := by
  unfold visitModuleFile entryNames
  by_cases h : (entry.2 || !IsSupportedFileExtension extensions entry.1) = true
  · rw [if_pos h, if_pos h]; rfl
  · rw [if_neg h, if_neg h]
    cases readFile fs entry.1 with
    | none => rfl
    | some contents => exact registerNames_eq _ _ _ _ _

theorem foldl_visitModuleFile (fs : FSNode) (extensions : List String)
    (barrelDir aliasFullPath modulePath : String) :
    ∀ (entries : List (String × Bool)) (b : BarrelResolvedPath),
      entries.foldl (visitModuleFile fs extensions barrelDir aliasFullPath modulePath) b
        = ((entries.flatMap (entryNames fs extensions)).map fun moduleName =>
            (⟨barrelDir, aliasFullPath, modulePath, moduleName⟩ : Registration)).foldl
            Registration.apply b := by
  intro entries
  induction entries with
  | nil => intro b; rfl
  | cons e rest ih =>
    intro b
    rw [List.foldl_cons, ih, visitModuleFile_eq, List.flatMap_cons, List.map_append,
      List.foldl_append]

theorem registerModulePaths_eq (fs : FSNode) (extensions : List String)
    (barrelDir aliasFullPath : String) :
    ∀ (modulePaths : List String) (b : BarrelResolvedPath),
      registerModulePaths fs extensions barrelDir aliasFullPath modulePaths b
        = (barrelRegistrations fs extensions barrelDir aliasFullPath modulePaths).foldl
            Registration.apply b := by
  intro modulePaths
  induction modulePaths with
  | nil => intro b; rfl
  | cons t rest ih =>
    intro b
    unfold registerModulePaths
    dsimp only
    rw [ih, foldl_visitModuleFile]
    unfold barrelRegistrations
    rw [List.flatMap_cons, List.foldl_append]
    rfl

theorem registerBarrels_eq (fs : FSNode) (extensions : List String)
    (aliasOrder : String → List (String × String)) :
    ∀ (index : BarrelIndex) (b : BarrelResolvedPath),
      registerBarrels fs extensions aliasOrder index b
        = (registrations fs extensions aliasOrder index).foldl Registration.apply b := by
  intro index
  induction index with
  | nil => intro b; rfl
  | cons e rest ih =>
    intro b
    obtain ⟨d, ts⟩ := e
    unfold registerBarrels
    dsimp only
    rw [ih, registerModulePaths_eq]
    unfold registrations
    rw [List.flatMap_cons, List.foldl_append]

/-! ## The registry after a sequence of registrations -/

theorem apply_ModuleResolverMap (b : BarrelResolvedPath) (r : Registration) (key : String) :
    lookupString (r.apply b).ModuleResolverMap key
      = if r.writesKey key = true then some r.value
        else lookupString b.ModuleResolverMap key := by
  have h : (r.apply b).ModuleResolverMap
      = putString (putString b.ModuleResolverMap (Join [r.aliasFullPath, r.moduleName]) r.value)
          (Join [r.barrelDir, r.moduleName]) r.value := rfl
  rw [h, lookupString_putString, lookupString_putString]
  unfold Registration.writesKey
  by_cases h1 : Join [r.barrelDir, r.moduleName] = key
  · simp [h1]
  · by_cases h2 : Join [r.aliasFullPath, r.moduleName] = key
    · simp [h1, h2]
    · simp [h1, h2]

theorem foldl_apply_lookup (key : String) (regs : List Registration) :
    ∀ b : BarrelResolvedPath,
      lookupString (regs.foldl Registration.apply b).ModuleResolverMap key
        = match (regs.filter fun r => r.writesKey key).getLast? with
          | some r => some r.value
          | none => lookupString b.ModuleResolverMap key := by
  induction regs using List.reverseRecOn with
  | nil => intro b; rfl
  | append_singleton init r ih =>
    intro b
    rw [List.foldl_append, List.foldl_cons, List.foldl_nil, apply_ModuleResolverMap,
      List.filter_append]
    by_cases h : r.writesKey key = true
    · rw [if_pos h]
      have : List.filter (fun r => r.writesKey key) [r] = [r] := by simp [h]
      rw [this, List.getLast?_concat]
    · rw [if_neg h]
      have : List.filter (fun r => r.writesKey key) [r] = [] := by simp [h]
      rw [this, List.append_nil, ih]

theorem contains_add (l : List String) (x p : String) :
    (if l.contains x then l else l ++ [x]).contains p = (l.contains p || decide (x = p)) := by
  rw [Bool.eq_iff_iff]
  by_cases h : l.contains x = true
  · rw [if_pos h]
    simp only [Bool.or_eq_true, decide_eq_true_eq]
    constructor
    · intro h1; exact Or.inl h1
    · rintro (h1 | h1)
      · exact h1
      · exact h1 ▸ h
  · rw [if_neg h]
    simp only [List.contains_eq_any_beq, List.any_append, List.any_cons, List.any_nil,
      Bool.or_false, Bool.or_eq_true, beq_iff_eq, decide_eq_true_eq]
    constructor
    · rintro (h1 | h1)
      · exact Or.inl h1
      · exact Or.inr h1.symm
    · rintro (h1 | h1)
      · exact Or.inl h1
      · exact Or.inr h1.symm

theorem apply_ExistenceMap (b : BarrelResolvedPath) (r : Registration) (path : String) :
    (r.apply b).IsResolved path = (b.IsResolved path || r.marks path) := by
  have h : (r.apply b).ExistenceMap
      = (if (if b.ExistenceMap.contains r.aliasFullPath then b.ExistenceMap
            else b.ExistenceMap ++ [r.aliasFullPath]).contains r.barrelDir
          then (if b.ExistenceMap.contains r.aliasFullPath then b.ExistenceMap
            else b.ExistenceMap ++ [r.aliasFullPath])
          else (if b.ExistenceMap.contains r.aliasFullPath then b.ExistenceMap
            else b.ExistenceMap ++ [r.aliasFullPath]) ++ [r.barrelDir]) := rfl
  unfold BarrelResolvedPath.IsResolved Registration.marks
  rw [h, contains_add, contains_add, Bool.or_assoc]

theorem foldl_apply_IsResolved (path : String) (regs : List Registration) :
    ∀ b : BarrelResolvedPath,
      (regs.foldl Registration.apply b).IsResolved path
        = (b.IsResolved path || regs.any fun r => r.marks path) := by
  induction regs with
  | nil => intro b; simp
  | cons r rest ih =>
    intro b
    rw [List.foldl_cons, ih, apply_ExistenceMap, List.any_cons, Bool.or_assoc]

theorem registrations_alias (fs : FSNode) (extensions : List String)
    (aliasOrder : String → List (String × String)) (index : BarrelIndex) (r : Registration)
    (h : r ∈ registrations fs extensions aliasOrder index) :
    r.aliasFullPath = (AliasPath (aliasOrder r.barrelDir) r.barrelDir).FullPath := by
  unfold registrations at h
  obtain ⟨e, _, he⟩ := List.mem_flatMap.1 h
  unfold barrelRegistrations at he
  obtain ⟨t, _, ht⟩ := List.mem_flatMap.1 he
  obtain ⟨n, _, hn⟩ := List.mem_map.1 ht
  subst hn
  rfl

/-! ## The last target of a barrel that declares a name -/

theorem Walk_file (fs : FSNode) (skip : String → Bool) (path : String) (c : Option String)
    (h : stat fs path = some (.file c)) : Walk fs skip path = [(path, false)] := by
  unfold Walk
  rw [h]
  rfl

theorem targetNames_file (fs : FSNode) (extensions : List String) (path : String)
    (c : Option String) (h : stat fs path = some (.file c)) :
    targetNames fs extensions path = declaredNames fs extensions path := by
  unfold targetNames declaredNames
  rw [Walk_file fs _ path c h]
  simp

theorem barrelRegistrations_append (fs : FSNode) (extensions : List String)
    (barrelDir aliasFullPath : String) (ts us : List String) :
    barrelRegistrations fs extensions barrelDir aliasFullPath (ts ++ us)
      = barrelRegistrations fs extensions barrelDir aliasFullPath ts ++
        barrelRegistrations fs extensions barrelDir aliasFullPath us := by
  unfold barrelRegistrations
  rw [List.flatMap_append]

theorem barrelRegistrations_dir (fs : FSNode) (extensions : List String)
    (barrelDir aliasFullPath : String) (ts : List String) (r : Registration)
    (h : r ∈ barrelRegistrations fs extensions barrelDir aliasFullPath ts) :
    r.barrelDir = barrelDir := by
  unfold barrelRegistrations at h
  obtain ⟨t, _, ht⟩ := List.mem_flatMap.1 h
  obtain ⟨n, _, hn⟩ := List.mem_map.1 ht
  subst hn
  rfl

theorem registrations_dir (fs : FSNode) (extensions : List String)
    (aliasOrder : String → List (String × String)) (index : BarrelIndex) (r : Registration)
    (h : r ∈ registrations fs extensions aliasOrder index) : r.barrelDir ∈ keys index := by
  unfold registrations at h
  obtain ⟨e, he, hr⟩ := List.mem_flatMap.1 h
  rw [barrelRegistrations_dir _ _ _ _ _ _ hr]
  exact List.mem_map.2 ⟨e, he, rfl⟩

theorem registrations_append (fs : FSNode) (extensions : List String)
    (aliasOrder : String → List (String × String)) (pre post : BarrelIndex) :
    registrations fs extensions aliasOrder (pre ++ post)
      = registrations fs extensions aliasOrder pre ++
        registrations fs extensions aliasOrder post := by
  unfold registrations
  rw [List.flatMap_append]

theorem registrations_cons (fs : FSNode) (extensions : List String)
    (aliasOrder : String → List (String × String)) (d : String) (ts : List String)
    (post : BarrelIndex) :
    registrations fs extensions aliasOrder ((d, ts) :: post)
      = barrelRegistrations fs extensions d (AliasPath (aliasOrder d) d).FullPath ts ++
        registrations fs extensions aliasOrder post := by
  unfold registrations
  rw [List.flatMap_cons]

theorem barrelRegistrations_last (fs : FSNode) (extensions : List String)
    (d a n : String) (ts : List String)
    (hfile : ∀ t ∈ ts, ∃ c, stat fs (Join [d, t]) = some (.file c)) :
    (((barrelRegistrations fs extensions d a ts).filter
        fun r => decide (r.moduleName = n)).getLast?).map Registration.value
      = ((ts.filter fun t =>
          decide (n ∈ declaredNames fs extensions (Join [d, t]))).getLast?).map
          fun t => Join [withoutExtension t] := by
  induction ts using List.reverseRecOn with
  | nil => rfl
  | append_singleton init t ih =>
    have hinit : ∀ u ∈ init, ∃ c, stat fs (Join [d, u]) = some (.file c) :=
      fun u hu => hfile u (List.mem_append_left _ hu)
    obtain ⟨c, hc⟩ := hfile t (by simp)
    have hone : barrelRegistrations fs extensions d a [t]
        = (declaredNames fs extensions (Join [d, t])).map fun moduleName =>
            (⟨d, a, t, moduleName⟩ : Registration) := by
      unfold barrelRegistrations
      rw [List.flatMap_cons, List.flatMap_nil, List.append_nil,
        targetNames_file fs extensions _ c hc]
    rw [barrelRegistrations_append, List.filter_append, List.filter_append, hone]
    by_cases hn : n ∈ declaredNames fs extensions (Join [d, t])
    · have h1 : List.filter
          (fun t => decide (n ∈ declaredNames fs extensions (Join [d, t]))) [t] = [t] := by
        simp [hn]
      rw [h1, List.getLast?_concat]
      have h2 : ∃ r, (List.filter (fun r => decide (r.moduleName = n))
          ((declaredNames fs extensions (Join [d, t])).map fun moduleName =>
            (⟨d, a, t, moduleName⟩ : Registration))).getLast? = some r := by
        have hne : List.filter (fun r => decide (r.moduleName = n))
            ((declaredNames fs extensions (Join [d, t])).map fun moduleName =>
              (⟨d, a, t, moduleName⟩ : Registration)) ≠ [] := by
          apply List.ne_nil_of_mem (a := (⟨d, a, t, n⟩ : Registration))
          rw [List.mem_filter]
          exact ⟨List.mem_map.2 ⟨n, hn, rfl⟩, by simp⟩
        cases hl : (List.filter (fun r => decide (r.moduleName = n))
            ((declaredNames fs extensions (Join [d, t])).map fun moduleName =>
              (⟨d, a, t, moduleName⟩ : Registration))).getLast? with
        | none => exact absurd (List.getLast?_eq_none_iff.1 hl) hne
        | some r => exact ⟨r, rfl⟩
      obtain ⟨r, hr⟩ := h2
      rw [List.getLast?_append, hr]
      have hmem := List.mem_of_getLast?_eq_some hr
      rw [List.mem_filter] at hmem
      obtain ⟨m, _, hm⟩ := List.mem_map.1 hmem.1
      subst hm
      rfl
    · have h1 : List.filter
          (fun t => decide (n ∈ declaredNames fs extensions (Join [d, t]))) [t] = [] := by
        simp [hn]
      have h2 : List.filter (fun r => decide (r.moduleName = n))
          ((declaredNames fs extensions (Join [d, t])).map fun moduleName =>
            (⟨d, a, t, moduleName⟩ : Registration)) = [] := by
        rw [List.filter_eq_nil_iff]
        intro r hr
        obtain ⟨m, hm, hmr⟩ := List.mem_map.1 hr
        subst hmr
        simp only [decide_eq_true_eq]
        intro h
        exact hn (h ▸ hm)
      rw [h1, h2, List.append_nil, List.append_nil]
      exact ih hinit

theorem filter_other_dir (d n : String) (regs : List Registration)
    (h : ∀ r ∈ regs, r.barrelDir ≠ d) :
    regs.filter (fun r => decide (r.barrelDir = d) && decide (r.moduleName = n)) = [] := by
  rw [List.filter_eq_nil_iff]
  intro r hr
  simp [h r hr]

theorem filter_same_dir (d n : String) (regs : List Registration)
    (h : ∀ r ∈ regs, r.barrelDir = d) :
    regs.filter (fun r => decide (r.barrelDir = d) && decide (r.moduleName = n))
      = regs.filter fun r => decide (r.moduleName = n) := by
  apply List.filter_congr
  intro r hr
  simp [h r hr]

theorem registrations_last (fs : FSNode) (extensions : List String)
    (aliasOrder : String → List (String × String)) (index : BarrelIndex) (d n : String)
    (ts : List String) (hnodup : (keys index).Nodup) (hmem : (d, ts) ∈ index)
    (hfile : ∀ t ∈ ts, ∃ c, stat fs (Join [d, t]) = some (.file c)) :
    (((registrations fs extensions aliasOrder index).filter
        fun r => decide (r.barrelDir = d) && decide (r.moduleName = n)).getLast?).map
        Registration.value
      = ((ts.filter fun t =>
          decide (n ∈ declaredNames fs extensions (Join [d, t]))).getLast?).map
          fun t => Join [withoutExtension t] := by
  obtain ⟨pre, post, hsplit⟩ := List.append_of_mem hmem
  subst hsplit
  have hk : (keys pre ++ d :: keys post).Nodup := by
    simpa [keys] using hnodup
  have hpre : d ∉ keys pre := by
    intro h
    exact (List.nodup_append.1 hk).2.2 h (by simp)
  have hpost : d ∉ keys post := by
    have := (List.nodup_append.1 hk).2.1
    exact (List.nodup_cons.1 this).1
  rw [registrations_append, registrations_cons, List.filter_append, List.filter_append,
    filter_other_dir d n _ (fun r hr h =>
      hpre (h ▸ registrations_dir fs extensions aliasOrder pre r hr)),
    filter_other_dir d n _ (fun r hr h =>
      hpost (h ▸ registrations_dir fs extensions aliasOrder post r hr)),
    filter_same_dir d n _ (fun r hr => barrelRegistrations_dir _ _ _ _ _ _ hr),
    List.nil_append, List.append_nil]
  exact barrelRegistrations_last fs extensions d _ n ts hfile

theorem registerBarrels_last_target (fs : FSNode) (extensions : List String)
    (aliasOrder : String → List (String × String)) (index : BarrelIndex) (d n : String)
    (ts : List String) (hnodup : (keys index).Nodup) (hmem : (d, ts) ∈ index)
    (hfile : ∀ t ∈ ts, ∃ c, stat fs (Join [d, t]) = some (.file c))
    (hkeys : ∀ r ∈ registrations fs extensions aliasOrder index,
      r.writesKey (Join [d, n]) = true → r.barrelDir = d ∧ r.moduleName = n) :
    (registerBarrels fs extensions aliasOrder index ⟨[], []⟩).ResolveModuleName d n
      = ((ts.filter fun t =>
          decide (n ∈ declaredNames fs extensions (Join [d, t]))).getLast?).map
          fun t => Join [withoutExtension t] := by
  rw [registerBarrels_eq]
  unfold BarrelResolvedPath.ResolveModuleName
  rw [foldl_apply_lookup]
  have hf : (registrations fs extensions aliasOrder index).filter
        (fun r => r.writesKey (Join [d, n]))
      = (registrations fs extensions aliasOrder index).filter
        (fun r => decide (r.barrelDir = d) && decide (r.moduleName = n)) := by
    apply List.filter_congr
    intro r hr
    rw [Bool.eq_iff_iff]
    constructor
    · intro hw
      obtain ⟨hd, hn⟩ := hkeys r hr hw
      simp [hd, hn]
    · intro hw
      simp only [Bool.and_eq_true, decide_eq_true_eq] at hw
      simp [Registration.writesKey, hw.1, hw.2]
  rw [hf, ← registrations_last fs extensions aliasOrder index d n ts hnodup hmem hfile]
  cases ((registrations fs extensions aliasOrder index).filter
    (fun r => decide (r.barrelDir = d) && decide (r.moduleName = n))).getLast? with
  | none => rfl
  | some r => rfl

/-! ## The loop over the names of an import statement -/

theorem lookup_appendImport (g : List (String × List String)) (p importName q : String) :
    lookup (appendImport g p importName) q
      = if p = q then some ((lookup g q).getD [] ++ [importName]) else lookup g q := by
  induction g with
  | nil =>
    by_cases h : p = q
    · simp [appendImport, lookup, h]
    · simp [appendImport, lookup, h]
  | cons e rest ih =>
    obtain ⟨k, v⟩ := e
    unfold appendImport
    by_cases hk : k = p
    · rw [if_pos hk]
      subst hk
      by_cases h : k = q
      · simp [lookup, h]
      · simp [lookup, h]
    · rw [if_neg hk]
      by_cases h : k = q
      · have hpq : ¬ p = q := fun e => hk (h.trans e.symm)
        simp [lookup, h, hpq]
      · simp only [lookup, if_neg h, ih]

theorem lookup_foldl_appendImport (target : String → String) (q : String) :
    ∀ (R : List String) (g : List (String × List String)),
      (lookup (R.foldl (fun g n => appendImport g (target n) n) g) q).getD []
        = (lookup g q).getD [] ++ R.filter fun n => target n = q := by
  intro R
  induction R with
  | nil => intro g; simp
  | cons n rest ih =>
    intro g
    rw [List.foldl_cons, ih, lookup_appendImport]
    by_cases h : target n = q
    · simp [h, List.filter_cons]
    · simp [h, List.filter_cons]

theorem collectImports_eq (b : BarrelResolvedPath) (key importPath : String) :
    ∀ (tokens : List String) (acc : List String × List (String × List String)),
      collectImports b key importPath tokens acc
        = (acc.1 ++
            (((tokens.map fun token =>
              TrimSpace (TrimSuffix (TrimPrefix token "\x7b") "\x7d")).filter fun n =>
                n != "").filter (resolvesUnder b key)).map (emittedPath b key importPath),
          (((tokens.map fun token =>
              TrimSpace (TrimSuffix (TrimPrefix token "\x7b") "\x7d")).filter fun n =>
                n != "").filter (resolvesUnder b key)).foldl
            (fun g n => appendImport g (emittedPath b key importPath n) n) acc.2) := by
  intro tokens
  induction tokens with
  | nil => intro acc; obtain ⟨o, g⟩ := acc; simp [collectImports]
  | cons token rest ih =>
    intro acc
    obtain ⟨o, g⟩ := acc
    unfold collectImports
    dsimp only
    by_cases he : TrimSpace (TrimSuffix (TrimPrefix token "\x7b") "\x7d") = ""
    · rw [if_pos he, ih]
      simp [List.filter_cons, he]
    · rw [if_neg he]
      cases hr : b.ResolveModuleName key
          (getModuleName (TrimSpace (TrimSuffix (TrimPrefix token "\x7b") "\x7d"))) with
      | none =>
        simp only
        rw [ih]
        have hnot : resolvesUnder b key
            (TrimSpace (TrimSuffix (TrimPrefix token "\x7b") "\x7d")) = false := by
          simp [resolvesUnder, hr]
        simp [List.filter_cons, he, hnot]
      | some resolvedModulePath =>
        simp only
        rw [ih]
        have hyes : resolvesUnder b key
            (TrimSpace (TrimSuffix (TrimPrefix token "\x7b") "\x7d")) = true := by
          simp [resolvesUnder, hr]
        have hpath : emittedPath b key importPath
            (TrimSpace (TrimSuffix (TrimPrefix token "\x7b") "\x7d"))
            = (if HasPrefix importPath "@" then Join [key, resolvedModulePath]
              else if HasPrefix importPath "./" then Join [importPath, resolvedModulePath]
              else "./" ++ Join [importPath, resolvedModulePath]) := by
          simp [emittedPath, hr]
        simp [List.filter_cons, he, hyes, hpath]

theorem rewriteImport_eq (b : BarrelResolvedPath) (path importStatement : String)
    (m : ImportMatch) (hm : findImportLine importStatement.data = some m)
    (hres : b.IsResolved (importKey path m.importPath) = true) :
    rewriteImport b path importStatement
      = if resolvedNames b (importKey path m.importPath) m.names = [] then importStatement
        else stringsJoin
          ((resolvedNames b (importKey path m.importPath) m.names).map fun importName =>
            newImportStatement m.names m.quoteSymbol
              (emittedPath b (importKey path m.importPath) m.importPath importName)
              (namesUnder b (importKey path m.importPath) m.importPath m.names
                (emittedPath b (importKey path m.importPath) m.importPath importName)))
          "\n" := by
  unfold rewriteImport
  rw [hm]
  dsimp only
  rw [hres]
  simp only [Bool.not_true, Bool.false_eq_true, if_false]
  rw [collectImports_eq]
  simp only [List.nil_append, List.length_map, List.map_map]
  have hR : ((List.map (fun token => TrimSpace (TrimSuffix (TrimPrefix token "\x7b") "\x7d"))
      (SplitComma m.names)).filter (fun n => n != "")).filter
        (resolvesUnder b (importKey path m.importPath))
      = resolvedNames b (importKey path m.importPath) m.names := rfl
  rw [hR]
  by_cases hnil : resolvedNames b (importKey path m.importPath) m.names = []
  · rw [if_pos hnil, hnil]
    simp
  · rw [if_neg hnil, if_pos (List.length_pos.2 hnil)]
    congr 1
    apply List.map_congr_left
    intro n _
    simp only [Function.comp]
    rw [lookup_foldl_appendImport]
    rfl

/-! ## The text of an emitted statement -/

theorem TrimSuffix_append (s p : String) : TrimSuffix (s ++ p) p = s := by
  unfold TrimSuffix HasSuffix
  have h : (p.data.reverse.isPrefixOf (s ++ p).data.reverse) = true := by
    rw [String.data_append, List.reverse_append, List.isPrefixOf_iff_prefix]
    exact List.prefix_append _ _
  rw [if_pos h]
  apply String.ext
  simp [String.data_append]

theorem foldl_listed (f : String → String) :
    ∀ (importNames : List String) (start : String),
      importNames.foldl (fun acc importName => acc ++ f importName ++ ", ") start
        = if importNames = [] then start
          else start ++ stringsJoin (importNames.map f) ", " ++ ", " := by
  intro importNames
  induction importNames with
  | nil => intro start; rfl
  | cons n rest ih =>
    intro start
    rw [List.foldl_cons, ih, if_neg (List.cons_ne_nil n rest)]
    cases rest with
    | nil => simp [stringsJoin]
    | cons n2 rest2 =>
      rw [if_neg (List.cons_ne_nil n2 rest2)]
      simp only [List.map_cons, stringsJoin, String.append_assoc]

theorem TrimSuffix_listed (f : String → String) (importNames : List String) (start : String)
    (hstart : TrimSuffix start ", " = start) :
    TrimSuffix (importNames.foldl (fun acc importName => acc ++ f importName ++ ", ") start)
        ", "
      = start ++ stringsJoin (importNames.map f) ", " := by
  rw [foldl_listed]
  by_cases hnil : importNames = []
  · rw [if_pos hnil, hstart, hnil]
    simp [stringsJoin]
  · rw [if_neg hnil, TrimSuffix_append]

theorem newImportStatement_eq (names quoteSymbol resolvedPath : String)
    (importNames : List String) :
    newImportStatement names quoteSymbol resolvedPath importNames
      = "import " ++ (if isTypeImport names importNames then "type \x7b " else "\x7b ") ++
          stringsJoin (memberTokens names importNames) ", " ++ " \x7d from " ++
          quoteSymbol ++ resolvedPath ++ quoteSymbol := by
  have h0 : newImportStatement names quoteSymbol resolvedPath importNames
      = TrimSuffix (importNames.foldl
          (fun acc importName =>
            acc ++ (if isTypeImport names importNames then getModuleName importName
              else importName) ++ ", ")
          ("import " ++ (if isTypeImport names importNames then "type \x7b " else "\x7b ")))
          ", " ++ " \x7d from " ++ quoteSymbol ++ resolvedPath ++ quoteSymbol := rfl
  rw [h0]
  by_cases ht : isTypeImport names importNames = true
  · simp only [ht, if_true, memberTokens]
    rw [TrimSuffix_listed getModuleName importNames _ (by decide)]
  · have hf : isTypeImport names importNames = false := by simpa using ht
    simp only [hf, Bool.false_eq_true, if_false, memberTokens]
    rw [TrimSuffix_listed (fun importName => importName) importNames _ (by decide)]
    simp

theorem HasPrefix_append (s p : String) : HasPrefix (p ++ s) p = true := by
  unfold HasPrefix
  rw [String.data_append, List.isPrefixOf_iff_prefix]
  exact List.prefix_append _ _

/-! ## The module name of a module name -/

theorem isSpaceRX_not_word (c : Char) (h : isWordRX c = true) : isSpaceRX c = false := by
  cases hs : isSpaceRX c with
  | false => rfl
  | true =>
    exfalso
    simp only [isSpaceRX, Bool.or_eq_true, decide_eq_true_eq] at hs
    rcases hs with (((hs | hs) | hs) | hs) | hs <;> subst hs <;> revert h <;> decide

theorem spanPlus_spec (p : Char → Bool) (s w r : List Char)
    (h : spanPlus p s = some (w, r)) :
    w = s.takeWhile p ∧ r = s.dropWhile p ∧ w ≠ [] := by
  unfold spanPlus at h
  rw [List.span_eq_take_drop] at h
  cases ht : s.takeWhile p with
  | nil => rw [ht] at h; simp at h
  | cons c cs =>
    rw [ht] at h
    simp only [Option.some.injEq, Prod.mk.injEq] at h
    exact ⟨h.1.symm, h.2.symm, by rw [← h.1]; simp⟩

theorem spanPlus_all (p : Char → Bool) (s w r : List Char)
    (h : spanPlus p s = some (w, r)) : w ≠ [] ∧ ∀ c ∈ w, p c = true := by
  obtain ⟨h1, _, h3⟩ := spanPlus_spec p s w r h
  refine ⟨h3, ?_⟩
  intro c hc
  rw [h1] at hc
  exact (List.mem_takeWhile_imp hc)

theorem spanPlus_space_word (s : List Char) (h : ∀ c ∈ s, isWordRX c = true) :
    spanPlus isSpaceRX s = none := by
  cases s with
  | nil => rfl
  | cons c cs =>
    unfold spanPlus
    have hc := isSpaceRX_not_word c (h c (by simp))
    simp [List.span_eq_take_drop, List.takeWhile_cons, hc]

theorem matchTypeImport_word (s w : List Char) (h : matchTypeImport s = some w) :
    w ≠ [] ∧ ∀ c ∈ w, isWordRX c = true := by
  unfold matchTypeImport at h
  cases h1 : matchLit "type".data s with
  | none => rw [h1] at h; simp at h
  | some s1 =>
    rw [h1] at h
    dsimp only at h
    cases h2 : spanPlus isSpaceRX s1 with
    | none => rw [h2] at h; simp at h
    | some pr =>
      obtain ⟨sp, s2⟩ := pr
      rw [h2] at h
      dsimp only at h
      split at h
      · simp at h
      · rename_i w2 r2 h3
        simp only [Option.some.injEq] at h
        subst h
        exact spanPlus_all _ _ _ _ h3

theorem findTypeImport_word (s w : List Char) (h : findTypeImport s = some w) :
    w ≠ [] ∧ ∀ c ∈ w, isWordRX c = true := by
  induction s with
  | nil => simp [findTypeImport] at h
  | cons c cs ih =>
    unfold findTypeImport at h
    cases h1 : matchTypeImport (c :: cs) with
    | none => rw [h1] at h; exact ih h
    | some w2 =>
      rw [h1] at h
      simp only [Option.some.injEq] at h
      subst h
      exact matchTypeImport_word _ _ h1

theorem matchAliasImport_word (s w : List Char) (h : matchAliasImport s = some w) :
    w ≠ [] ∧ ∀ c ∈ w, isWordRX c = true := by
  unfold matchAliasImport at h
  cases h1 : spanPlus isWordRX s with
  | none => rw [h1] at h; simp at h
  | some pr =>
    obtain ⟨w1, s1⟩ := pr
    rw [h1] at h
    dsimp only at h
    cases h2 : spanPlus isSpaceRX s1 with
    | none => rw [h2] at h; simp at h
    | some pr2 =>
      obtain ⟨sp, s2⟩ := pr2
      rw [h2] at h
      dsimp only at h
      cases h3 : matchLit "as".data s2 with
      | none => rw [h3] at h; simp at h
      | some s3 =>
        rw [h3] at h
        dsimp only at h
        cases h4 : spanPlus isSpaceRX s3 with
        | none => rw [h4] at h; simp at h
        | some pr4 =>
          obtain ⟨sp4, s4⟩ := pr4
          rw [h4] at h
          dsimp only at h
          cases h5 : spanPlus isWordRX s4 with
          | none => rw [h5] at h; simp at h
          | some pr5 =>
            rw [h5] at h
            simp only [Option.some.injEq] at h
            subst h
            exact spanPlus_all _ _ _ _ h1

theorem findAliasImport_word (s w : List Char) (h : findAliasImport s = some w) :
    w ≠ [] ∧ ∀ c ∈ w, isWordRX c = true := by
  induction s with
  | nil => simp [findAliasImport] at h
  | cons c cs ih =>
    unfold findAliasImport at h
    cases h1 : matchAliasImport (c :: cs) with
    | none => rw [h1] at h; exact ih h
    | some w2 =>
      rw [h1] at h
      simp only [Option.some.injEq] at h
      subst h
      exact matchAliasImport_word _ _ h1

theorem matchTypeImport_of_word (s : List Char) (h : ∀ c ∈ s, isWordRX c = true) :
    matchTypeImport s = none := by
  unfold matchTypeImport
  cases h1 : matchLit "type".data s with
  | none => rfl
  | some s1 =>
    dsimp only
    have hs1 : s1 = s.drop "type".data.length := by
      unfold matchLit at h1
      by_cases hp : ("type".data.isPrefixOf s) = true
      · rw [if_pos hp] at h1
        simp only [Option.some.injEq] at h1
        exact h1.symm
      · rw [if_neg hp] at h1
        simp at h1
    rw [spanPlus_space_word s1 (by
      intro c hc
      rw [hs1] at hc
      exact h c (List.mem_of_mem_drop hc))]

theorem findTypeImport_of_word (s : List Char) (h : ∀ c ∈ s, isWordRX c = true) :
    findTypeImport s = none := by
  induction s with
  | nil => rfl
  | cons c cs ih =>
    unfold findTypeImport
    rw [matchTypeImport_of_word (c :: cs) h]
    exact ih (fun d hd => h d (List.mem_cons_of_mem _ hd))

theorem matchAliasImport_of_word (s : List Char) (h : ∀ c ∈ s, isWordRX c = true) :
    matchAliasImport s = none := by
  unfold matchAliasImport
  cases h1 : spanPlus isWordRX s with
  | none => rfl
  | some pr =>
    obtain ⟨w1, s1⟩ := pr
    dsimp only
    obtain ⟨_, hr, _⟩ := spanPlus_spec _ _ _ _ h1
    have hs1 : s1 = [] := by
      rw [hr, List.dropWhile_eq_nil_iff]
      exact h
    rw [hs1]
    rfl

theorem findAliasImport_of_word (s : List Char) (h : ∀ c ∈ s, isWordRX c = true) :
    findAliasImport s = none := by
  induction s with
  | nil => rfl
  | cons c cs ih =>
    unfold findAliasImport
    rw [matchAliasImport_of_word (c :: cs) h]
    exact ih (fun d hd => h d (List.mem_cons_of_mem _ hd))

theorem getModuleName_of_word (w : List Char) (h : ∀ c ∈ w, isWordRX c = true) :
    getModuleName ⟨w⟩ = ⟨w⟩ := by
  unfold getModuleName
  rw [findTypeImport_of_word w h, findAliasImport_of_word w h]

theorem getModuleName_idem (line : String) :
    getModuleName (getModuleName line) = getModuleName line := by
  cases h1 : findTypeImport line.data with
  | some w =>
    have hw : getModuleName line = ⟨w⟩ := by
      unfold getModuleName; rw [h1]
    rw [hw]
    exact getModuleName_of_word w (findTypeImport_word _ _ h1).2
  | none =>
    cases h2 : findAliasImport line.data with
    | some w =>
      have hw : getModuleName line = ⟨w⟩ := by
        unfold getModuleName; rw [h1, h2]
      rw [hw]
      exact getModuleName_of_word w (findAliasImport_word _ _ h2).2
    | none =>
      have hw : getModuleName line = line := by
        unfold getModuleName; rw [h1, h2]
      rw [hw, hw]

/-! ## Where the entries of the resolver map come from -/

theorem mem_entryNames (fs : FSNode) (extensions : List String) (entry : String × Bool)
    (n : String) (h : n ∈ entryNames fs extensions entry) :
    entry.2 = false ∧ IsSupportedFileExtension extensions entry.1 = true ∧
      ∃ contents, readFile fs entry.1 = some contents ∧ n ∈ exportedNames contents := by
  unfold entryNames at h
  by_cases hc : (entry.2 || !IsSupportedFileExtension extensions entry.1) = true
  · rw [if_pos hc] at h
    simp at h
  · rw [if_neg hc] at h
    simp only [Bool.or_eq_true, Bool.not_eq_true', not_or, Bool.not_eq_true,
      Bool.not_eq_false] at hc
    cases hr : readFile fs entry.1 with
    | none => rw [hr] at h; simp at h
    | some contents =>
      rw [hr] at h
      exact ⟨hc.1, hc.2, contents, rfl, h⟩

theorem mem_registrations (fs : FSNode) (extensions : List String)
    (aliasOrder : String → List (String × String)) (index : BarrelIndex) (r : Registration)
    (h : r ∈ registrations fs extensions aliasOrder index) :
    ∃ ts path contents, (r.barrelDir, ts) ∈ index ∧ r.modulePath ∈ ts ∧
      (path, false) ∈ Walk fs (fun _ => false) (Join [r.barrelDir, r.modulePath]) ∧
      IsSupportedFileExtension extensions path = true ∧
      readFile fs path = some contents ∧ r.moduleName ∈ exportedNames contents := by
  unfold registrations at h
  obtain ⟨e, he, hr⟩ := List.mem_flatMap.1 h
  unfold barrelRegistrations at hr
  obtain ⟨t, ht, hrt⟩ := List.mem_flatMap.1 hr
  obtain ⟨n, hn, hrn⟩ := List.mem_map.1 hrt
  subst hrn
  unfold targetNames at hn
  obtain ⟨entry, hentry, hne⟩ := List.mem_flatMap.1 hn
  obtain ⟨h1, h2, contents, h3, h4⟩ := mem_entryNames fs extensions entry n hne
  obtain ⟨path, k⟩ := entry
  simp only at h1 h2 h3
  subst h1
  exact ⟨e.2, path, contents, he, ht, hentry, h2, h3, h4⟩

theorem lookup_registerBarrels_source (fs : FSNode) (extensions : List String)
    (aliasOrder : String → List (String × String)) (index : BarrelIndex) (key value : String)
    (h : lookupString
      (registerBarrels fs extensions aliasOrder index ⟨[], []⟩).ModuleResolverMap key
        = some value) :
    ∃ d ts t path contents n, (d, ts) ∈ index ∧ t ∈ ts ∧
      (path, false) ∈ Walk fs (fun _ => false) (Join [d, t]) ∧
      IsSupportedFileExtension extensions path = true ∧
      readFile fs path = some contents ∧ n ∈ exportedNames contents ∧
      (key = Join [(AliasPath (aliasOrder d) d).FullPath, n] ∨ key = Join [d, n]) ∧
      value = Join [withoutExtension t] := by
  rw [registerBarrels_eq, foldl_apply_lookup] at h
  cases hl : ((registrations fs extensions aliasOrder index).filter
      fun r => r.writesKey key).getLast? with
  | none =>
    rw [hl] at h
    simp [lookupString] at h
  | some r =>
    rw [hl] at h
    simp only [Option.some.injEq] at h
    have hmem := List.mem_of_getLast?_eq_some hl
    rw [List.mem_filter] at hmem
    obtain ⟨hr, hw⟩ := hmem
    obtain ⟨ts, path, contents, h1, h2, h3, h4, h5, h6⟩ :=
      mem_registrations fs extensions aliasOrder index r hr
    have ha := registrations_alias fs extensions aliasOrder index r hr
    refine ⟨r.barrelDir, ts, r.modulePath, path, contents, r.moduleName, h1, h2, h3, h4, h5,
      h6, ?_, h.symm⟩
    unfold Registration.writesKey at hw
    simp only [Bool.or_eq_true, decide_eq_true_eq] at hw
    rcases hw with hw | hw
    · exact Or.inl (by rw [← ha, hw])
    · exact Or.inr hw.symm

/-! ## The scan of a text of re-export statements -/

theorem span_append_stop (p : Char → Bool) (c : Char) (rest : List Char) (hc : p c = false) :
    ∀ t : List Char, (∀ x ∈ t, p x = true) → (t ++ c :: rest).span p = (t, c :: rest) := by
  intro t
  induction t with
  | nil =>
    intro _
    simp [List.span_eq_take_drop, List.takeWhile_cons, List.dropWhile_cons, hc]
  | cons x xs ih =>
    intro h
    have hx : p x = true := h x (by simp)
    have ih2 := ih (fun y hy => h y (List.mem_cons_of_mem _ hy))
    rw [List.span_eq_take_drop] at ih2 ⊢
    simp only [Prod.mk.injEq] at ih2
    simp [List.takeWhile_cons, List.dropWhile_cons, hx, ih2.1, ih2.2]

theorem spanPlus_append_stop (p : Char → Bool) (c : Char) (rest t : List Char)
    (hc : p c = false) (ht : t ≠ []) (h : ∀ x ∈ t, p x = true) :
    spanPlus p (t ++ c :: rest) = some (t, c :: rest) := by
  unfold spanPlus
  rw [span_append_stop p c rest hc t h]
  cases t with
  | nil => exact absurd rfl ht
  | cons x xs => rfl

theorem matchReExport_statement (t rest : List Char) (ht : t ≠ [])
    (h : ∀ x ∈ t, (x != '\x27' && x != '\x22') = true) :
    matchReExport
        ('e' :: 'x' :: 'p' :: 'o' :: 'r' :: 't' :: ' ' :: '*' :: ' ' :: 'f' :: 'r' :: 'o' ::
          'm' :: ' ' :: '\x27' :: (t ++ '\x27' :: rest))
      = some (t, rest) := by
  have h1 : matchLitFold "export".data
      ('e' :: 'x' :: 'p' :: 'o' :: 'r' :: 't' :: ' ' :: '*' :: ' ' :: 'f' :: 'r' :: 'o' ::
        'm' :: ' ' :: '\x27' :: (t ++ '\x27' :: rest))
      = some (' ' :: '*' :: ' ' :: 'f' :: 'r' :: 'o' :: 'm' :: ' ' :: '\x27' ::
          (t ++ '\x27' :: rest)) := by
    simp [matchLitFold, foldEq]
  have h2 : spanPlus isSpaceRX
      (' ' :: '*' :: ' ' :: 'f' :: 'r' :: 'o' :: 'm' :: ' ' :: '\x27' :: (t ++ '\x27' :: rest))
      = some ([' '], '*' :: ' ' :: 'f' :: 'r' :: 'o' :: 'm' :: ' ' :: '\x27' ::
          (t ++ '\x27' :: rest)) :=
    spanPlus_append_stop isSpaceRX '*' _ [' '] (by decide) (by simp) (by decide)
  have h3 : spanPlus isSpaceRX
      (' ' :: 'f' :: 'r' :: 'o' :: 'm' :: ' ' :: '\x27' :: (t ++ '\x27' :: rest))
      = some ([' '], 'f' :: 'r' :: 'o' :: 'm' :: ' ' :: '\x27' :: (t ++ '\x27' :: rest)) :=
    spanPlus_append_stop isSpaceRX 'f' _ [' '] (by decide) (by simp) (by decide)
  have h4 : matchLitFold "from".data
      ('f' :: 'r' :: 'o' :: 'm' :: ' ' :: '\x27' :: (t ++ '\x27' :: rest))
      = some (' ' :: '\x27' :: (t ++ '\x27' :: rest)) := by
    simp [matchLitFold, foldEq]
  have h5 : spanPlus isSpaceRX (' ' :: '\x27' :: (t ++ '\x27' :: rest))
      = some ([' '], '\x27' :: (t ++ '\x27' :: rest)) :=
    spanPlus_append_stop isSpaceRX '\x27' _ [' '] (by decide) (by simp) (by decide)
  have h6 : spanPlus (fun c => c != '\x27' && c != '\x22') (t ++ '\x27' :: rest)
      = some (t, '\x27' :: rest) :=
    spanPlus_append_stop _ '\x27' rest t (by decide) ht h
  have h7 : matchQuoted (' ' :: '\x27' :: (t ++ '\x27' :: rest)) = some (t, rest) := by
    unfold matchQuoted
    rw [h5]
    simp only [true_or, if_true]
    rw [h6]
  have h8 : matchStarFrom
      ('*' :: ' ' :: 'f' :: 'r' :: 'o' :: 'm' :: ' ' :: '\x27' :: (t ++ '\x27' :: rest))
      = some (' ' :: '\x27' :: (t ++ '\x27' :: rest)) := by
    unfold matchStarFrom matchFrom
    simp only
    rw [h3]
    simp only
    rw [h4]
  unfold matchReExport
  rw [h1]
  simp only
  rw [h2]
  simp only
  unfold firstBranch
  rw [h8]
  simp only
  rw [h7]

theorem scanReExports_zero_cons (c : Char) (cs : List Char) :
    scanReExports 0 (c :: cs)
      = match matchReExport (c :: cs) with
        | some (target, rest) =>
          ⟨target⟩ :: scanReExports ((c :: cs).length - rest.length - 1) cs
        | none => scanReExports 0 cs := by
  rw [scanReExports]
  all_goals
    generalize matchReExport (c :: cs) = m
    cases m <;> rfl

theorem scanReExports_skip :
    ∀ (pre rest : List Char), scanReExports pre.length (pre ++ rest) = scanReExports 0 rest := by
  intro pre
  induction pre with
  | nil => intro rest; rfl
  | cons c cs ih =>
    intro rest
    simp only [List.length_cons, List.cons_append, scanReExports]
    exact ih rest

theorem reExportStatement_data (t : String) :
    (reExportStatement t).data
      = 'e' :: 'x' :: 'p' :: 'o' :: 'r' :: 't' :: ' ' :: '*' :: ' ' :: 'f' :: 'r' :: 'o' ::
          'm' :: ' ' :: '\x27' :: (t.data ++ ['\x27']) := by
  unfold reExportStatement
  simp [String.data_append]

theorem scanReExports_statement (t : String) (rest : List Char) (ht : t.data ≠ [])
    (h : ∀ x ∈ t.data, (x != '\x27' && x != '\x22') = true) :
    scanReExports 0 ((reExportStatement t).data ++ rest) = t :: scanReExports 0 rest := by
  rw [reExportStatement_data]
  have hm := matchReExport_statement t.data rest ht h
  have hform : ('e' :: 'x' :: 'p' :: 'o' :: 'r' :: 't' :: ' ' :: '*' :: ' ' :: 'f' :: 'r' ::
      'o' :: 'm' :: ' ' :: '\x27' :: (t.data ++ ['\x27'])) ++ rest
      = 'e' :: ('x' :: 'p' :: 'o' :: 'r' :: 't' :: ' ' :: '*' :: ' ' :: 'f' :: 'r' :: 'o' ::
          'm' :: ' ' :: '\x27' :: (t.data ++ '\x27' :: rest)) := by
    simp
  rw [hform, scanReExports_zero_cons, hm]
  simp only
  have hlen : ('e' :: 'x' :: 'p' :: 'o' :: 'r' :: 't' :: ' ' :: '*' :: ' ' :: 'f' :: 'r' ::
      'o' :: 'm' :: ' ' :: '\x27' :: (t.data ++ '\x27' :: rest)).length - rest.length - 1
      = ('x' :: 'p' :: 'o' :: 'r' :: 't' :: ' ' :: '*' :: ' ' :: 'f' :: 'r' :: 'o' ::
          'm' :: ' ' :: '\x27' :: (t.data ++ ['\x27'])).length := by
    simp only [List.length_cons, List.length_append, List.length_nil]
    omega
  have hsplit : ('x' :: 'p' :: 'o' :: 'r' :: 't' :: ' ' :: '*' :: ' ' :: 'f' :: 'r' :: 'o' ::
      'm' :: ' ' :: '\x27' :: (t.data ++ '\x27' :: rest))
      = ('x' :: 'p' :: 'o' :: 'r' :: 't' :: ' ' :: '*' :: ' ' :: 'f' :: 'r' :: 'o' ::
          'm' :: ' ' :: '\x27' :: (t.data ++ ['\x27'])) ++ rest := by
    simp
  rw [hlen, hsplit, scanReExports_skip]

theorem scanReExports_newline (rest : List Char) :
    scanReExports 0 ('\n' :: rest) = scanReExports 0 rest := by
  have h : matchReExport ('\n' :: rest) = none := by
    simp [matchReExport, matchLitFold, foldEq]
  rw [scanReExports_zero_cons, h]

theorem reExportTargets_text (targets : List String)
    (h : ∀ t ∈ targets, t.data ≠ [] ∧ ∀ x ∈ t.data, (x != '\x27' && x != '\x22') = true) :
    reExportTargets (reExportText targets) = targets := by
  unfold reExportTargets reExportText
  induction targets with
  | nil => rfl
  | cons t rest ih =>
    have ht := h t (by simp)
    cases rest with
    | nil =>
      simp only [List.map_cons, List.map_nil, stringsJoin]
      have := scanReExports_statement t [] ht.1 ht.2
      rw [List.append_nil] at this
      rw [this]
      rfl
    | cons t2 rest2 =>
      have ih2 := ih (fun u hu => h u (List.mem_cons_of_mem _ hu))
      simp only [List.map_cons, stringsJoin] at ih2 ⊢
      have hdata : (reExportStatement t ++ "\n" ++
          stringsJoin (reExportStatement t2 :: List.map reExportStatement rest2) "\n").data
          = (reExportStatement t).data ++ '\n' ::
            (stringsJoin (reExportStatement t2 :: List.map reExportStatement rest2) "\n").data := by
        simp [String.data_append]
      rw [hdata, scanReExports_statement t _ ht.1 ht.2, scanReExports_newline, ih2]

/-! ## `AliasPath` when at most one rule matches -/

theorem AliasPath_eq_head (rules : List (String × String)) (path : String) :
    AliasPath rules path
      = match (rules.filter fun rule => HasPrefix path rule.1).head? with
        | some rule => ⟨rule.2, Join [rule.2, TrimPrefix path rule.1]⟩
        | none => ⟨path, path⟩ := by
  induction rules with
  | nil => rfl
  | cons rule rest ih =>
    obtain ⟨realPath, aliasName⟩ := rule
    unfold AliasPath
    by_cases h : HasPrefix path realPath = true
    · rw [if_pos h]
      simp [List.filter_cons, h]
    · rw [if_neg h, ih]
      simp [List.filter_cons, h]

theorem AliasPath_perm (l1 l2 : List (String × String)) (path : String) (hp : l1.Perm l2)
    (hu : (l2.filter fun rule => HasPrefix path rule.1).length ≤ 1) :
    AliasPath l1 path = AliasPath l2 path := by
  rw [AliasPath_eq_head, AliasPath_eq_head]
  have hf : (l1.filter fun rule => HasPrefix path rule.1).Perm
      (l2.filter fun rule => HasPrefix path rule.1) := hp.filter _
  have heq : (l1.filter fun rule => HasPrefix path rule.1)
      = (l2.filter fun rule => HasPrefix path rule.1) := by
    cases h2 : (l2.filter fun rule => HasPrefix path rule.1) with
    | nil =>
      rw [h2] at hf
      exact List.Perm.eq_nil hf
    | cons x xs =>
      rw [h2] at hf hu
      cases xs with
      | nil => exact List.perm_singleton.1 hf
      | cons y ys => simp at hu
  rw [heq]

/-! ## Claims on the flattening of nested barrels -/

/-- C1 (counterexample): with the index `r/a -> ["/b"]`, `r/a/b -> ["../../x.ts"]` the leaf
reachable from `r/a` is `r/x.ts`, but the flattened list of `r/a` is `["/x.ts"]`, whose
entry joined with `r/a` is `r/a/x.ts`: the two sets differ. -/
theorem flatten_leaves_rooted_counterexample :
    ∃ fin l, handleNestedBarrels [("r/a", ["/b"]), ("r/a/b", ["../../x.ts"])] = some fin ∧
      lookup fin "r/a" = some l ∧
      ¬ (∀ y, (∃ q ∈ l, Join ["r/a", q] = y) ↔
        ReachLeaf [("r/a", ["/b"]), ("r/a/b", ["../../x.ts"])] "r/a" y) := by
  refine ⟨[("r/a", ["/x.ts"]), ("r/a/b", ["../../x.ts"])], ["/x.ts"], by decide, by decide, ?_⟩
  intro h
  have e1 : Join ["r/a", "/b"] = "r/a/b" := by decide
  have e2 : Join ["r/a/b", "../../x.ts"] = "r/x.ts" := by decide
  have r1 : ReachLeaf [("r/a", ["/b"]), ("r/a/b", ["../../x.ts"])] "r/a/b" "r/x.ts" := by
    have r0 : ReachLeaf [("r/a", ["/b"]), ("r/a/b", ["../../x.ts"])] "r/a/b"
        (Join ["r/a/b", "../../x.ts"]) :=
      ReachLeaf.leaf "r/a/b" "../../x.ts" ["../../x.ts"] (by decide) (by simp) (by decide)
    rwa [e2] at r0
  have r2 : ReachLeaf [("r/a", ["/b"]), ("r/a/b", ["../../x.ts"])] "r/a" "r/x.ts" :=
    ReachLeaf.nested "r/a" "/b" "r/x.ts" ["/b"] (by decide) (by simp) (by rw [e1]; exact r1)
  obtain ⟨q, hq, he⟩ := (h "r/x.ts").2 r2
  simp only [List.mem_singleton] at hq
  subst hq
  exact absurd he (by decide)

/-- C1 (amended): for every barrel index whose targets are relative paths and every barrel
directory `d` in it, after `handleNestedBarrels` the set of the paths `Join [d, p]`, `p` in
the flattened list of `d`, is the set of the leaf paths reachable from `d`. -/
theorem flatten_leaves (m : BarrelIndex) (hnd : (keys m).Nodup)
    (hrel : relativeTargets m = true) :
    ∃ fin, handleNestedBarrels m = some fin ∧ keys fin = keys m ∧
      ∀ d l, lookup fin d = some l →
        ∀ y, (∃ q ∈ l, Join [d, q] = y) ↔ ReachLeaf m d y := by
  obtain ⟨fin, h1, h2, _, h4, h5⟩ := handleNestedBarrels_spec m hnd hrel
  refine ⟨fin, h1, h2, ?_⟩
  intro d l hl y
  rw [← h4 d y]
  exact (ReachLeaf_flat fin h5 d l hl y).symm

/-- C1 (witness): the amended claim on two barrels that re-export each other. -/
theorem flatten_leaves_witness :
    (keys [("r/a", ["./b", "./x.ts"]), ("r/a/b", ["..", "./y.ts"])]).Nodup ∧
    relativeTargets [("r/a", ["./b", "./x.ts"]), ("r/a/b", ["..", "./y.ts"])] = true ∧
    ∃ fin, handleNestedBarrels [("r/a", ["./b", "./x.ts"]), ("r/a/b", ["..", "./y.ts"])]
        = some fin ∧
      keys fin = keys [("r/a", ["./b", "./x.ts"]), ("r/a/b", ["..", "./y.ts"])] ∧
      ∀ d l, lookup fin d = some l →
        ∀ y, (∃ q ∈ l, Join [d, q] = y) ↔
          ReachLeaf [("r/a", ["./b", "./x.ts"]), ("r/a/b", ["..", "./y.ts"])] d y :=
  ⟨by decide, by decide, flatten_leaves _ (by decide) (by decide)⟩

/-- C2 (counterexample): in the chain `X -> ["/b"]`, `X/b -> ["/c"]`,
`X/b/c -> ["../../x.ts"]`, where no directory is reached twice, the depth-first list of `X`
is `["/x.ts"]`, but when `X/b` is visited before `X` the flattened list of `X` is
`["/b/x.ts"]`. -/
theorem flatten_dfs_rooted_counterexample :
    ∃ fin l ds,
      handleNestedBarrels [("X/b", ["/c"]), ("X", ["/b"]), ("X/b/c", ["../../x.ts"])]
        = some fin ∧
      dfsLeaves [("X/b", ["/c"]), ("X", ["/b"]), ("X/b/c", ["../../x.ts"])] 4 "X" []
        = some (l, ds) ∧
      ds.Nodup ∧ lookup fin "X" ≠ some l :=
  ⟨[("X/b", ["/x.ts"]), ("X", ["/b/x.ts"]), ("X/b/c", ["../../x.ts"])], ["/x.ts"],
    ["X", "X/b", "X/b/c"], by decide, by decide, by decide, by decide⟩

/-- C2 (amended): for a barrel index whose targets are relative paths and a barrel directory
`d` below which the depth-first walk enters no barrel directory twice (so that no cycle is
met), the flattened list of `d` is the left-to-right depth-first list of its leaves, a leaf
directly under `d` as written and each nested leaf as the path-join of the targets leading
to it. -/
theorem flatten_dfs (m : BarrelIndex) (hnd : (keys m).Nodup)
    (hrel : relativeTargets m = true) (d : String) (n : Nat) (l ds : List String)
    (hd : d ∈ keys m) (hwalk : dfsLeaves m n d [] = some (l, ds)) (hds : ds.Nodup) :
    ∃ fin, handleNestedBarrels m = some fin ∧ lookup fin d = some l := by
  obtain ⟨fin, h1, h2⟩ := handleNestedBarrels_dfs m hnd hrel
  exact ⟨fin, h1, h2 d n l ds hwalk hds hd⟩

/-- C2 (witness): for the chain `a -> ["./b"]`, `a/b -> ["./c.ts"]` the flattened list of
`a` is `["b/c.ts"]`, whichever of the two barrels is visited first. -/
theorem flatten_dfs_witness :
    (∃ fin, handleNestedBarrels [("a", ["./b"]), ("a/b", ["./c.ts"])] = some fin ∧
      lookup fin "a" = some ["b/c.ts"]) ∧
    (∃ fin, handleNestedBarrels [("a/b", ["./c.ts"]), ("a", ["./b"])] = some fin ∧
      lookup fin "a" = some ["b/c.ts"]) :=
  ⟨flatten_dfs [("a", ["./b"]), ("a/b", ["./c.ts"])] (by decide) (by decide) "a" 3
      ["b/c.ts"] ["a", "a/b"] (by decide) (by decide) (by decide),
    flatten_dfs [("a/b", ["./c.ts"]), ("a", ["./b"])] (by decide) (by decide) "a" 3
      ["b/c.ts"] ["a", "a/b"] (by decide) (by decide) (by decide)⟩

theorem getResolvedModulePaths_visited (index : BarrelIndex) (fuel : Nat) (full rel : String)
    (V : List String) (h : full ∈ V) :
    getResolvedModulePaths (fuel + 1) full rel index V = some ([], V) := by
  unfold getResolvedModulePaths
  rw [if_pos h]

theorem getResolvedModulePaths_enters (index : BarrelIndex) (fuel : Nat) (full rel : String)
    (V res V2 : List String) (hv : full ∉ V) (hl : lookup index full ≠ none)
    (hfuel : unvisited index V < fuel)
    (h : getResolvedModulePaths fuel full rel index V = some (res, V2)) :
    full ∈ V2 ∧ V ⊆ V2 := by
  cases fuel with
  | zero => exact absurd hfuel (Nat.not_lt_zero _)
  | succ n =>
    unfold getResolvedModulePaths at h
    rw [if_neg hv] at h
    cases hl2 : lookup index full with
    | none => exact absurd hl2 hl
    | some ts =>
      simp only [hl2] at h
      have hk : full ∈ keys index := (lookup_isSome_iff index full).1 (by simp [hl2])
      have hlt := unvisited_cons_lt index V full hk hv
      obtain ⟨res2, V3, h2, hs2⟩ := expandPaths_total
        (fun p r v => getResolvedModulePaths n p r index v) index full
        (fun modulePath => Join [rel, modulePath]) ts (full :: V)
        (fun p r V1 hV1 => getResolvedModulePaths_total index n p r V1 (by
          have := unvisited_mono index (full :: V) V1 hV1
          omega))
      rw [h2] at h
      simp only [Option.some.injEq, Prod.mk.injEq] at h
      rw [← h.2]
      exact ⟨hs2 (by simp), fun _ hx => hs2 (List.mem_cons_of_mem _ hx)⟩

/-- C3: `handleNestedBarrels` and `getResolvedModulePaths` terminate on every finite barrel
index, cycles included: `handleNestedBarrels` has a result, and a call of
`getResolvedModulePaths` whose recursion bound exceeds the number of unvisited barrel
directories has a result; the call returns at once, with no path and the visited set
unchanged, for a directory that is already visited, and a call that does not return at once
(the directory is a key that is not visited) adds that directory, so that the number of
unvisited barrel directories goes down.  A larger bound gives the same result. -/
theorem flatten_terminates (index : BarrelIndex) :
    (∃ fin, handleNestedBarrels index = some fin) ∧
    ∀ (fuel : Nat) (full rel : String) (V : List String), unvisited index V < fuel →
      ∃ res V2, getResolvedModulePaths fuel full rel index V = some (res, V2) ∧
        (∀ fuel2, fuel ≤ fuel2 →
          getResolvedModulePaths fuel2 full rel index V = some (res, V2)) ∧
        (full ∈ V → res = [] ∧ V2 = V) ∧
        (full ∉ V → lookup index full ≠ none →
          full ∈ keys index ∧ full ∈ V2 ∧ V ⊆ V2 ∧ unvisited index V2 < unvisited index V) := by
  refine ⟨handleEntries_total index index, ?_⟩
  intro fuel full rel V hfuel
  obtain ⟨res, V2, h, _⟩ := getResolvedModulePaths_total index fuel full rel V hfuel
  refine ⟨res, V2, h,
    fun fuel2 h2 => getResolvedModulePaths_le index fuel fuel2 h2 full rel V _ h, ?_, ?_⟩
  · intro hv
    cases fuel with
    | zero => exact absurd hfuel (Nat.not_lt_zero _)
    | succ n =>
      rw [getResolvedModulePaths_visited index n full rel V hv] at h
      simp only [Option.some.injEq, Prod.mk.injEq] at h
      exact ⟨h.1.symm, h.2.symm⟩
  · intro hv hl
    obtain ⟨a1, a2⟩ := getResolvedModulePaths_enters index fuel full rel V res V2 hv hl hfuel h
    have hk : full ∈ keys index := by
      rw [← lookup_isSome_iff]
      cases hl2 : lookup index full with
      | none => exact absurd hl2 hl
      | some ts => rfl
    refine ⟨hk, a1, a2, ?_⟩
    have h1 : full :: V ⊆ V2 := by
      intro x hx
      rcases List.mem_cons.1 hx with hx | hx
      · exact hx ▸ a1
      · exact a2 hx
    exact Nat.lt_of_le_of_lt (unvisited_mono index (full :: V) V2 h1)
      (unvisited_cons_lt index V full hk hv)

/-- C3 (witness): the termination on two barrels that re-export each other; the bound
`index.length + 1` used by `handleNestedBarrels` is enough for every visited set. -/
theorem flatten_terminates_witness :
    unvisited [("r/a", ["./b", "./x.ts"]), ("r/a/b", ["..", "./y.ts"])] ["r/a"] < 3 ∧
    ∃ res V2, getResolvedModulePaths 3 "r/a/b" "./b"
        [("r/a", ["./b", "./x.ts"]), ("r/a/b", ["..", "./y.ts"])] ["r/a"] = some (res, V2) :=
  ⟨by decide,
    by
      obtain ⟨res, V2, h, _⟩ := (flatten_terminates
        [("r/a", ["./b", "./x.ts"]), ("r/a/b", ["..", "./y.ts"])]).2 3 "r/a/b" "./b" ["r/a"]
        (by decide)
      exact ⟨res, V2, h⟩⟩

/-- C4 (the code on a cycle): for `r/a -> ["./b", "./x.ts"]`, `r/a/b -> ["..", "./y.ts"]`
the barrel visited second reads the list of the first one as already rewritten: when `r/a`
is visited first the list of `r/a/b` holds `../b/y.ts` and `./y.ts`, two entries for the path
`r/a/b/y.ts`; when `r/a/b` is visited first the list of `r/a` holds `x.ts` and `./x.ts`,
two entries for `r/a/x.ts`. -/
theorem flatten_cycle_duplicates :
    handleNestedBarrels [("r/a", ["./b", "./x.ts"]), ("r/a/b", ["..", "./y.ts"])]
      = some [("r/a", ["b/y.ts", "./x.ts"]), ("r/a/b", ["../b/y.ts", "../x.ts", "./y.ts"])] ∧
    Join ["r/a/b", "../b/y.ts"] = Join ["r/a/b", "./y.ts"] ∧
    handleNestedBarrels [("r/a/b", ["..", "./y.ts"]), ("r/a", ["./b", "./x.ts"])]
      = some [("r/a/b", ["../x.ts", "./y.ts"]), ("r/a", ["x.ts", "b/y.ts", "./x.ts"])] ∧
    Join ["r/a", "x.ts"] = Join ["r/a", "./x.ts"] := by
  refine ⟨by decide, by decide, by decide, by decide⟩

/-- C5 (counterexample): the flattening of `r/a -> ["/b"]`, `r/a/b -> ["../../c"]`,
`r/a/c -> ["./z.ts"]` stores `["/c"]` for `r/a`; a second flattening replaces that list by
`["/c/z.ts"]`. -/
theorem flatten_idempotent_rooted_counterexample :
    ∃ fin fin2,
      handleNestedBarrels [("r/a", ["/b"]), ("r/a/b", ["../../c"]), ("r/a/c", ["./z.ts"])]
        = some fin ∧
      handleNestedBarrels fin = some fin2 ∧ lookup fin2 "r/a" ≠ lookup fin "r/a" :=
  ⟨[("r/a", ["/c"]), ("r/a/b", ["../../c"]), ("r/a/c", ["./z.ts"])],
    [("r/a", ["/c/z.ts"]), ("r/a/b", ["../../c"]), ("r/a/c", ["./z.ts"])],
    by decide, by decide, by decide⟩

/-- C5 (amended): flattening is idempotent on indexes whose targets are relative paths:
applying `handleNestedBarrels` to the result of `handleNestedBarrels m`, in any order of
the entries, leaves every list unchanged. -/
theorem flatten_idempotent (m : BarrelIndex) (hnd : (keys m).Nodup)
    (hrel : relativeTargets m = true) :
    ∃ fin, handleNestedBarrels m = some fin ∧
      ∀ q : BarrelIndex, q.Perm fin → handleNestedBarrels q = some q := by
  obtain ⟨fin, h1, h2, _, _, h5⟩ := handleNestedBarrels_spec m hnd hrel
  exact ⟨fin, h1, fun q hq =>
    handleNestedBarrels_flat_perm fin q (by rw [h2]; exact hnd) h5 hq⟩

/-- C5 (witness): idempotence on a chain of two barrels. -/
theorem flatten_idempotent_witness :
    (keys [("a", ["./b"]), ("a/b", ["./c.ts"])]).Nodup ∧
    relativeTargets [("a", ["./b"]), ("a/b", ["./c.ts"])] = true ∧
    ∃ fin, handleNestedBarrels [("a", ["./b"]), ("a/b", ["./c.ts"])] = some fin ∧
      ∀ q : BarrelIndex, q.Perm fin → handleNestedBarrels q = some q :=
  ⟨by decide, by decide, flatten_idempotent _ (by decide) (by decide)⟩

/-- C6 (counterexample): after the flattening of `r/a -> ["/b"]`, `r/a/b -> ["../../c"]`,
`r/a/c -> ["./z.ts"]` the list of `r/a` holds `/c`, and `Join ["r/a", "/c"]` is the barrel
directory `r/a/c`. -/
theorem flatten_only_leaves_rooted_counterexample :
    ∃ fin l,
      handleNestedBarrels [("r/a", ["/b"]), ("r/a/b", ["../../c"]), ("r/a/c", ["./z.ts"])]
        = some fin ∧
      lookup fin "r/a" = some l ∧ "/c" ∈ l ∧ lookup fin (Join ["r/a", "/c"]) ≠ none :=
  ⟨[("r/a", ["/c"]), ("r/a/b", ["../../c"]), ("r/a/c", ["./z.ts"])], ["/c"],
    by decide, by decide, by decide, by decide⟩

/-- C6 (amended): after `handleNestedBarrels` on an index whose targets are relative paths,
for every barrel directory `d` and every entry `p` of its flattened list, `Join [d, p]` is
not a key of the index. -/
theorem flatten_only_leaves (m : BarrelIndex) (hnd : (keys m).Nodup)
    (hrel : relativeTargets m = true) :
    ∃ fin, handleNestedBarrels m = some fin ∧ keys fin = keys m ∧
      ∀ d l, lookup fin d = some l → ∀ p ∈ l, lookup fin (Join [d, p]) = none := by
  obtain ⟨fin, h1, h2, _, _, h5⟩ := handleNestedBarrels_spec m hnd hrel
  exact ⟨fin, h1, h2, h5⟩

/-- C6 (witness): the amended claim on a barrel with a nested barrel and a leaf. -/
theorem flatten_only_leaves_witness :
    (keys [("r", ["./a", "./x.ts"]), ("r/a", ["./y.ts", ".."])]).Nodup ∧
    relativeTargets [("r", ["./a", "./x.ts"]), ("r/a", ["./y.ts", ".."])] = true ∧
    ∃ fin, handleNestedBarrels [("r", ["./a", "./x.ts"]), ("r/a", ["./y.ts", ".."])]
        = some fin ∧
      keys fin = keys [("r", ["./a", "./x.ts"]), ("r/a", ["./y.ts", ".."])] ∧
      ∀ d l, lookup fin d = some l → ∀ p ∈ l, lookup fin (Join [d, p]) = none :=
  ⟨by decide, by decide, flatten_only_leaves _ (by decide) (by decide)⟩

/-! ## Claims on the import rewrite -/

/-- C7 (the code on the flat barrel): for the barrel `components` that re-exports
`./Button` and `./Input`, the statement `import { Button, Input } from './components'` is
replaced by two lines whose paths are `components/Button` and `components/Input`, without
the leading `./` of the path literal: `filepath.Join` has cleaned it away and, the literal
beginning with `./`, nothing is put in front. -/
theorem rewrite_flat_barrel_drops_dot_slash :
    updateContents
      (registerExport
        (registerExport ⟨[], []⟩ "/p/src/components" "/p/src/components" "./Button.ts" "Button")
        "/p/src/components" "/p/src/components" "./Input.ts" "Input")
      "/p/src/App.ts" "import \x7b Button, Input \x7d from \x27./components\x27"
    = "import \x7b Button \x7d from \x27components/Button\x27\nimport \x7b Input \x7d from \x27components/Input\x27" := by
  decide

/-- C8 (the code on two names of one module): with `A` and `B` both declared in
`barrel/mod`, the statement `import { A, B } from './barrel'` is replaced by the statement
`import { A, B } from 'barrel/mod'` written twice, once for each name: the target is
appended to `orderedImportPaths` for every resolved name. -/
theorem rewrite_same_target_duplicates :
    updateContents
      (registerExport (registerExport ⟨[], []⟩ "/p/barrel" "/p/barrel" "./mod.ts" "A")
        "/p/barrel" "/p/barrel" "./mod.ts" "B")
      "/p/App.ts" "import \x7b A, B \x7d from \x27./barrel\x27"
    = "import \x7b A, B \x7d from \x27barrel/mod\x27\nimport \x7b A, B \x7d from \x27barrel/mod\x27" := by
  decide

/-- C9 (the code on a directory target with a dot in its name): the barrel `/p/d`
re-exports the directory `./utils.v2`, where `helper` is declared, and `/p/d/utils` is
another barrel, which re-exports `./impl`, where a `helper` is declared too.  The index is
flat, and the registry maps `helper` under `/p/d` to `utils`, the target without its
"extension" `.v2`.  The first rewrite of `import { helper } from './d'` gives the path
`d/utils`; a second rewrite changes that statement again, to `./d/utils/impl`, and reports
one changed file. -/
theorem rewrite_not_idempotent_dotted_directory :
    handleNestedBarrels [("/p/d", ["./utils.v2"]), ("/p/d/utils", ["./impl.ts"])]
      = some [("/p/d", ["./utils.v2"]), ("/p/d/utils", ["./impl.ts"])] ∧
    updateContents
      (registerExport (registerExport ⟨[], []⟩ "/p/d" "/p/d" "./utils.v2" "helper")
        "/p/d/utils" "/p/d/utils" "./impl.ts" "helper")
      "/p/App.ts" "import \x7b helper \x7d from \x27./d\x27"
      = "import \x7b helper \x7d from \x27d/utils\x27" ∧
    updateContents
      (registerExport (registerExport ⟨[], []⟩ "/p/d" "/p/d" "./utils.v2" "helper")
        "/p/d/utils" "/p/d/utils" "./impl.ts" "helper")
      "/p/App.ts" "import \x7b helper \x7d from \x27d/utils\x27"
      = "import \x7b helper \x7d from \x27./d/utils/impl\x27" ∧
    updatedFilesTotal
      (registerExport (registerExport ⟨[], []⟩ "/p/d" "/p/d" "./utils.v2" "helper")
        "/p/d/utils" "/p/d/utils" "./impl.ts" "helper")
      [("/p/App.ts", "import \x7b helper \x7d from \x27d/utils\x27")] = 1 := by
  refine ⟨by decide, by decide, by decide, by decide⟩

theorem collectImports_none (b : BarrelResolvedPath) (key importPath : String)
    (tokens : List String) (acc : List String × List (String × List String))
    (h : ∀ token ∈ tokens,
      TrimSpace (TrimSuffix (TrimPrefix token "\x7b") "\x7d") ≠ "" →
      b.ResolveModuleName key
        (getModuleName (TrimSpace (TrimSuffix (TrimPrefix token "\x7b") "\x7d"))) = none) :
    collectImports b key importPath tokens acc = acc := by
  induction tokens with
  | nil => obtain ⟨o, g⟩ := acc; rfl
  | cons token rest ih =>
    obtain ⟨o, g⟩ := acc
    unfold collectImports
    dsimp only
    by_cases he : TrimSpace (TrimSuffix (TrimPrefix token "\x7b") "\x7d") = ""
    · rw [if_pos he]
      exact ih (fun t ht => h t (List.mem_cons_of_mem _ ht))
    · rw [if_neg he, h token (by simp) he]
      exact ih (fun t ht => h t (List.mem_cons_of_mem _ ht))

/-- C10: the rewrite returns a matched import statement unchanged whenever its lookup key
(the path literal as written if it begins with `@`, else the path literal joined to the
directory of the file) is not in the ExistenceSet, and also whenever none of the names of
the statement (the non-empty trimmed tokens between the braces) has a ResolverMap entry
under the key. -/
theorem rewrite_unchanged (b : BarrelResolvedPath) (path importStatement : String)
    (m : ImportMatch) (hm : findImportLine importStatement.data = some m)
    (h : b.IsResolved (importKey path m.importPath) = false ∨
      ∀ token ∈ SplitComma m.names,
        TrimSpace (TrimSuffix (TrimPrefix token "\x7b") "\x7d") ≠ "" →
        b.ResolveModuleName (importKey path m.importPath)
          (getModuleName (TrimSpace (TrimSuffix (TrimPrefix token "\x7b") "\x7d"))) = none) :
    rewriteImport b path importStatement = importStatement := by
  unfold rewriteImport
  rw [hm]
  dsimp only
  by_cases hres : b.IsResolved (importKey path m.importPath) = true
  · rcases h with h | h
    · rw [h] at hres
      exact absurd hres (by decide)
    · rw [collectImports_none b _ _ _ _ h]
      simp [hres]
  · simp [hres]

/-- C10 (witness): with the registry of the barrel `components`, a statement whose path
`./components/index` is not a resolved barrel and a statement whose only name `Foo` has no
entry are both returned unchanged. -/
theorem rewrite_unchanged_witness :
    rewriteImport
      (registerExport ⟨[], []⟩ "/p/src/components" "/p/src/components" "./Button.ts" "Button")
      "/p/src/App.ts" "import \x7b Button as Btn \x7d from \x27./components/index\x27"
      = "import \x7b Button as Btn \x7d from \x27./components/index\x27" ∧
    rewriteImport
      (registerExport ⟨[], []⟩ "/p/src/components" "/p/src/components" "./Button.ts" "Button")
      "/p/src/App.ts" "import \x7b Foo \x7d from \x27./components\x27"
      = "import \x7b Foo \x7d from \x27./components\x27" :=
  ⟨rewrite_unchanged _ "/p/src/App.ts" _
      ⟨"\x7b Button as Btn \x7d", "\x27", "./components/index", []⟩ (by decide)
      (Or.inl (by decide)),
    rewrite_unchanged _ "/p/src/App.ts" _
      ⟨"\x7b Foo \x7d", "\x27", "./components", []⟩ (by decide)
      (Or.inr (by decide))⟩

/-! ## Claims on the emitted path and on the alias resolver -/

/-- C11 (the code on a path literal that does not begin with `./`): with `Button` resolved
under `/p/src/components`, the statement `import { Button } from '../components'` of the
file `/p/src/pages/App.ts` is rewritten with the path `./../components/Button`, and the
statement `import { Button } from './components'` of the file `/p/src/App.ts` with the
path `components/Button`: `./` is put in front exactly when the path literal does not
begin with `./`, and the join has already cleaned a leading `./` away. -/
theorem rewrite_prefix_test_on_literal :
    updateContents
      (registerExport ⟨[], []⟩ "/p/src/components" "/p/src/components" "./Button.ts" "Button")
      "/p/src/pages/App.ts" "import \x7b Button \x7d from \x27../components\x27"
      = "import \x7b Button \x7d from \x27./../components/Button\x27" ∧
    updateContents
      (registerExport ⟨[], []⟩ "/p/src/components" "/p/src/components" "./Button.ts" "Button")
      "/p/src/App.ts" "import \x7b Button \x7d from \x27./components\x27"
      = "import \x7b Button \x7d from \x27components/Button\x27" := by
  decide

/-- C12 (the code on two matching rules): with the rules `/r/src` for `@` and
`/r/src/components/ui` for `@ui`, `AliasPath` of `/r/src/components/ui` is the alias of the
rule that the loop over the map meets first: `@`, with the full path `@/components/ui`,
when the rule of `/r/src` comes first, and `@ui` when the other rule comes first. -/
theorem alias_path_first_rule_in_map_order :
    AliasPath [("/r/src", "@"), ("/r/src/components/ui", "@ui")] "/r/src/components/ui"
      = ⟨"@", "@/components/ui"⟩ ∧
    AliasPath [("/r/src/components/ui", "@ui"), ("/r/src", "@")] "/r/src/components/ui"
      = ⟨"@ui", "@ui"⟩ := by
  decide

/-- C13 (the code on a real directory that is a prefix of the text only): with the one
rule `/r/lib` for `@lib`, the real directory is no path-prefix of `/r/library/x`, it is a
prefix of its text, and `AliasPath` of `/r/library/x` is not the identity but `@lib` with
the full path `@lib/rary/x`: the test of the loop is `strings.HasPrefix`.  When the
configuration cannot be opened or decoded, whatever its path, `getAliasPaths` registers no
rule and `AliasPath` is the identity. -/
theorem alias_identity_by_text_prefix :
    isPathPrefix "/r/lib" "/r/library/x" = false ∧
    HasPrefix "/r/library/x" "/r/lib" = true ∧
    AliasPath [("/r/lib", "@lib")] "/r/library/x" = ⟨"@lib", "@lib/rary/x"⟩ ∧
    (∀ (rootPath : String) (tsConfigPath : Option String) (path : String),
      getAliasPaths (fun _ => none) rootPath tsConfigPath = [] ∧
      AliasPath (getAliasPaths (fun _ => none) rootPath tsConfigPath) path = ⟨path, path⟩) := by
  refine ⟨by decide, by decide, by decide, ?_⟩
  intro rootPath tsConfigPath path
  have h : getAliasPaths (fun _ => none) rootPath tsConfigPath = [] := by
    unfold getAliasPaths
    cases tsConfigPath with
    | none => rfl
    | some configPath =>
      dsimp only
      by_cases hc : configPath = ""
      · rw [if_pos hc]
      · rw [if_neg hc]
  refine ⟨h, ?_⟩
  rw [h]
  rfl

/-- C14 (the code on a `baseUrl` other than `.`): the base directory is the directory of
the join of the path of the configuration file itself with `baseUrl`.  For
`/r/tsconfig.json` with the `baseUrl` `./src` and the path `./components/*` of
`@components/*`, the rule is registered for `/r/tsconfig.json/components`, and `AliasPath`
of `/r/src/components` is the identity; for `/r/config/tsconfig.json` with the `baseUrl`
`../src` the rule is registered for `/r/config/components`. -/
theorem alias_base_url_joined_to_config_file :
    getAliasPaths configBaseUrl "/r" (some "tsconfig.json")
      = [("/r/tsconfig.json", "@"), ("/r/tsconfig.json/components", "@components")] ∧
    AliasPath (getAliasPaths configBaseUrl "/r" (some "tsconfig.json")) "/r/src/components"
      = ⟨"/r/src/components", "/r/src/components"⟩ ∧
    getAliasPaths configParentBaseUrl "/r" (some "config/tsconfig.json")
      = [("/r/config", "@"), ("/r/config/components", "@components")] ∧
    AliasPath (getAliasPaths configParentBaseUrl "/r" (some "config/tsconfig.json"))
        "/r/src/components"
      = ⟨"/r/src/components", "/r/src/components"⟩ := by
  decide

/-! ## Claims on the registry and on the discovery of barrel files -/

/-- C15 as stated fails when two barrel directories have the same alias path: with the
alias `@x/*` for `src/a/*` and `lib/a/*`, the alias path of the barrel `/r/src/a` is `@x`,
and the name `Card`, declared under `/r/lib/a` only, resolves under `@x` and does not
resolve under `/r/src/a`. -/
theorem alias_shared_by_two_barrels_counterexample :
    (AliasPath (getAliasPaths configSharedAlias "/r" (some "tsconfig.json")) "/r/src/a").FullPath
      = "@x" ∧
    (BarrelMaps treeSharedAlias (fun _ => false) "/r" [".ts"]
      (fun _ => getAliasPaths configSharedAlias "/r" (some "tsconfig.json"))).map
      (fun b => (b.ResolveModuleName "@x" "Card", b.ResolveModuleName "/r/src/a" "Card"))
      = some (some "Card", none) := by
  decide

/-- C15, amended: let `rules` be the map of the resolver in the order of a later call of
`AliasPath`, let every call made by `BarrelMaps` range over the same entries in an order of
its own, and let at most one rule have a real directory that is a prefix of the directory
`d`.  In the registry that the loop of `BarrelMaps` builds from an index, in any order,
the alias path `a` of `d` and `d` itself are resolved alike, and a name `n` resolves alike
under both, when only registrations of `d` mark `a` or `d`, and only registrations of `n`
under `d` write the key of `n` under `a` or under `d`. -/
theorem alias_resolves_like_raw (fs : FSNode) (extensions : List String)
    (rules : List (String × String)) (aliasOrder : String → List (String × String))
    (index : BarrelIndex) (d n : String)
    (horder : ∀ barrelDir, (aliasOrder barrelDir).Perm rules)
    (hunique : (rules.filter fun rule => HasPrefix d rule.1).length ≤ 1)
    (hident : ∀ r ∈ registrations fs extensions aliasOrder index,
      r.marks (AliasPath rules d).FullPath = true ∨ r.marks d = true → r.barrelDir = d)
    (hkeys : ∀ r ∈ registrations fs extensions aliasOrder index,
      r.writesKey (Join [(AliasPath rules d).FullPath, n]) = true ∨
        r.writesKey (Join [d, n]) = true → r.barrelDir = d ∧ r.moduleName = n) :
    (registerBarrels fs extensions aliasOrder index ⟨[], []⟩).IsResolved
        (AliasPath rules d).FullPath
      = (registerBarrels fs extensions aliasOrder index ⟨[], []⟩).IsResolved d ∧
    (registerBarrels fs extensions aliasOrder index ⟨[], []⟩).ResolveModuleName
        (AliasPath rules d).FullPath n
      = (registerBarrels fs extensions aliasOrder index ⟨[], []⟩).ResolveModuleName d n := by
  have halias : ∀ r ∈ registrations fs extensions aliasOrder index, r.barrelDir = d →
      r.aliasFullPath = (AliasPath rules d).FullPath := by
    intro r hr hd
    rw [registrations_alias fs extensions aliasOrder index r hr, hd,
      AliasPath_perm (aliasOrder d) rules d (horder d) hunique]
  rw [registerBarrels_eq]
  constructor
  · rw [foldl_apply_IsResolved, foldl_apply_IsResolved]
    congr 1
    rw [Bool.eq_iff_iff, List.any_eq_true, List.any_eq_true]
    constructor
    · rintro ⟨r, hr, hm⟩
      have hd := hident r hr (Or.inl hm)
      exact ⟨r, hr, by simp [Registration.marks, hd]⟩
    · rintro ⟨r, hr, hm⟩
      have hd := hident r hr (Or.inr hm)
      have ha := halias r hr hd
      exact ⟨r, hr, by simp [Registration.marks, ha]⟩
  · unfold BarrelResolvedPath.ResolveModuleName
    rw [foldl_apply_lookup, foldl_apply_lookup]
    have hf : (registrations fs extensions aliasOrder index).filter
          (fun r => r.writesKey (Join [(AliasPath rules d).FullPath, n]))
        = (registrations fs extensions aliasOrder index).filter
          (fun r => r.writesKey (Join [d, n])) := by
      apply List.filter_congr
      intro r hr
      rw [Bool.eq_iff_iff]
      constructor
      · intro hw
        obtain ⟨hd, hn⟩ := hkeys r hr (Or.inl hw)
        simp [Registration.writesKey, hd, hn]
      · intro hw
        obtain ⟨hd, hn⟩ := hkeys r hr (Or.inr hw)
        have ha := halias r hr hd
        simp [Registration.writesKey, ha, hn]
    rw [hf]
    cases ((registrations fs extensions aliasOrder index).filter
      (fun r => r.writesKey (Join [d, n]))).getLast? with
    | none => rfl
    | some r => rfl

/-- Witness of C15: the barrel `/p/src/components` under the one rule that maps it to
`@components`, and the name `Button`. -/
theorem alias_resolves_like_raw_witness :
    ((List.filter (fun rule => HasPrefix "/p/src/components" rule.1)
        [("/p/src/components", "@components")]).length ≤ 1 ∧
      ∀ r ∈ registrations treeComponents [".ts", ".js"]
          (fun _ => [("/p/src/components", "@components")])
          [("/p/src/components", ["./Button.ts", "./Card.ts"])],
        r.marks (AliasPath [("/p/src/components", "@components")] "/p/src/components").FullPath
            = true ∨ r.marks "/p/src/components" = true →
          r.barrelDir = "/p/src/components") ∧
    ((registerBarrels treeComponents [".ts", ".js"]
        (fun _ => [("/p/src/components", "@components")])
        [("/p/src/components", ["./Button.ts", "./Card.ts"])] ⟨[], []⟩).IsResolved
        (AliasPath [("/p/src/components", "@components")] "/p/src/components").FullPath
      = (registerBarrels treeComponents [".ts", ".js"]
        (fun _ => [("/p/src/components", "@components")])
        [("/p/src/components", ["./Button.ts", "./Card.ts"])] ⟨[], []⟩).IsResolved
        "/p/src/components" ∧
    (registerBarrels treeComponents [".ts", ".js"]
        (fun _ => [("/p/src/components", "@components")])
        [("/p/src/components", ["./Button.ts", "./Card.ts"])] ⟨[], []⟩).ResolveModuleName
        (AliasPath [("/p/src/components", "@components")] "/p/src/components").FullPath
        "Button"
      = (registerBarrels treeComponents [".ts", ".js"]
        (fun _ => [("/p/src/components", "@components")])
        [("/p/src/components", ["./Button.ts", "./Card.ts"])] ⟨[], []⟩).ResolveModuleName
        "/p/src/components" "Button") :=
  ⟨⟨by decide, by decide⟩,
    alias_resolves_like_raw treeComponents [".ts", ".js"]
      [("/p/src/components", "@components")]
      (fun _ => [("/p/src/components", "@components")])
      [("/p/src/components", ["./Button.ts", "./Card.ts"])] "/p/src/components" "Button"
      (fun _ => List.Perm.refl _) (by decide) (by decide) (by decide)⟩

/-- C16 (the code on a target that exists as a regular file): in `/d`, the file `index.ts`
is under the root and not filtered, its base name is `index.ts`, it can be read, and its
re-export target `./foo` resolves in the words of the specification, since `/d/foo` is no
directory and `/d/foo.ts` exists; `BarrelFilePaths` does not list it, because the
extensions are probed only when nothing exists at the target, and `/d/foo` exists as a
regular file. -/
theorem barrel_file_with_file_target_not_listed :
    (∃ rootNode contents, stat treeExistingFile "/d" = some rootNode ∧
      Visible (fun _ => false) "/d" rootNode "/d/index.ts" (.file contents)) ∧
    Base "/d/index.ts" = "index" ++ ".ts" ∧
    readFile treeExistingFile "/d/index.ts" = some "export * from \x27./foo\x27" ∧
    "./foo" ∈ reExportTargets "export * from \x27./foo\x27" ∧
    TargetResolves treeExistingFile [".ts"] "/d/index.ts" "./foo" ∧
    "/d/index.ts" ∉ BarrelFilePaths treeExistingFile (fun _ => false) "/d" [".ts"] := by
  refine ⟨?_, by decide, by decide, by decide, ?_, by decide⟩
  · refine ⟨_, some "export * from \x27./foo\x27", rfl, ?_⟩
    exact Visible.inside "/d" _ "index.ts" _ "/d/index.ts" _ rfl
      (List.Mem.tail _ (List.Mem.tail _ (List.Mem.head _)))
      (Visible.self "/d/index.ts" _ rfl)
  · exact Or.inr ⟨".ts", by simp, by decide⟩

/-- C17 as stated fails: the index file of `/d` re-exports `./empty`, a file that exists
and declares no name; the registry of `BarrelMaps` is empty, no name resolves, and the
count is 1. -/
theorem count_barrel_without_names_counterexample :
    countBarrelFiles treeNoNames (fun _ => false) "/d" [".ts"] = 1 ∧
    BarrelMaps treeNoNames (fun _ => false) "/d" [".ts"] (fun _ => []) = some ⟨[], []⟩ := by
  decide

/-- C17, amended: the count is the number of the files of the tree at or below the root
that are not filtered, are in no filtered directory, are named `index` followed by one of
the extensions, and for which `getBarrelModulePaths` records at least one module path; it
is 0 when nothing exists at the root.  The names declared under the targets play no
part. -/
theorem count_is_files_with_module_path (fs : FSNode) (ignorePath : String → Bool)
    (rootPath : String) (extensions : List String) :
    countBarrelFiles fs ignorePath rootPath extensions
      = match stat fs rootPath with
        | none => 0
        | some rootNode =>
          countNode ignorePath (recordsModulePath fs extensions) rootPath rootNode := by
  unfold countBarrelFiles
  rw [BarrelFilePaths_eq, List.length_map]
  unfold walkRoot Walk
  cases stat fs rootPath with
  | none => rfl
  | some rootNode => exact countNode_walk fs ignorePath extensions rootNode rootPath

/-- Witness of C17: the count on the tree of the counterexample is the count of the one
index file of `/d`. -/
theorem count_is_files_with_module_path_witness :
    countBarrelFiles treeNoNames (fun _ => false) "/d" [".ts"]
      = (match stat treeNoNames "/d" with
        | none => 0
        | some rootNode =>
          countNode (fun _ => false) (recordsModulePath treeNoNames [".ts"]) "/d" rootNode) ∧
    recordsModulePath treeNoNames [".ts"] "/d/index.ts" = true ∧
    recordsModulePath treeNoNames [".ts"] "/d/empty.ts" = false :=
  ⟨count_is_files_with_module_path treeNoNames (fun _ => false) "/d" [".ts"],
    by decide, by decide⟩

/-! ## Claims on the last registration and on the probe of the extensions -/

/-- C18 (the code on a key written by another barrel): the barrel `/p/a` has the flattened
list `x/impl.ts`, and the file declares `x`, so that the last target of `/p/a` that
declares `x` is `x/impl.ts`.  The nested barrel `/p/a/x` has the list `./impl.ts`, and the
statement `export { y }` of the file gives the empty name, whose key under `/p/a/x` is the
key of `x` under `/p/a`.  `BarrelMaps` resolves `x` under `/p/a` to `impl`, and the same
loop over the index in the other order resolves it to `x/impl`. -/
theorem last_target_overwritten_by_empty_name :
    getBarrelDirsWithModulePaths treeNameCollision (fun _ => false) "/p" [".ts"]
      = some [("/p/a", ["x/impl.ts"]), ("/p/a/x", ["./impl.ts"])] ∧
    declaredNames treeNameCollision [".ts"] (Join ["/p/a", "x/impl.ts"]) = ["x", ""] ∧
    Join ["/p/a/x", ""] = Join ["/p/a", "x"] ∧
    (BarrelMaps treeNameCollision (fun _ => false) "/p" [".ts"] (fun _ => [])).map
      (fun b => b.ResolveModuleName "/p/a" "x") = some (some "impl") ∧
    (registerBarrels treeNameCollision [".ts"] (fun _ => [])
      [("/p/a/x", ["./impl.ts"]), ("/p/a", ["x/impl.ts"])] ⟨[], []⟩).ResolveModuleName
      "/p/a" "x" = some "x/impl" := by
  decide

/-- C19: let the text of a file be the re-export statements of `targets`, one on a line,
and let nothing exist at the path of any of them.  The result of `getBarrelModulePaths`
holds, in the order of the statements, for each target the one entry made of the target
and of the first of the extensions, in their order, with which its path exists, and no
entry for a target whose path exists with none of them.  For every file the result is the
concatenation, in the order of the matches of the text, of what each match records, and a
target at whose path nothing exists records that one entry or nothing. -/
theorem module_paths_probe_in_order (fs : FSNode) (filePath : String)
    (extensions targets : List String)
    (hread : readFile fs filePath = some (reExportText targets))
    (hplain : ∀ t ∈ targets,
      t.data ≠ [] ∧ ∀ x ∈ t.data, (x != '\x27' && x != '\x22') = true)
    (hmissing : ∀ t ∈ targets, (stat fs (Join [Dir filePath, t])).isSome = false) :
    getBarrelModulePaths fs filePath extensions
      = targets.flatMap (fun t =>
          match firstExisting fs (Join [Dir filePath, t]) extensions with
          | some extension => [t ++ extension]
          | none => []) ∧
    (∀ path : String,
      getBarrelModulePaths fs path extensions
        = match readFile fs path with
          | none => []
          | some content =>
            (reExportTargets content).flatMap (recordModulePath fs path extensions)) ∧
    (∀ path t : String, (stat fs (Join [Dir path, t])).isSome = false →
      recordModulePath fs path extensions t
        = match firstExisting fs (Join [Dir path, t]) extensions with
          | some extension => [t ++ extension]
          | none => []) := by
  have hrecord : ∀ path t : String, (stat fs (Join [Dir path, t])).isSome = false →
      recordModulePath fs path extensions t
        = match firstExisting fs (Join [Dir path, t]) extensions with
          | some extension => [t ++ extension]
          | none => [] := by
    intro path t hstat
    unfold recordModulePath
    dsimp only
    cases hs : stat fs (Join [Dir path, t]) with
    | some info => rw [hs] at hstat; simp at hstat
    | none => exact probeExtensions_eq fs _ t extensions
  refine ⟨?_, fun path => getBarrelModulePaths_eq fs path extensions, hrecord⟩
  rw [getBarrelModulePaths_eq, hread]
  simp only
  rw [reExportTargets_text targets hplain]
  apply List.flatMap_congr
  intro t ht
  exact hrecord filePath t (hmissing t ht)

/-- Witness of C19: the index file of `/p/src/components` holds the statements of
`./Button`, `./Card` and `./Nope`, and the extensions are `.ts` and `.js`.  The target
`./Card` exists with both and is recorded as `./Card.ts`, the target `./Nope` exists with
neither and is dropped: the result is `./Button.ts`, `./Card.ts`. -/
theorem module_paths_probe_in_order_witness :
    (readFile treeComponents "/p/src/components/index.ts"
        = some (reExportText ["./Button", "./Card", "./Nope"]) ∧
      ∀ t ∈ ["./Button", "./Card", "./Nope"],
        (stat treeComponents (Join [Dir "/p/src/components/index.ts", t])).isSome = false) ∧
    (stat treeComponents "/p/src/components/Card.ts").isSome = true ∧
    (stat treeComponents "/p/src/components/Card.js").isSome = true ∧
    getBarrelModulePaths treeComponents "/p/src/components/index.ts" [".ts", ".js"]
      = ["./Button.ts", "./Card.ts"] ∧
    getBarrelModulePaths treeComponents "/p/src/components/index.ts" [".js", ".ts"]
      = ["./Button.ts", "./Card.js"] :=
  ⟨⟨by decide, by decide⟩, by decide, by decide,
    (module_paths_probe_in_order treeComponents "/p/src/components/index.ts" [".ts", ".js"]
      ["./Button", "./Card", "./Nope"] (by decide) (by decide) (by decide)).1.trans
      (by decide),
    (module_paths_probe_in_order treeComponents "/p/src/components/index.ts" [".js", ".ts"]
      ["./Button", "./Card", "./Nope"] (by decide) (by decide) (by decide)).1.trans
      (by decide)⟩

/-- C20 (the code on a target that exists as a regular file): in `/d`, the target `./foo`
of the index file is the regular file `foo`, and `foo.ts` exists; `getBarrelModulePaths`
records nothing, since the extensions are probed only when nothing exists at the target,
and the index file is not a barrel file. -/
theorem existing_file_target_not_probed :
    (stat treeExistingFile "/d/foo").map FSNode.isDir = some false ∧
    (stat treeExistingFile "/d/foo.ts").isSome = true ∧
    reExportTargets "export * from \x27./foo\x27" = ["./foo"] ∧
    getBarrelModulePaths treeExistingFile "/d/index.ts" [".ts"] = [] ∧
    BarrelFilePaths treeExistingFile (fun _ => false) "/d" [".ts"] = [] := by
  decide

/-! ## Claims on the names of a rewritten statement -/

/-- C21 (the code on an aliased name that ends in `type`): `getModuleName` of
`Prototype as P` is `as`, since the pattern `TypeImportRX` is searched anywhere in the
token and finds `type as`; for `Button as Btn`, `type Foo` and `Foo` the results are
`Button`, `Foo` and `Foo`.  With `Prototype` and `Button` both resolved under `/p/lib`, the
rewrite of `import { Prototype as P, Button } from './lib'` drops `Prototype as P`. -/
theorem module_name_of_alias_after_type_suffix :
    getModuleName "Prototype as P" = "as" ∧
    getModuleName "Button as Btn" = "Button" ∧
    getModuleName "type Foo" = "Foo" ∧
    getModuleName "Foo" = "Foo" ∧
    updateContents
      (registerExport (registerExport ⟨[], []⟩ "/p/lib" "/p/lib" "./a.ts" "Prototype")
        "/p/lib" "/p/lib" "./b.ts" "Button")
      "/p/App.ts" "import \x7b Prototype as P, Button \x7d from \x27./lib\x27"
      = "import \x7b Button \x7d from \x27lib/b\x27" := by
  decide

/-- C22: for a matched import statement whose key is resolved and of which at least one
name resolves, the rewrite is the list, one line for each resolved name in the order of
the statement, of the statements built from the resolved names that share the emitted
path; the module name of every member token of an emitted statement resolves under the
key, and a name whose module name does not resolve is a member token of none of them. -/
theorem unresolved_names_dropped (b : BarrelResolvedPath) (path importStatement : String)
    (m : ImportMatch) (hm : findImportLine importStatement.data = some m)
    (hres : b.IsResolved (importKey path m.importPath) = true)
    (hsome : resolvedNames b (importKey path m.importPath) m.names ≠ []) :
    rewriteImport b path importStatement
      = stringsJoin
          ((resolvedNames b (importKey path m.importPath) m.names).map fun importName =>
            "import " ++
              (if isTypeImport m.names
                  (namesUnder b (importKey path m.importPath) m.importPath m.names
                    (emittedPath b (importKey path m.importPath) m.importPath importName))
                then "type \x7b " else "\x7b ") ++
              stringsJoin
                (memberTokens m.names
                  (namesUnder b (importKey path m.importPath) m.importPath m.names
                    (emittedPath b (importKey path m.importPath) m.importPath importName)))
                ", " ++
              " \x7d from " ++ m.quoteSymbol ++
              emittedPath b (importKey path m.importPath) m.importPath importName ++
              m.quoteSymbol)
          "\n" ∧
    (∀ importName ∈ resolvedNames b (importKey path m.importPath) m.names,
      ∀ member ∈ memberTokens m.names
          (namesUnder b (importKey path m.importPath) m.importPath m.names
            (emittedPath b (importKey path m.importPath) m.importPath importName)),
        (b.ResolveModuleName (importKey path m.importPath) (getModuleName member)).isSome
          = true) ∧
    (∀ token ∈ importNamesOf m.names,
      b.ResolveModuleName (importKey path m.importPath) (getModuleName token) = none →
      ∀ importName ∈ resolvedNames b (importKey path m.importPath) m.names,
        token ∉ memberTokens m.names
          (namesUnder b (importKey path m.importPath) m.importPath m.names
            (emittedPath b (importKey path m.importPath) m.importPath importName))) := by
  have hmem : ∀ importName ∈ resolvedNames b (importKey path m.importPath) m.names,
      ∀ member ∈ memberTokens m.names
          (namesUnder b (importKey path m.importPath) m.importPath m.names
            (emittedPath b (importKey path m.importPath) m.importPath importName)),
        (b.ResolveModuleName (importKey path m.importPath) (getModuleName member)).isSome
          = true := by
    intro importName _ member hmember
    have hgroup : ∀ u ∈ namesUnder b (importKey path m.importPath) m.importPath m.names
        (emittedPath b (importKey path m.importPath) m.importPath importName),
        (b.ResolveModuleName (importKey path m.importPath) (getModuleName u)).isSome
          = true := by
      intro u hu
      unfold namesUnder resolvedNames at hu
      exact (List.mem_filter.1 (List.mem_filter.1 hu).1).2
    unfold memberTokens at hmember
    by_cases ht : isTypeImport m.names
        (namesUnder b (importKey path m.importPath) m.importPath m.names
          (emittedPath b (importKey path m.importPath) m.importPath importName)) = true
    · rw [if_pos ht] at hmember
      obtain ⟨u, hu, hmu⟩ := List.mem_map.1 hmember
      rw [← hmu, getModuleName_idem]
      exact hgroup u hu
    · rw [if_neg ht] at hmember
      exact hgroup member hmember
  refine ⟨?_, hmem, ?_⟩
  · rw [rewriteImport_eq b path importStatement m hm hres, if_neg hsome]
    congr 1
    apply List.map_congr_left
    intro importName _
    rw [newImportStatement_eq]
  · intro token _ hnone importName hin hmember
    have := hmem importName hin token hmember
    rw [hnone] at this
    exact absurd this (by decide)

/-- Witness of C22: with `Button` resolved under `/p/lib` and `Foo` not, the statement
`import { Foo, Button } from './lib'` is rewritten to the statement of `Button` alone. -/
theorem unresolved_names_dropped_witness :
    (findImportLine "import \x7b Foo, Button \x7d from \x27./lib\x27".data
        = some ⟨"\x7b Foo, Button \x7d", "\x27", "./lib", []⟩ ∧
      (registerExport ⟨[], []⟩ "/p/lib" "/p/lib" "./b.ts" "Button").IsResolved
        (importKey "/p/App.ts" "./lib") = true ∧
      resolvedNames (registerExport ⟨[], []⟩ "/p/lib" "/p/lib" "./b.ts" "Button")
        (importKey "/p/App.ts" "./lib") "\x7b Foo, Button \x7d" ≠ []) ∧
    rewriteImport (registerExport ⟨[], []⟩ "/p/lib" "/p/lib" "./b.ts" "Button") "/p/App.ts"
        "import \x7b Foo, Button \x7d from \x27./lib\x27"
      = "import \x7b Button \x7d from \x27lib/b\x27" :=
  ⟨⟨by decide, by decide, by decide⟩,
    (unresolved_names_dropped (registerExport ⟨[], []⟩ "/p/lib" "/p/lib" "./b.ts" "Button")
      "/p/App.ts" "import \x7b Foo, Button \x7d from \x27./lib\x27"
      ⟨"\x7b Foo, Button \x7d", "\x27", "./lib", []⟩ (by decide) (by decide)
      (by decide)).1.trans (by decide)⟩

/-! ## Claims on the form of an emitted statement and on the prefix test of the alias -/

/-- C23 (the code on a single name that contains `type `): an emitted statement begins
with `import type {` exactly when the test `isTypeImport` holds, that is, when the names
group of the statement begins with `type {` or the group of the target is one name that
contains the text `type ` anywhere.  The name `Prototype as P` carries no `type` tag and
contains `type `: with `as` resolved under `/p/lib`, the statement
`import { Prototype as P } from './lib'` is rewritten to `import type { as } from 'lib/mod'`. -/
theorem type_only_by_substring :
    (∀ (names quoteSymbol resolvedPath : String) (importNames : List String),
      HasPrefix (newImportStatement names quoteSymbol resolvedPath importNames)
        "import type \x7b" = isTypeImport names importNames) ∧
    HasPrefix "\x7b Prototype as P \x7d" "type \x7b" = false ∧
    HasPrefix "Prototype as P" "type " = false ∧
    isTypeImport "\x7b Prototype as P \x7d" ["Prototype as P"] = true ∧
    updateContents (registerExport ⟨[], []⟩ "/p/lib" "/p/lib" "./mod.ts" "as") "/p/App.ts"
        "import \x7b Prototype as P \x7d from \x27./lib\x27"
      = "import type \x7b as \x7d from \x27lib/mod\x27" := by
  refine ⟨?_, by decide, by decide, by decide, by decide⟩
  intro names quoteSymbol resolvedPath importNames
  rw [newImportStatement_eq]
  by_cases ht : isTypeImport names importNames = true
  · rw [ht, if_pos rfl]
    have h1 : "import " ++ "type \x7b " = "import type \x7b" ++ " " := by decide
    rw [h1]
    simp only [String.append_assoc]
    exact HasPrefix_append _ _
  · have hf : isTypeImport names importNames = false := by simpa using ht
    rw [hf]
    simp only [Bool.false_eq_true, if_false]
    unfold HasPrefix
    simp only [String.data_append]
    simp [List.isPrefixOf]

/-- C24 (the code on an aliased name that ends in `type`): an emitted statement that is not
type-only lists the names grouped under its target as they are, separated by `, `, and a
type-only statement lists what `getModuleName` returns for each of them, which is not
always the bare identifier: for `Prototype as P` it is `as`.  With `as` resolved under
`/p/lib`, the statement `import type { Foo, Prototype as P } from './lib'` is rewritten to
`import type { as } from 'lib/mod'`.  The plain statement
`import { Button as B } from './lib'` keeps `Button as B`. -/
theorem type_only_member_is_module_name :
    (∀ (names quoteSymbol resolvedPath : String) (importNames : List String),
      newImportStatement names quoteSymbol resolvedPath importNames
        = (if isTypeImport names importNames then
            "import type \x7b " ++ stringsJoin (importNames.map getModuleName) ", "
          else "import \x7b " ++ stringsJoin importNames ", ") ++
          " \x7d from " ++ quoteSymbol ++ resolvedPath ++ quoteSymbol) ∧
    getModuleName "Prototype as P" = "as" ∧
    updateContents (registerExport ⟨[], []⟩ "/p/lib" "/p/lib" "./mod.ts" "as") "/p/App.ts"
        "import type \x7b Foo, Prototype as P \x7d from \x27./lib\x27"
      = "import type \x7b as \x7d from \x27lib/mod\x27" ∧
    updateContents
      (registerExport (registerExport ⟨[], []⟩ "/p/lib" "/p/lib" "./a.ts" "Prototype")
        "/p/lib" "/p/lib" "./b.ts" "Button")
      "/p/App.ts" "import \x7b Button as B \x7d from \x27./lib\x27"
      = "import \x7b Button as B \x7d from \x27lib/b\x27" := by
  refine ⟨?_, by decide, by decide, by decide⟩
  intro names quoteSymbol resolvedPath importNames
  rw [newImportStatement_eq]
  by_cases ht : isTypeImport names importNames = true
  · rw [ht]
    simp only [if_true, memberTokens, ht]
    have h1 : "import " ++ "type \x7b " = "import type \x7b " := by decide
    rw [h1]
  · have hf : isTypeImport names importNames = false := by simpa using ht
    rw [hf]
    simp only [Bool.false_eq_true, if_false, memberTokens, hf]
    have h1 : "import " ++ "\x7b " = "import \x7b " := by decide
    rw [h1]

/-- C25 (the code on a real directory that is a prefix of a longer name): with the one
rule `/r/src/comp` for `@comp`, `AliasPath` of `/r/src/components` is not the identity: the
test is `strings.HasPrefix` on the text, the rule matches, and the full path is the alias
joined with the rest of the text, `@comp/onents`.  For `/r/src/comp/ui` the full path is
`@comp/ui`. -/
theorem alias_path_prefix_of_text :
    HasPrefix "/r/src/components" "/r/src/comp" = true ∧
    AliasPath [("/r/src/comp", "@comp")] "/r/src/components" = ⟨"@comp", "@comp/onents"⟩ ∧
    AliasPath [("/r/src/comp", "@comp")] "/r/src/comp/ui" = ⟨"@comp", "@comp/ui"⟩ := by
  decide

/-! ## Claims on the names that enter the registry -/

/-- C26 (the code on an export list): for the text `export { Foo, Bar }` the scan of
`ExportLineWithModuleRX` gives one match whose first group is empty, the names of the list
being in the second group, which `BarrelMaps` does not read.  In the barrel `/p/d`, whose
target `./mod` holds that statement, neither `Foo` nor `Bar` resolves, and the one entry
of the resolver map is that of the empty name; the declaration `export const Foo = 1`
gives the name `Foo`. -/
theorem export_list_gives_empty_name :
    exportedNames "const Foo = 1\nconst Bar = 2\nexport \x7b Foo, Bar \x7d" = [""] ∧
    exportedNames "export const Foo = 1" = ["Foo"] ∧
    (BarrelMaps treeExportList (fun _ => false) "/p" [".ts"] (fun _ => [])).map
      (fun b => (b.ResolveModuleName "/p/d" "Foo", b.ResolveModuleName "/p/d" "Bar",
        b.ModuleResolverMap))
      = some (none, none, [("/p/d", "mod")]) := by
  decide

/-- C27 (the code on a barrel whose only name is the empty one): in the barrel `/p/d`,
whose target holds only the statement `export { Foo, Bar }`, the one registration has the
empty name; `/p/d` is in the existence map, and the only key of the resolver map is `/p/d`
itself, the key of the empty name. -/
theorem identity_resolved_by_empty_name :
    (registrations treeExportList [".ts"] (fun _ => []) [("/p/d", ["./mod.ts"])]).map
      (fun r => r.moduleName) = [""] ∧
    getBarrelDirsWithModulePaths treeExportList (fun _ => false) "/p" [".ts"]
      = some [("/p/d", ["./mod.ts"])] ∧
    (BarrelMaps treeExportList (fun _ => false) "/p" [".ts"] (fun _ => [])).map
      (fun b => (b.IsResolved "/p/d", b.ResolveModuleName "/p/d" "",
        b.ModuleResolverMap.map Prod.fst))
      = some (true, some "mod", ["/p/d"]) := by
  decide

/-- C28 (the code on a filtered module file): the walk of `BarrelMaps` tests the extension
of a file and does not consult the path filter.  With a filter that holds of
`/p/lib/secret.ts` and of nothing else, the index file of `/p/lib`, which re-exports
`./secret`, is listed, and the name `Key` declared in the filtered file is registered: it
resolves under `/p/lib`. -/
theorem names_of_filtered_file_registered :
    (fun p : String => decide (p = "/p/lib/secret.ts")) "/p/lib/secret.ts" = true ∧
    BarrelFilePaths treeIgnoredModule (fun p => decide (p = "/p/lib/secret.ts")) "/p" [".ts"]
      = ["/p/lib/index.ts"] ∧
    declaredNames treeIgnoredModule [".ts"] "/p/lib/secret.ts" = ["Key"] ∧
    (BarrelMaps treeIgnoredModule (fun p => decide (p = "/p/lib/secret.ts")) "/p" [".ts"]
      (fun _ => [])).map (fun b => b.ResolveModuleName "/p/lib" "Key")
      = some (some "secret") := by
  decide

/-- C29 (the code on a barrel reached along two paths): `/a` re-exports `./b` and `./b/c`,
`/a/b` re-exports `./c`, and `/a/b/c` re-exports `./leaf.ts`.  When `/a` is visited first
its list is `b/c/leaf.ts`, once; when `/a/b` is visited before `/a`, the list of `/a/b` is
already rewritten, `/a/b/c` is not entered on the way through `./b`, and the list of `/a`
holds `b/c/leaf.ts` twice. -/
theorem flatten_depends_on_order :
    (keys [("/a", ["./b", "./b/c"]), ("/a/b", ["./c"]), ("/a/b/c", ["./leaf.ts"])]).Nodup ∧
    relativeTargets [("/a", ["./b", "./b/c"]), ("/a/b", ["./c"]), ("/a/b/c", ["./leaf.ts"])]
      = true ∧
    (handleNestedBarrels
        [("/a", ["./b", "./b/c"]), ("/a/b", ["./c"]), ("/a/b/c", ["./leaf.ts"])]).map
      (fun fin => lookup fin "/a") = some (some ["b/c/leaf.ts"]) ∧
    (handleNestedBarrels
        [("/a/b", ["./c"]), ("/a", ["./b", "./b/c"]), ("/a/b/c", ["./leaf.ts"])]).map
      (fun fin => lookup fin "/a") = some (some ["b/c/leaf.ts", "b/c/leaf.ts"]) := by
  decide

/-- C30 (the code on a directory with two barrel files): in `/p/d` the file `index.js`
re-exports `./a` and the file `index.ts` re-exports `./b`.  `BarrelFilePaths` lists both
files, and the target of `index.js` resolves to `./a.js`; the map write for `index.ts`
replaces the list of `/p/d`, which is `./b.ts` alone, and `A` does not resolve. -/
theorem second_index_file_replaces_first :
    BarrelFilePaths treeTwoIndexFiles (fun _ => false) "/p" [".ts", ".js"]
      = ["/p/d/index.js", "/p/d/index.ts"] ∧
    getBarrelModulePaths treeTwoIndexFiles "/p/d/index.js" [".ts", ".js"] = ["./a.js"] ∧
    (walkRoot treeTwoIndexFiles (fun _ => false) "/p").foldl
      (visitBarrelDir treeTwoIndexFiles (fun _ => false) [".ts", ".js"]) []
      = [("/p/d", ["./b.ts"])] ∧
    getBarrelDirsWithModulePaths treeTwoIndexFiles (fun _ => false) "/p" [".ts", ".js"]
      = some [("/p/d", ["./b.ts"])] ∧
    (BarrelMaps treeTwoIndexFiles (fun _ => false) "/p" [".ts", ".js"] (fun _ => [])).map
      (fun b => (b.ResolveModuleName "/p/d" "A", b.ResolveModuleName "/p/d" "B"))
      = some (none, some "b") := by
  decide

end NoBarrel
